import Mathlib

/-!
LSGraph: breadth-first search, triangle counting and batched ingestion.

A shallow embedding of `include/TC.h`, `include/BFS.h` and the batching code of
`src/LSGraph-Bench.cc`, followed by the properties proved about it.

Conventions of the embedding.

* Vertex ids (`uint32_t`) are natural numbers; the places where the source
  narrows or wraps a machine integer carry an explicit `%`.
* A `std::vector` is a `List`.  A read one position past the end of a vector
  (which `countCommon` performs) yields an arbitrary value, supplied by the
  parameter `oob`.
* Loops whose termination is not structural take a fuel argument and return
  `none` when it runs out; an access outside a vector that the source writes to
  also yields `none`.
* Parallel loops are run in an explicit order given by a schedule parameter;
  the properties are proved for every admissible schedule.
-/

namespace LSGraph

/-! ## Machine integers -/

/-- Number of values of a 32-bit word. -/
def UINT32_SIZE : Nat := 2 ^ 32

/-- Number of values of a 64-bit word. -/
def UINT64_SIZE : Nat := 2 ^ 64

/-- Conversion of an unsigned 32-bit value to `int32_t` (two's complement), as in
the assignment `Parents[d] = s`. -/
def toInt32 (s : Nat) : Int :=
  if s % UINT32_SIZE < 2 ^ 31 then ((s % UINT32_SIZE : Nat) : Int)
  else ((s % UINT32_SIZE : Nat) : Int) - (UINT32_SIZE : Int)

/-- Conversion of an `int32_t` to `uint32_t`: the vertex id a slot holds. -/
def toUInt32 (x : Int) : Nat := (x % (UINT32_SIZE : Int)).toNat

/-! ## The graph store -/

/-- Modelled from the spec: the graph store handle (`LSGraph.h` is not part of the
sources).  Only the capability set the algorithms use is kept: the vertex count
(`get_num_vertices`) and the enumeration of the out-neighbours of a vertex. -/
structure Graph where
  /-- The value returned by `get_num_vertices()`. -/
  num_vertices : Nat
  /-- The out-neighbours of a vertex, in the order the store enumerates them. -/
  neighbors : Nat → List Nat

/-- The value of `G.get_num_vertices()`. -/
def Graph.get_num_vertices (G : Graph) : Nat := G.num_vertices

/-- Every edge joins two vertices of `[0, n)` and `n` fits the `uint32_t` vertex
count of the store. -/
def Graph.WellFormed (G : Graph) : Prop :=
  G.num_vertices < UINT32_SIZE ∧
    ∀ s, s < G.num_vertices → ∀ d, d ∈ G.neighbors s → d < G.num_vertices

/-- All edges `(s, d)` of the graph, by source vertex. -/
def Graph.edges (G : Graph) : List (Nat × Nat) :=
  (List.range G.num_vertices).flatMap fun s => (G.neighbors s).map fun d => (s, d)

/-- The neighbour cache `mp` built by `test_tc`: `mp[i]` is the list the store
prints for vertex `i`. -/
def neighborCache (G : Graph) : List (List Nat) :=
  (List.range G.num_vertices).map G.neighbors

/-! ## Triangle counting (`TC.h`) -/

/-- The loop of `countCommon`.  The state is `(i, j, a_v, b_v, ans)`; `size_a`
and `size_b` are the `uint32_t` sizes; `oob_a` and `oob_b` are the values found
one position past the end of the two vectors. -/
def countCommon_loop (nei_a nei_b : List Nat) (size_a size_b a b oob_a oob_b : Nat) :
    Nat → Nat → Nat → Nat → Nat → Nat → Option Nat
  | fuel, i, j, a_v, b_v, ans =>
    if i < size_a ∧ j < size_b ∧ a_v < a ∧ b_v < b then
      match fuel with
      | 0 => none
      | fuel + 1 =>
        if a_v = b_v then
          countCommon_loop nei_a nei_b size_a size_b a b oob_a oob_b fuel (i + 1) (j + 1)
            (nei_a.getD (i + 1) oob_a) (nei_b.getD (j + 1) oob_b) (ans + 1)
        else if a_v < b_v then
          countCommon_loop nei_a nei_b size_a size_b a b oob_a oob_b fuel (i + 1) j
            (nei_a.getD (i + 1) oob_a) b_v ans
        else
          countCommon_loop nei_a nei_b size_a size_b a b oob_a oob_b fuel i (j + 1)
            a_v (nei_b.getD (j + 1) oob_b) ans
    else some ans

/-- The function `countCommon(G, a, b, mp)`.  The graph argument is unused by the
source and omitted.  `oob v` is the value found one position past the end of
`mp[v]`. -/
def countCommon (oob : Nat → Nat) (mp : List (List Nat)) (a b : Nat) : Option Nat :=
  let nei_a := mp.getD a []
  let nei_b := mp.getD b []
  let size_a := nei_a.length % UINT32_SIZE
  let size_b := nei_b.length % UINT32_SIZE
  if size_a = 0 ∨ size_b = 0 then some 0
  else
    countCommon_loop nei_a nei_b size_a size_b a b (oob a) (oob b) (size_a + size_b) 0 0
      (nei_a.getD 0 (oob a)) (nei_b.getD 0 (oob b)) 0

/-- The loop of `countCommon` with a record of the element reads it performs: a
read of `nei_a[i]` is recorded as `(false, i)` and a read of `nei_b[j]` as
`(true, j)`.  The loop is that of `countCommon_loop`. -/
def countCommon_loop_traced (nei_a nei_b : List Nat) (size_a size_b a b oob_a oob_b : Nat) :
    Nat → Nat → Nat → Nat → Nat → Nat → List (Bool × Nat) → Option (Nat × List (Bool × Nat))
  | fuel, i, j, a_v, b_v, ans, reads =>
    if i < size_a ∧ j < size_b ∧ a_v < a ∧ b_v < b then
      match fuel with
      | 0 => none
      | fuel + 1 =>
        if a_v = b_v then
          countCommon_loop_traced nei_a nei_b size_a size_b a b oob_a oob_b fuel (i + 1) (j + 1)
            (nei_a.getD (i + 1) oob_a) (nei_b.getD (j + 1) oob_b) (ans + 1)
            (reads ++ [(false, i + 1), (true, j + 1)])
        else if a_v < b_v then
          countCommon_loop_traced nei_a nei_b size_a size_b a b oob_a oob_b fuel (i + 1) j
            (nei_a.getD (i + 1) oob_a) b_v ans (reads ++ [(false, i + 1)])
        else
          countCommon_loop_traced nei_a nei_b size_a size_b a b oob_a oob_b fuel i (j + 1)
            a_v (nei_b.getD (j + 1) oob_b) ans (reads ++ [(true, j + 1)])
    else some (ans, reads)

/-- The function `countCommon(G, a, b, mp)` with the record of its element reads,
starting with the reads of `nei_a[0]` and `nei_b[0]`. -/
def countCommon_traced (oob : Nat → Nat) (mp : List (List Nat)) (a b : Nat) :
    Option (Nat × List (Bool × Nat)) :=
  let nei_a := mp.getD a []
  let nei_b := mp.getD b []
  let size_a := nei_a.length % UINT32_SIZE
  let size_b := nei_b.length % UINT32_SIZE
  if size_a = 0 ∨ size_b = 0 then some (0, [])
  else
    countCommon_loop_traced nei_a nei_b size_a size_b a b (oob a) (oob b) (size_a + size_b) 0 0
      (nei_a.getD 0 (oob a)) (nei_b.getD 0 (oob b)) 0 [(false, 0), (true, 0)]

/-- An element read of `countCommon(G, a, b, mp)` addresses an element of the vector
it reads. -/
def ReadInBounds (mp : List (List Nat)) (a b : Nat) (r : Bool × Nat) : Prop :=
  if r.1 then r.2 < (mp.getD b []).length else r.2 < (mp.getD a []).length

instance (mp : List (List Nat)) (a b : Nat) (r : Bool × Nat) :
    Decidable (ReadInBounds mp a b r) := by
  unfold ReadInBounds; infer_instance

/-- The body shared by `countF::update` and `countF::updateAtomic`, run by the
worker whose number is `w`: the shard `counts[8*w]` (a `uint64_t`) grows by
`countCommon(s, d)` when `s > d`.  The result is always `true`. -/
def countF_body (oob : Nat → Nat) (mp : List (List Nat)) (counts : List Nat) (w s d : Nat) :
    Option (List Nat × Bool) :=
  if s > d then
    match countCommon oob mp s d with
    | none => none
    | some c =>
      if h : 8 * w < counts.length then
        some (counts.set (8 * w) ((counts.get ⟨8 * w, h⟩ + c) % UINT64_SIZE), true)
      else none
  else some (counts, true)

/-- The method `countF::update`. -/
def countF_update (oob : Nat → Nat) (mp : List (List Nat)) (counts : List Nat) (w s d : Nat) :
    Option (List Nat × Bool) :=
  countF_body oob mp counts w s d

/-- The method `countF::updateAtomic`; its body is the same as that of `update`. -/
def countF_updateAtomic (oob : Nat → Nat) (mp : List (List Nat)) (counts : List Nat)
    (w s d : Nat) : Option (List Nat × Bool) :=
  countF_body oob mp counts w s d

/-- The method `countF::cond`. -/
def countF_cond (_d : Nat) : Bool := true

/-- One application of the functor by the edge-map: worker `worker` handles the
edge `(s, d)`, through `updateAtomic` when `atomic` is set and through `update`
otherwise. -/
structure Visit where
  /-- The value of `getWorkerNum()` in the thread that handles the edge. -/
  worker : Nat
  /-- Source of the edge. -/
  s : Nat
  /-- Destination of the edge. -/
  d : Nat
  /-- Whether `updateAtomic` (sparse path) or `update` (dense path) is called. -/
  atomic : Bool
deriving DecidableEq, Repr

/-- Modelled from the spec: `edgeMap` (`Map.cpp` is not part of the sources) run
with the functor `countF` over the frontier of all vertices.  The parallel
traversal is given by the list of visits it performs, in the order in which the
shard updates take effect; `cond` is consulted before each visit. -/
def edgeMap_countF (oob : Nat → Nat) (mp : List (List Nat)) :
    List Visit → List Nat → Option (List Nat)
  | [], counts => some counts
  | v :: rest, counts =>
    if countF_cond v.d then
      match (if v.atomic then countF_updateAtomic oob mp counts v.worker v.s v.d
             else countF_update oob mp counts v.worker v.s v.d) with
      | none => none
      | some (counts', _) => edgeMap_countF oob mp rest counts'
    else edgeMap_countF oob mp rest counts

/-- A traversal that applies the functor exactly once to every edge of the graph,
each time on a worker of the pool. -/
def ValidSchedule (G : Graph) (workers : Nat) (sched : List Visit) : Prop :=
  (sched.map fun v => (v.s, v.d)).Perm G.edges ∧ ∀ v ∈ sched, v.worker < workers

/-- The final reduction of `TC` and `TC_gabps`:
`for (i = 0; i < getWorkers(); i++) count += counts[i*8]`. -/
def sumShards (counts : List Nat) : Nat → Option Nat
  | 0 => some 0
  | i + 1 =>
    match sumShards counts i with
    | none => none
    | some count =>
      if h : i * 8 < counts.length then some ((count + counts.get ⟨i * 8, h⟩) % UINT64_SIZE)
      else none

/-- The function `TC(G, mp)`, for a pool of `workers` threads (`getWorkers()`) and
the traversal `sched` performed by `edgeMap`. -/
def TC (oob : Nat → Nat) (_G : Graph) (mp : List (List Nat)) (workers : Nat)
    (sched : List Visit) : Option Nat :=
  match edgeMap_countF oob mp sched (List.replicate (workers * 8) 0) with
  | none => none
  | some counts => sumShards counts workers

/-- The loop `while (it < mp[u].end() && *it < w) it++` of `TC_gabps`.  The
iterator is represented by the range `[it, end)` it still has to traverse. -/
def gabps_advance (w : Nat) : List Nat → List Nat
  | [] => []
  | x :: it => if x < w then gabps_advance w it else x :: it

/-- The loop `for (NodeID w : mp[v])` of `TC_gabps`, run by worker `worker_id`
with the iterator `it` into `mp[u]`; the first argument is what is left of
`mp[v]`. -/
def gabps_inner (v worker_id : Nat) : List Nat → List Nat → List Nat → Option (List Nat)
  | [], _, counts => some counts
  | w :: ws, it, counts =>
    if w ≥ v then some counts
    else
      match gabps_advance w it with
      | [] => some counts
      | x :: it' =>
        if w = x then
          if h : worker_id * 8 < counts.length then
            gabps_inner v worker_id ws (x :: it')
              (counts.set (worker_id * 8) ((counts.get ⟨worker_id * 8, h⟩ + 1) % UINT64_SIZE))
          else none
        else gabps_inner v worker_id ws (x :: it') counts

/-- The loop `for (NodeID v : mp[u])` of `TC_gabps`; the first list argument is
what is left of `mp[u]`. -/
def gabps_middle (mp : List (List Nat)) (u worker_id : Nat) :
    List Nat → List Nat → Option (List Nat)
  | [], counts => some counts
  | v :: vs, counts =>
    if v ≥ u then some counts
    else
      match gabps_inner v worker_id (mp.getD v []) (mp.getD u []) counts with
      | none => none
      | some counts' => gabps_middle mp u worker_id vs counts'

/-- The `parallel_for` over the vertices in `TC_gabps`.  The schedule lists the
iterations `(worker_id, u)` in the order in which they take effect. -/
def gabps_outer (mp : List (List Nat)) : List (Nat × Nat) → List Nat → Option (List Nat)
  | [], counts => some counts
  | (worker_id, u) :: rest, counts =>
    match gabps_middle mp u worker_id (mp.getD u []) counts with
    | none => none
    | some counts' => gabps_outer mp rest counts'

/-- A schedule of the `parallel_for` of `TC_gabps`: every vertex of `[0, n)` is
handled once, each by a worker of the pool. -/
def ValidVertexSchedule (G : Graph) (workers : Nat) (sched : List (Nat × Nat)) : Prop :=
  (sched.map Prod.snd).Perm (List.range G.num_vertices) ∧ ∀ p ∈ sched, p.1 < workers

/-- The function `TC_gabps(G, mp)`, for a pool of `workers` threads and the
schedule `sched` of its `parallel_for`. -/
def TC_gabps (_G : Graph) (mp : List (List Nat)) (workers : Nat)
    (sched : List (Nat × Nat)) : Option Nat :=
  match gabps_outer mp sched (List.replicate (workers * 8) 0) with
  | none => none
  | some counts => sumShards counts workers

/-! ## Breadth-first search (`BFS.h`) -/

/-- The method `BFS_F::update(s, d)` on the array `Parents`: the new array and the
returned boolean.  An access outside the array has no defined result. -/
def BFS_F_update (Parents : List Int) (s d : Nat) : Option (List Int × Bool) :=
  if h : d < Parents.length then
    if Parents.get ⟨d, h⟩ = -1 then some (Parents.set d (toInt32 s), true)
    else some (Parents, false)
  else none

/-- The method `BFS_F::updateAtomic(s, d)`: the compare-and-swap of `Parents[d]`
from `-1` to `s`, taken as one indivisible step. -/
def BFS_F_updateAtomic (Parents : List Int) (s d : Nat) : Option (List Int × Bool) :=
  if h : d < Parents.length then
    if Parents.get ⟨d, h⟩ = -1 then some (Parents.set d (toInt32 s), true)
    else some (Parents, false)
  else none

/-- The method `BFS_F::cond(d)`. -/
def BFS_F_cond (Parents : List Int) (d : Nat) : Option Bool :=
  if h : d < Parents.length then some (decide (Parents.get ⟨d, h⟩ = -1)) else none

/-- The edges leaving the vertices of a sparse frontier, by frontier position. -/
def frontierEdges (G : Graph) (frontier : List Nat) : List (Nat × Nat) :=
  frontier.flatMap fun s => (G.neighbors s).map fun d => (s, d)

/-- Modelled from the spec: the sparse path of `edgeMap` (`Map.cpp` is not part of
the sources) run with the functor `BFS_F`.  The edges are handled in the order of
the list: when `cond(d)` holds `updateAtomic(s, d)` is called, and `d` joins the
next frontier when the call succeeds. -/
def edgeMapSparse_BFS : List (Nat × Nat) → List Int → List Nat → Option (List Int × List Nat)
  | [], Parents, next => some (Parents, next)
  | (s, d) :: es, Parents, next =>
    match BFS_F_cond Parents d with
    | none => none
    | some false => edgeMapSparse_BFS es Parents next
    | some true =>
      match BFS_F_updateAtomic Parents s d with
      | none => none
      | some (Parents', true) => edgeMapSparse_BFS es Parents' (next ++ [d])
      | some (Parents', false) => edgeMapSparse_BFS es Parents' next

/-- Modelled from the spec: the sparse path of `edgeMap` run with the functor
`BFS_F` by racing workers.  Each entry `(s, d, early)` is the handling of one edge,
placed where its `updateAtomic(s, d)` takes effect; `early` tells that its
`cond(d)` was evaluated before any update of the round, on the array `Parents₀` the
round started from, instead of right before the call.  The result is the array,
the next frontier and the calls of `updateAtomic` made, each with the boolean it
returned. -/
def edgeMapSparse_BFS_race (Parents₀ : List Int) :
    List (Nat × Nat × Bool) → List Int → List Nat → List (Nat × Nat × Bool) →
      Option (List Int × List Nat × List (Nat × Nat × Bool))
  | [], Parents, next, calls => some (Parents, next, calls)
  | (s, d, early) :: es, Parents, next, calls =>
    match BFS_F_cond (if early then Parents₀ else Parents) d with
    | none => none
    | some false => edgeMapSparse_BFS_race Parents₀ es Parents next calls
    | some true =>
      match BFS_F_updateAtomic Parents s d with
      | none => none
      | some (Parents', true) =>
        edgeMapSparse_BFS_race Parents₀ es Parents' (next ++ [d]) (calls ++ [(s, d, true)])
      | some (Parents', false) =>
        edgeMapSparse_BFS_race Parents₀ es Parents' next (calls ++ [(s, d, false)])

/-- Modelled from the spec: the dense path of `edgeMap` run with the functor
`BFS_F`.  The vertices `d` are handled in the order of the list `ds`: when
`cond(d)` holds the in-neighbours of `d` (enumerated by `in_neighbors`) are searched
for an active source; when one is found `update(s, d)` is called once, and `d` is
marked in the next frontier when the call succeeds. -/
def edgeMapDense_BFS (in_neighbors : Nat → List Nat) (frontier : List Nat) :
    List Nat → List Int → List Nat → Option (List Int × List Nat)
  | [], Parents, next => some (Parents, next)
  | d :: ds, Parents, next =>
    match BFS_F_cond Parents d with
    | none => none
    | some false => edgeMapDense_BFS in_neighbors frontier ds Parents next
    | some true =>
      match (in_neighbors d).find? fun s => decide (s ∈ frontier) with
      | none => edgeMapDense_BFS in_neighbors frontier ds Parents next
      | some s =>
        match BFS_F_update Parents s d with
        | none => none
        | some (Parents', true) =>
          edgeMapDense_BFS in_neighbors frontier ds Parents' (next ++ [d])
        | some (Parents', false) => edgeMapDense_BFS in_neighbors frontier ds Parents' next

/-- The in-neighbours of a vertex, in increasing order. -/
def Graph.in_neighbors (G : Graph) (d : Nat) : List Nat :=
  (List.range G.num_vertices).filter fun s => decide (d ∈ G.neighbors s)

/-- The order in which the edges of a round are handled: in round `level` the
edges `es` leaving the frontier are handled in the order `order level es`. -/
abbrev EdgeOrder := Nat → List (Nat × Nat) → List (Nat × Nat)

/-- An order handles every edge leaving the frontier exactly once. -/
def ValidOrder (order : EdgeOrder) : Prop := ∀ level es, (order level es).Perm es

/-- The round loop `while (frontier.not_empty())` of `BFS_directed_with_edge_map`.
The state is `(Parents, frontier, level)`; the result is the final array together
with the final value of `level`, the number of rounds performed. -/
def BFS_loop (G : Graph) (order : EdgeOrder) :
    Nat → List Int → List Nat → Nat → Option (List Int × Nat)
  | fuel, Parents, frontier, level =>
    if frontier.length = 0 then some (Parents, level)
    else
      match fuel with
      | 0 => none
      | fuel + 1 =>
        match edgeMapSparse_BFS (order level (frontierEdges G frontier)) Parents [] with
        | none => none
        | some (Parents', next_frontier) =>
          BFS_loop G order fuel Parents' next_frontier (level + 1)

/-- The function `BFS_directed_with_edge_map(G, src)` up to its return, with the
number of rounds it performed. -/
def BFS_run (G : Graph) (src : Nat) (order : EdgeOrder) (fuel : Nat) :
    Option (List Int × Nat) :=
  let start := src % UINT32_SIZE
  let n := G.get_num_vertices
  let Parents := List.replicate n (-1 : Int)
  if start < Parents.length then
    BFS_loop G order fuel (Parents.set start (toInt32 start)) [start] 0
  else none

/-- The function `BFS_directed_with_edge_map(G, src)`: the returned array. -/
def BFS_directed_with_edge_map (G : Graph) (src : Nat) (order : EdgeOrder) (fuel : Nat) :
    Option (List Int) :=
  (BFS_run G src order fuel).map Prod.fst

/-! ## The driver (`LSGraph-Bench.cc`) -/

/-- What a call of `test_bfs` does: it leaves the process through `exit(0)` before
any work, or it calls `BFS_directed_with_edge_map`, with the outcome of that call
(`none` when the call has no defined result). -/
inductive TestOutcome where
  | exited : TestOutcome
  | ran (result : Option (List Int)) : TestOutcome
deriving DecidableEq

/-- The function `test_bfs`; `src` is the `long` value of the option `-src`
(`-1` when the option is absent), narrowed to `uint32_t` at the call of
`BFS_directed_with_edge_map`. -/
def test_bfs (G : Graph) (src : Int) (order : EdgeOrder) (fuel : Nat) : TestOutcome :=
  if src = -1 then TestOutcome.exited
  else TestOutcome.ran (BFS_directed_with_edge_map G (toUInt32 src) order fuel)

/-- Conversion of a `long` to `size_t`. -/
def to_size_t (x : Int) : Nat := (x % (UINT64_SIZE : Int)).toNat

/-- The number of batches `batchs = (num_edges + batch_size - 1) / batch_size`, in
64-bit unsigned arithmetic. -/
def batch_count (num_edges batch_size : Nat) : Nat :=
  ((num_edges + batch_size + (UINT64_SIZE - 1)) % UINT64_SIZE) / batch_size

/-- The size `sz = std::min(batch_size, num_edges - i*batch_size)` of batch `i`, in
64-bit unsigned arithmetic. -/
def batch_sz (num_edges batch_size i : Nat) : Nat :=
  min batch_size ((num_edges + UINT64_SIZE - (i * batch_size) % UINT64_SIZE) % UINT64_SIZE)

/-- The loop `for (j = 0; j < sz; j++) batch[j] = make_tuple(edges[i*batch_size+j].x,
edges[i*batch_size+j].y)`: the batch after `j` iterations.  A read outside `edges`
has no defined result. -/
def fill_batch (edges : List (Nat × Nat)) (batch_size i : Nat) :
    Nat → Option (List (Nat × Nat))
  | 0 => some []
  | j + 1 =>
    match fill_batch edges batch_size i j, edges[(i * batch_size + j) % UINT64_SIZE]? with
    | some batch, some e => some (batch ++ [(e.1, e.2)])
    | _, _ => none

/-- The loop `for (i = 0; i < batchs; i++)` that builds `batch_data`: the vector
after `i` iterations. -/
def build_batches (edges : List (Nat × Nat)) (num_edges batch_size : Nat) :
    Nat → Option (List (List (Nat × Nat)))
  | 0 => some []
  | i + 1 =>
    match build_batches edges num_edges batch_size i,
      fill_batch edges batch_size i (batch_sz num_edges batch_size i) with
    | some batch_data, some batch => some (batch_data ++ [batch])
    | _, _ => none

/-- The loop `for (i = 0; i < batchs; i++) graph.add_edge_batch_sort(batch_data[i],
batch_data[i].size(), num_nodes)`: the store after `i` iterations.  The store and
its operation `add_edge_batch_sort` (`LSGraph.h`, not part of the sources) are
parameters. -/
def ingest_batches {σ : Type} (add_edge_batch_sort : σ → List (Nat × Nat) → Nat → Nat → σ)
    (batch_data : List (List (Nat × Nat))) (num_nodes : Nat) (graph : σ) : Nat → Option σ
  | 0 => some graph
  | i + 1 =>
    match ingest_batches add_edge_batch_sort batch_data num_nodes graph i, batch_data[i]? with
    | some g, some batch => some (add_edge_batch_sort g batch batch.length num_nodes)
    | _, _ => none

/-- The batching part of `run_algorithm`: `edges` is the array read from the file
(`num_edges` is its length) and `bs` the `long` value of the option `-bs`; the
result is `batch_data`.  The division by a zero `batch_size` has no defined
result. -/
def run_algorithm_batches (edges : List (Nat × Nat)) (bs : Int) :
    Option (List (List (Nat × Nat))) :=
  let num_edges := edges.length % UINT64_SIZE
  let batch_size := to_size_t bs
  if batch_size = 0 then none
  else
    let batchs := batch_count num_edges batch_size
    build_batches edges num_edges batch_size batchs

/-- The function `run_algorithm` up to the end of the batch ingestion: the batches
are built from `edges`, then handed to the store one after the other. -/
def run_algorithm {σ : Type}
    (add_edge_batch_sort : σ → List (Nat × Nat) → Nat → Nat → σ)
    (edges : List (Nat × Nat)) (bs : Int) (num_nodes : Nat) (graph : σ) : Option σ :=
  match run_algorithm_batches edges bs with
  | none => none
  | some batch_data =>
    ingest_batches add_edge_batch_sort batch_data num_nodes graph
      (batch_count (edges.length % UINT64_SIZE) (to_size_t bs))

/-- A store that records the calls of `add_edge_batch_sort` it receives. -/
def recordCall (calls : List (List (Nat × Nat) × Nat × Nat)) (batch : List (Nat × Nat))
    (count num_nodes : Nat) : List (List (Nat × Nat) × Nat × Nat) :=
  calls ++ [(batch, count, num_nodes)]

/-! ## Specification-side notions for breadth-first search -/

/-- The content of slot `x` of the parent array (`-1` outside the array). -/
def slot (Parents : List Int) (x : Nat) : Int := Parents.getD x (-1)

/-- A walk of `k` edges from `u` to `v`. -/
inductive Walk (G : Graph) (u : Nat) : Nat → Nat → Prop
  | refl : Walk G u u 0
  | step {v w k : Nat} : Walk G u v k → w ∈ G.neighbors v → Walk G u w (k + 1)

/-- The vertex `v` is reachable from `u`. -/
def Reachable (G : Graph) (u v : Nat) : Prop := ∃ k, Walk G u v k

/-- The shortest-path distance from `u` to `v` is `k`. -/
def IsDist (G : Graph) (u v k : Nat) : Prop := Walk G u v k ∧ ∀ j, Walk G u v j → k ≤ j

/-- Following the parent pointers from `x` reaches `src` after `k` hops, each hop
`(Parents[y], y)` being an edge of the graph. -/
inductive ParentWalk (G : Graph) (Parents : List Int) (src : Nat) : Nat → Nat → Prop
  | root : ParentWalk G Parents src src 0
  | hop {x k : Nat} : x ≠ src → slot Parents x ≠ -1 →
      x ∈ G.neighbors (toUInt32 (slot Parents x)) →
      ParentWalk G Parents src (toUInt32 (slot Parents x)) k →
      ParentWalk G Parents src x (k + 1)

/-- The number of assigned slots of the parent array. -/
def visitedCount (Parents : List Int) : Nat := Parents.countP fun x => decide (x ≠ -1)

/-- What one sparse round does to the parent array: `Parents'` is the array after
the round over the edges `es` started from `Parents`, and `new` lists the vertices
that joined the next frontier. -/
structure RoundResult (es : List (Nat × Nat)) (Parents Parents' : List Int)
    (new : List Nat) : Prop where
  /-- The array keeps its length. -/
  len : Parents'.length = Parents.length
  /-- An assigned slot is not modified. -/
  keep : ∀ x, slot Parents x ≠ -1 → slot Parents' x = slot Parents x
  /-- An unassigned slot stays so unless its vertex joins the frontier. -/
  stay : ∀ x, slot Parents x = -1 → x ∉ new → slot Parents' x = -1
  /-- A vertex that joins the frontier received one of its active in-neighbours. -/
  assigned : ∀ x, x ∈ new → ∃ s, (s, x) ∈ es ∧ slot Parents' x = toInt32 s
  /-- The vertices that join are the unassigned heads of the edges. -/
  mem_new : ∀ x, x ∈ new ↔ slot Parents x = -1 ∧ ∃ s, (s, x) ∈ es
  /-- No vertex joins twice. -/
  nodup : new.Nodup
  /-- Every vertex that joins is one more assigned slot. -/
  count : visitedCount Parents' = visitedCount Parents + new.length

/-- The loop invariant of the breadth-first search at the start of round `k`. -/
structure BFSInv (G : Graph) (src : Nat) (Parents : List Int) (frontier : List Nat)
    (k : Nat) : Prop where
  /-- The array has one slot per vertex. -/
  len : Parents.length = G.num_vertices
  /-- The assigned slots are those of the vertices at distance at most `k`. -/
  visited_iff : ∀ v, slot Parents v ≠ -1 ↔ ∃ j, j ≤ k ∧ IsDist G src v j
  /-- The frontier holds the vertices at distance exactly `k`. -/
  frontier_iff : ∀ v, v ∈ frontier ↔ IsDist G src v k
  /-- The frontier has no repeated member. -/
  nodup : frontier.Nodup
  /-- The source is its own parent. -/
  root : slot Parents src = toInt32 src
  /-- The parent of an assigned vertex is an in-neighbour one step closer. -/
  parent : ∀ v, v ≠ src → slot Parents v ≠ -1 →
    ∃ j, IsDist G src (toUInt32 (slot Parents v)) j ∧ IsDist G src v (j + 1) ∧
      v ∈ G.neighbors (toUInt32 (slot Parents v))
  /-- Every round performed so far assigned at least one slot. -/
  count : k + (if frontier.length = 0 then 0 else 1) ≤ visitedCount Parents

/-- A sequence of calls of the functor `BFS_F` on the array `Parents`, each call
`updateAtomic(s, d)` when `atomic` is set and `update(s, d)` otherwise (the worker
number of the visit plays no part): the array after the last call. -/
def BFS_F_calls : List Visit → List Int → Option (List Int)
  | [], Parents => some Parents
  | c :: cs, Parents =>
    match (if c.atomic then BFS_F_updateAtomic Parents c.s c.d
           else BFS_F_update Parents c.s c.d) with
    | none => none
    | some (Parents', _) => BFS_F_calls cs Parents'

/-- The test `if (Parents[j] < 0) continue;` of the depth pass that follows the
search when `VERIFY` is set: whether vertex `j` is skipped. -/
def depth_pass_skips (Parents : List Int) (j : Nat) : Option Bool :=
  if h : j < Parents.length then some (decide (Parents.get ⟨j, h⟩ < 0)) else none

/-- Every slot of the parent array is `-1` or non-negative. -/
def SlotsNonneg (Parents : List Int) : Prop := ∀ x, slot Parents x = -1 ∨ 0 ≤ slot Parents x

/-! ## Specification-side notions for triangle counting -/

/-- A list is strictly ascending. -/
def StrictAsc (l : List Nat) : Prop := l.Pairwise (· < ·)

instance (l : List Nat) : Decidable (StrictAsc l) := by
  unfold StrictAsc; infer_instance

/-- The cache `mp` holds, for every vertex of the graph, its neighbour list. -/
def IsNeighborCache (G : Graph) (mp : List (List Nat)) : Prop :=
  mp.length = G.num_vertices ∧ ∀ v, v < G.num_vertices → mp.getD v [] = G.neighbors v

/-- The adjacency of the graph is symmetric. -/
def Graph.Symmetric (G : Graph) : Prop :=
  ∀ u, u < G.num_vertices → ∀ v, v < G.num_vertices →
    (v ∈ G.neighbors u ↔ u ∈ G.neighbors v)

/-- The triangles of the graph: the triples `x < y < z` of vertices that are
pairwise adjacent.  Each unordered triple is listed once. -/
def triangles (G : Graph) : List (Nat × Nat × Nat) :=
  (List.range G.num_vertices).flatMap fun z =>
    (List.range z).flatMap fun y =>
      ((List.range y).filter fun x =>
        decide (y ∈ G.neighbors x) && decide (z ∈ G.neighbors y) &&
          decide (z ∈ G.neighbors x)).map fun x => (x, y, z)

/-- The number of triangles of the graph. -/
def numTriangles (G : Graph) : Nat := (triangles G).length

/-- The function `p` is a permutation of `[0, n)`. -/
def IsPermutation (n : Nat) (p : Nat → Nat) : Prop :=
  ((List.range n).map p).Perm (List.range n)

/-- The graph relabelled by `p`: every edge `(s, d)` becomes `(p s, p d)`, so the
neighbours of the vertex labelled `v` are the labels of the neighbours of the
vertex `a` with `p a = v`, and the neighbour lists are sorted ascending again. -/
def Graph.relabel (G : Graph) (p : Nat → Nat) : Graph :=
  { num_vertices := G.num_vertices,
    neighbors := fun v =>
      match (List.range G.num_vertices).find? fun a => p a == v with
      | some a => ((G.neighbors a).map p).insertionSort (· ≤ ·)
      | none => [] }

/-- The triangles of the graph as sets: the sets of three vertices in which every
smaller member has every larger one among its neighbours. -/
def triangleSets (G : Graph) : Finset (Finset Nat) :=
  (Finset.powersetCard 3 (Finset.range G.num_vertices)).filter fun t =>
    ∀ a ∈ t, ∀ b ∈ t, a < b → b ∈ G.neighbors a

/-- The number of values that occur in both lists and are smaller than `m`. -/
def commonBelow (nei_a nei_b : List Nat) (m : Nat) : Nat :=
  (nei_a.filter fun x => decide (x ∈ nei_b) && decide (x < m)).length

/-- The sum of the shards `counts[8*i]`, `i < workers`, without wrap-around. -/
def shardTotal (counts : List Nat) (workers : Nat) : Nat :=
  ((List.range workers).map fun i => counts.getD (i * 8) 0).sum

/-- What the edge `(s, d)` contributes to the triangle count: the number of common
neighbours of `s` and `d` below `min s d` when `s > d`, and nothing otherwise. -/
def edgeWeight (mp : List (List Nat)) (e : Nat × Nat) : Nat :=
  if e.1 > e.2 then commonBelow (mp.getD e.1 []) (mp.getD e.2 []) (min e.1 e.2) else 0

/-- Every neighbour list of the cache is strictly ascending and its length fits a
`uint32_t`. -/
def SortedCache (mp : List (List Nat)) : Prop :=
  ∀ v, StrictAsc (mp.getD v []) ∧ (mp.getD v []).length < UINT32_SIZE

/-! ## Example graphs -/

/-- The graph whose neighbour lists are the given lists. -/
def Graph.ofLists (adj : List (List Nat)) : Graph :=
  { num_vertices := adj.length, neighbors := fun v => adj.getD v [] }

/-- The schedule in which worker `0` visits the edges in their listed order
through `updateAtomic`. -/
def sequentialSchedule (G : Graph) : List Visit :=
  G.edges.map fun e => { worker := 0, s := e.1, d := e.2, atomic := true }

/-- A schedule on two workers: the edges are visited in reverse order, those
leaving an even vertex by worker `0` through `update`, the others by worker `1`
through `updateAtomic`. -/
def reverseSchedule (G : Graph) : List Visit :=
  G.edges.reverse.map fun e =>
    { worker := e.1 % 2, s := e.1, d := e.2, atomic := decide (e.1 % 2 = 1) }

/-- The directed path `0 → 1 → ... → n-1`. -/
def pathGraph (n : Nat) : Graph :=
  { num_vertices := n, neighbors := fun v => if v + 1 < n then [v + 1] else [] }

/-- The order that handles the edges of every round last to first. -/
def reverseOrder : EdgeOrder := fun _ es => es.reverse

/-- The order that handles the edges of the odd rounds last to first and those of
the even rounds as listed. -/
def alternatingOrder : EdgeOrder := fun level es => if level % 2 = 1 then es.reverse else es

/-- The order that handles the edges of every round as listed. -/
def listedOrder : EdgeOrder := fun _ es => es

/-- A graph in which vertex `3` has the two parents `1` and `2` at the same
distance from `0`. -/
def diamond : Graph := Graph.ofLists [[1, 2], [3], [3], []]

/-- The rotation `v ↦ v + 2 mod 5` of the vertices of a graph on 5 vertices. -/
def rotate5 (v : Nat) : Nat := (v + 2) % 5

/-- The symmetrized path `0-1-2-3-4`. -/
def pathSym5 : List (List Nat) := [[1], [0, 2], [1, 3], [2, 4], [3]]

/-- The symmetrized 5-cycle `0-1-2-3-4-0` with the chord `0-2`. -/
def cycleChord5 : List (List Nat) := [[1, 2, 4], [0, 2], [0, 1, 3], [2, 4], [0, 3]]

/-- The symmetrized 4-cycle `0-1-2-3-0` with the diagonal `0-2`. -/
def cycleDiag4 : List (List Nat) := [[1, 2, 3], [0, 2], [0, 1, 3], [0, 2]]

/-- The complete graph on 4 vertices. -/
def complete4 : List (List Nat) := [[1, 2, 3], [0, 2, 3], [0, 1, 3], [0, 1, 2]]

/-- The graph on `n` vertices without edges. -/
def edgeless (n : Nat) : Graph := { num_vertices := n, neighbors := fun _ => [] }

end LSGraph

/-! # Properties -/

namespace LSGraph

/-! ## Strictly ascending lists -/

theorem strictAsc_lt_of_mem {x : Nat} {l : List Nat} (h : StrictAsc (x :: l)) :
    ∀ y ∈ l, x < y := by
  unfold StrictAsc at h
  exact (List.pairwise_cons.mp h).1

theorem strictAsc_tail {x : Nat} {l : List Nat} (h : StrictAsc (x :: l)) : StrictAsc l := by
  unfold StrictAsc at h ⊢
  exact (List.pairwise_cons.mp h).2

theorem strictAsc_drop {l : List Nat} (h : StrictAsc l) (i : Nat) : StrictAsc (l.drop i) := by
  unfold StrictAsc at h ⊢
  exact h.sublist (List.drop_sublist i l)

theorem strictAsc_nodup {l : List Nat} (h : StrictAsc l) : l.Nodup := by
  unfold StrictAsc at h
  exact h.imp (fun hlt => Nat.ne_of_lt hlt)

/-! ## `countCommon` -/

theorem commonBelow_nil_left (lb : List Nat) (m : Nat) : commonBelow [] lb m = 0 := rfl

theorem commonBelow_nil_right (la : List Nat) (m : Nat) : commonBelow la [] m = 0 := by
  unfold commonBelow
  simp

theorem commonBelow_eq_zero_of_forall (la lb : List Nat) (m : Nat)
    (h : ∀ x ∈ la, x ∈ lb → m ≤ x) : commonBelow la lb m = 0 := by
  unfold commonBelow
  rw [List.length_eq_zero, List.filter_eq_nil_iff]
  intro x hx
  simp only [Bool.and_eq_true, decide_eq_true_eq, not_and, Nat.not_lt]
  exact h x hx

theorem commonBelow_cons_both {x m : Nat} {la lb : List Nat} (ha : StrictAsc (x :: la))
    (hxm : x < m) : commonBelow (x :: la) (x :: lb) m = commonBelow la lb m + 1 := by
  unfold commonBelow
  have hx : (decide (x ∈ x :: lb) && decide (x < m)) = true := by simp [hxm]
  rw [List.filter_cons, if_pos hx, List.length_cons]
  congr 2
  apply List.filter_congr
  intro y hy
  have hlt : x < y := strictAsc_lt_of_mem ha y hy
  have hne : y ≠ x := Nat.ne_of_gt hlt
  simp [hne]

theorem commonBelow_cons_left {x y m : Nat} {la lb : List Nat} (hb : StrictAsc (y :: lb))
    (hxy : x < y) : commonBelow (x :: la) (y :: lb) m = commonBelow la (y :: lb) m := by
  unfold commonBelow
  have hx : ¬ ((decide (x ∈ y :: lb) && decide (x < m)) = true) := by
    have h1 : x ≠ y := Nat.ne_of_lt hxy
    have h2 : x ∉ lb := fun hmem => by
      have := strictAsc_lt_of_mem hb x hmem
      omega
    simp [h1, h2]
  rw [List.filter_cons, if_neg hx]

theorem commonBelow_cons_right {x y m : Nat} {la lb : List Nat} (ha : StrictAsc (x :: la))
    (hyx : y < x) : commonBelow (x :: la) (y :: lb) m = commonBelow (x :: la) lb m := by
  unfold commonBelow
  congr 1
  apply List.filter_congr
  intro z hz
  have hne : z ≠ y := by
    rcases List.mem_cons.mp hz with h | h
    · omega
    · have := strictAsc_lt_of_mem ha z h
      omega
  simp [hne]

theorem drop_eq_getD_cons {l : List Nat} {i : Nat} (h : i < l.length) (dflt : Nat) :
    l.drop i = l.getD i dflt :: l.drop (i + 1) := by
  rw [List.getD_eq_getElem l dflt h]
  exact List.drop_eq_getElem_cons h

/-- The loop of `countCommon`, started at positions `i` and `j` with the values
found there, adds to `ans` the number of common values below `min a b` of the two
remaining ranges, whatever lies past the end of the vectors. -/
theorem countCommon_loop_spec (nei_a nei_b : List Nat) (a b oob_a oob_b : Nat)
    (ha : StrictAsc nei_a) (hb : StrictAsc nei_b) :
    ∀ fuel i j ans, (nei_a.length - i) + (nei_b.length - j) ≤ fuel →
      countCommon_loop nei_a nei_b nei_a.length nei_b.length a b oob_a oob_b fuel i j
        (nei_a.getD i oob_a) (nei_b.getD j oob_b) ans
      = some (ans + commonBelow (nei_a.drop i) (nei_b.drop j) (min a b)) := by
  intro fuel
  induction fuel with
  | zero =>
    intro i j ans hf
    unfold countCommon_loop
    have hcond : ¬ (i < nei_a.length ∧ j < nei_b.length ∧
        nei_a.getD i oob_a < a ∧ nei_b.getD j oob_b < b) := by omega
    rw [if_neg hcond]
    have : nei_a.drop i = [] := List.drop_eq_nil_of_le (by omega)
    rw [this, commonBelow_nil_left]
    rfl
  | succ fuel ih =>
    intro i j ans hf
    unfold countCommon_loop
    by_cases hcond : i < nei_a.length ∧ j < nei_b.length ∧
        nei_a.getD i oob_a < a ∧ nei_b.getD j oob_b < b
    · rw [if_pos hcond]
      obtain ⟨hi, hj, hav, hbv⟩ := hcond
      have hda := drop_eq_getD_cons hi oob_a
      have hdb := drop_eq_getD_cons hj oob_b
      have hsa : StrictAsc (nei_a.getD i oob_a :: nei_a.drop (i + 1)) := by
        rw [← hda]; exact strictAsc_drop ha i
      have hsb : StrictAsc (nei_b.getD j oob_b :: nei_b.drop (j + 1)) := by
        rw [← hdb]; exact strictAsc_drop hb j
      simp only []
      by_cases heq : nei_a.getD i oob_a = nei_b.getD j oob_b
      · rw [if_pos heq, ih (i + 1) (j + 1) (ans + 1) (by omega), hda, hdb]
        have hm : nei_a.getD i oob_a < min a b := by
          rw [heq] at hav ⊢
          exact lt_min hav hbv
        rw [← heq, commonBelow_cons_both hsa hm]
        congr 1
        omega
      · rw [if_neg heq]
        by_cases hlt : nei_a.getD i oob_a < nei_b.getD j oob_b
        · rw [if_pos hlt, ih (i + 1) j ans (by omega), hda, hdb,
            commonBelow_cons_left hsb hlt, ← hdb]
        · rw [if_neg hlt, ih i (j + 1) ans (by omega), hda, hdb,
            commonBelow_cons_right hsa (by omega), ← hda]
    · rw [if_neg hcond]
      have hz : commonBelow (nei_a.drop i) (nei_b.drop j) (min a b) = 0 := by
        by_cases hi : i < nei_a.length
        · by_cases hj : j < nei_b.length
          · have hda := drop_eq_getD_cons hi oob_a
            have hdb := drop_eq_getD_cons hj oob_b
            have hsa : StrictAsc (nei_a.getD i oob_a :: nei_a.drop (i + 1)) := by
              rw [← hda]; exact strictAsc_drop ha i
            have hsb : StrictAsc (nei_b.getD j oob_b :: nei_b.drop (j + 1)) := by
              rw [← hdb]; exact strictAsc_drop hb j
            apply commonBelow_eq_zero_of_forall
            intro x hxa hxb
            rw [hda] at hxa
            rw [hdb] at hxb
            have h1 : nei_a.getD i oob_a ≤ x := by
              rcases List.mem_cons.mp hxa with h | h
              · omega
              · exact Nat.le_of_lt (strictAsc_lt_of_mem hsa x h)
            have h2 : nei_b.getD j oob_b ≤ x := by
              rcases List.mem_cons.mp hxb with h | h
              · omega
              · exact Nat.le_of_lt (strictAsc_lt_of_mem hsb x h)
            have h3 : ¬ (nei_a.getD i oob_a < a ∧ nei_b.getD j oob_b < b) :=
              fun h => hcond ⟨hi, hj, h.1, h.2⟩
            rcases Nat.lt_or_ge (nei_a.getD i oob_a) a with h4 | h4
            · have h5 : b ≤ nei_b.getD j oob_b := by
                by_contra hlt
                exact h3 ⟨h4, Nat.lt_of_not_le hlt⟩
              exact le_trans (min_le_right a b) (le_trans h5 h2)
            · exact le_trans (min_le_left a b) (le_trans h4 h1)
          · have : nei_b.drop j = [] := List.drop_eq_nil_of_le (by omega)
            rw [this, commonBelow_nil_right]
        · have : nei_a.drop i = [] := List.drop_eq_nil_of_le (by omega)
          rw [this, commonBelow_nil_left]
      rw [hz]
      rfl

/-- The result of `countCommon` on strictly ascending lists whose lengths fit a
`uint32_t`. -/
theorem countCommon_eq (oob : Nat → Nat) (mp : List (List Nat)) (a b : Nat)
    (ha : StrictAsc (mp.getD a [])) (hb : StrictAsc (mp.getD b []))
    (hla : (mp.getD a []).length < UINT32_SIZE) (hlb : (mp.getD b []).length < UINT32_SIZE) :
    countCommon oob mp a b = some (commonBelow (mp.getD a []) (mp.getD b []) (min a b)) := by
  unfold countCommon
  simp only []
  rw [Nat.mod_eq_of_lt hla, Nat.mod_eq_of_lt hlb]
  by_cases h0 : (mp.getD a []).length = 0 ∨ (mp.getD b []).length = 0
  · rw [if_pos h0]
    rcases h0 with h | h
    · rw [List.length_eq_zero.mp h, commonBelow_nil_left]
    · rw [List.length_eq_zero.mp h, commonBelow_nil_right]
  · rw [if_neg h0, countCommon_loop_spec _ _ a b (oob a) (oob b) ha hb _ 0 0 0 (by omega)]
    simp

/-- A strictly ascending list of numbers below `n` has at most `n` entries. -/
theorem strictAsc_length_le {l : List Nat} {n : Nat} (h : StrictAsc l)
    (hn : ∀ x ∈ l, x < n) : l.length ≤ n := by
  have h1 : l.toFinset ⊆ Finset.range n := by
    intro x hx
    exact Finset.mem_range.mpr (hn x (List.mem_toFinset.mp hx))
  have h2 := Finset.card_le_card h1
  rw [List.toFinset_card_of_nodup (strictAsc_nodup h), Finset.card_range] at h2
  exact h2

/-! ## The sharded accumulator -/

theorem shardTotal_succ (counts : List Nat) (W : Nat) :
    shardTotal counts (W + 1) = shardTotal counts W + counts.getD (W * 8) 0 := by
  unfold shardTotal
  rw [List.range_succ, List.map_append, List.sum_append]
  simp

theorem sumShards_eq (counts : List Nat) :
    ∀ W, W * 8 ≤ counts.length → sumShards counts W = some (shardTotal counts W % UINT64_SIZE)
  | 0, _ => by
    unfold sumShards shardTotal
    simp [UINT64_SIZE]
  | W + 1, h => by
    have hlt : W * 8 < counts.length := by omega
    unfold sumShards
    rw [sumShards_eq counts W (by omega), shardTotal_succ]
    simp only []
    rw [dif_pos hlt, List.getD_eq_getElem counts 0 hlt]
    simp only [List.get_eq_getElem]
    rw [Nat.mod_add_mod]

theorem shardTotal_set (counts : List Nat) (w val : Nat) (hw : 8 * w < counts.length) :
    ∀ W, shardTotal (counts.set (8 * w) val) W + (if w < W then counts.getD (8 * w) 0 else 0)
      = shardTotal counts W + (if w < W then val else 0)
  | 0 => by simp [shardTotal]
  | W + 1 => by
    rw [shardTotal_succ, shardTotal_succ]
    have ih := shardTotal_set counts w val hw W
    by_cases h1 : w < W
    · have h2 : w < W + 1 := by omega
      have hne : 8 * w ≠ W * 8 := by omega
      rw [if_pos h1, if_pos h1] at ih
      rw [if_pos h2, if_pos h2, List.getD_eq_getElem?_getD, List.getElem?_set_ne hne,
        ← List.getD_eq_getElem?_getD]
      omega
    · rw [if_neg h1, if_neg h1] at ih
      by_cases h3 : w = W
      · subst h3
        have h2 : w < w + 1 := by omega
        have he : w * 8 = 8 * w := by omega
        have hlen : 8 * w < (counts.set (8 * w) val).length := by
          rw [List.length_set]; exact hw
        rw [if_pos h2, if_pos h2, he, List.getD_eq_getElem _ 0 hlen, List.getElem_set_self]
        omega
      · have h2 : ¬ w < W + 1 := by omega
        have hne : 8 * w ≠ W * 8 := by omega
        rw [if_neg h2, if_neg h2, List.getD_eq_getElem?_getD, List.getElem?_set_ne hne,
          ← List.getD_eq_getElem?_getD]
        omega

/-- Adding `c` (with wrap-around) to the shard of worker `w` adds `c` to the sum of
the shards, modulo `2^64`. -/
theorem shardTotal_add_modEq (counts : List Nat) (w c W : Nat) (hw : 8 * w < counts.length)
    (hW : w < W) :
    shardTotal (counts.set (8 * w) ((counts.get ⟨8 * w, hw⟩ + c) % UINT64_SIZE)) W
      % UINT64_SIZE = (shardTotal counts W + c) % UINT64_SIZE := by
  have h := shardTotal_set counts w ((counts.get ⟨8 * w, hw⟩ + c) % UINT64_SIZE) hw W
  rw [if_pos hW, if_pos hW, List.getD_eq_getElem counts 0 hw] at h
  simp only [List.get_eq_getElem] at h ⊢
  have h2 : (shardTotal (counts.set (8 * w) ((counts[8 * w] + c) % UINT64_SIZE)) W
      + counts[8 * w]) % UINT64_SIZE = (shardTotal counts W + c + counts[8 * w]) % UINT64_SIZE := by
    rw [h, Nat.add_mod, Nat.mod_mod, ← Nat.add_mod]
    congr 1
    omega
  exact Nat.ModEq.add_right_cancel' _ h2

theorem shardTotal_replicate (m W : Nat) : shardTotal (List.replicate m 0) W = 0 := by
  unfold shardTotal
  apply List.sum_eq_zero
  intro x hx
  obtain ⟨i, _, rfl⟩ := List.mem_map.mp hx
  rw [List.getD_eq_getElem?_getD, List.getElem?_replicate]
  split <;> rfl

/-! ## `countF` and `TC` -/

theorem countF_body_spec (oob : Nat → Nat) (mp : List (List Nat)) (W : Nat)
    (hs : SortedCache mp) (counts : List Nat) (w s d : Nat) (hlen : counts.length = W * 8)
    (hw : w < W) :
    ∃ counts', countF_body oob mp counts w s d = some (counts', true) ∧
      counts'.length = W * 8 ∧
      shardTotal counts' W % UINT64_SIZE
        = (shardTotal counts W + edgeWeight mp (s, d)) % UINT64_SIZE := by
  unfold countF_body edgeWeight
  by_cases hsd : s > d
  · have hlt : 8 * w < counts.length := by omega
    rw [if_pos hsd, countCommon_eq oob mp s d (hs s).1 (hs d).1 (hs s).2 (hs d).2]
    simp only []
    rw [dif_pos hlt, if_pos hsd]
    refine ⟨_, rfl, ?_, shardTotal_add_modEq counts w _ W hlt hw⟩
    rw [List.length_set, hlen]
  · rw [if_neg hsd]
    simp only []
    rw [if_neg hsd]
    exact ⟨counts, rfl, hlen, rfl⟩

theorem edgeMap_countF_spec (oob : Nat → Nat) (mp : List (List Nat)) (W : Nat)
    (hs : SortedCache mp) :
    ∀ (sched : List Visit) (counts : List Nat), counts.length = W * 8 →
      (∀ v ∈ sched, v.worker < W) →
      ∃ counts', edgeMap_countF oob mp sched counts = some counts' ∧
        counts'.length = W * 8 ∧
        shardTotal counts' W % UINT64_SIZE
          = (shardTotal counts W + (sched.map fun v => edgeWeight mp (v.s, v.d)).sum)
              % UINT64_SIZE
  | [], counts, hlen, _ => ⟨counts, rfl, hlen, by simp⟩
  | v :: rest, counts, hlen, hw => by
    obtain ⟨c1, h1, hl1, ht1⟩ :=
      countF_body_spec oob mp W hs counts v.worker v.s v.d hlen (hw v (List.mem_cons_self _ _))
    obtain ⟨c2, h2, hl2, ht2⟩ :=
      edgeMap_countF_spec oob mp W hs rest c1 hl1 (fun x hx => hw x (List.mem_cons_of_mem _ hx))
    refine ⟨c2, ?_, hl2, ?_⟩
    · unfold edgeMap_countF countF_cond countF_update countF_updateAtomic
      simp only [if_true, ite_self, h1]
      exact h2
    · rw [ht2, List.map_cons, List.sum_cons, Nat.add_mod, ht1, ← Nat.add_mod]
      congr 1
      omega

/-- The value of `TC` is the sum, over the visits of the traversal, of the
contributions of the visited edges, reduced modulo `2^64`. -/
theorem TC_eq_sum (oob : Nat → Nat) (G : Graph) (mp : List (List Nat)) (W : Nat)
    (sched : List Visit) (hs : SortedCache mp) (hw : ∀ v ∈ sched, v.worker < W) :
    TC oob G mp W sched
      = some ((sched.map fun v => edgeWeight mp (v.s, v.d)).sum % UINT64_SIZE) := by
  obtain ⟨c, h1, hl, ht⟩ :=
    edgeMap_countF_spec oob mp W hs sched (List.replicate (W * 8) 0) (by simp) hw
  unfold TC
  rw [h1]
  simp only []
  rw [sumShards_eq c W (by omega), ht, shardTotal_replicate, Nat.zero_add]

/-! ## Counting triangles edge by edge -/

theorem sum_map_flatMap {α β : Type} (g : β → Nat) (f : α → List β) (l : List α) :
    ((l.flatMap f).map g).sum = (l.map fun x => ((f x).map g).sum).sum := by
  induction l with
  | nil => rfl
  | cons x l ih => simp [List.flatMap_cons, ih]

theorem range_toFinset (n : Nat) : (List.range n).toFinset = Finset.range n := by
  ext x
  simp

theorem filter_length_eq_card (l : List Nat) (hl : l.Nodup) (p : Nat → Bool) :
    (l.filter p).length = (l.toFinset.filter fun x => p x = true).card := by
  rw [← List.toFinset_filter, List.toFinset_card_of_nodup (hl.filter _)]

/-- The contributions of the edges leaving `s` add up to the number of triangles
whose largest vertex is `s`. -/
theorem vertex_weight_eq (G : Graph) (hsym : G.Symmetric)
    (hasc : ∀ v, v < G.num_vertices → StrictAsc (G.neighbors v)) (s : Nat)
    (hs : s < G.num_vertices) :
    ((G.neighbors s).map fun d =>
        if s > d then commonBelow (G.neighbors s) (G.neighbors d) (min s d) else 0).sum
      = ((List.range s).map fun y =>
          ((List.range y).filter fun x =>
            decide (y ∈ G.neighbors x) && decide (s ∈ G.neighbors y) &&
              decide (s ∈ G.neighbors x)).length).sum := by
  have hnd : (G.neighbors s).Nodup := strictAsc_nodup (hasc s hs)
  rw [← List.sum_toFinset _ hnd, ← List.sum_toFinset _ (List.nodup_range s), range_toFinset]
  rw [← Finset.sum_filter_of_ne (s := (G.neighbors s).toFinset) (p := fun d => d < s)
    (fun d _ hne => by
      by_contra hlt
      exact hne (if_neg hlt))]
  rw [← Finset.sum_filter_of_ne (s := Finset.range s) (p := fun y => y ∈ G.neighbors s)
    (fun y hy hne => by
      by_contra hmem
      apply hne
      rw [List.length_eq_zero, List.filter_eq_nil_iff]
      intro x hx
      have hys : y < s := Finset.mem_range.mp hy
      have hyn : y < G.num_vertices := by omega
      have : ¬ s ∈ G.neighbors y := fun h => hmem ((hsym s hs y hyn).mpr h)
      simp [this])]
  have hset : Finset.filter (fun d => d < s) (G.neighbors s).toFinset
      = Finset.filter (fun y => y ∈ G.neighbors s) (Finset.range s) := by
    ext x
    simp only [Finset.mem_filter, List.mem_toFinset, Finset.mem_range]
    tauto
  rw [hset]
  apply Finset.sum_congr rfl
  intro y hy
  obtain ⟨hys, hmem⟩ := Finset.mem_filter.mp hy
  have hys : y < s := Finset.mem_range.mp hys
  have hyn : y < G.num_vertices := by omega
  rw [if_pos hys, min_eq_right (Nat.le_of_lt hys)]
  unfold commonBelow
  rw [filter_length_eq_card _ hnd, filter_length_eq_card _ (List.nodup_range y), range_toFinset]
  congr 1
  ext x
  simp only [Finset.mem_filter, List.mem_toFinset, Finset.mem_range, Bool.and_eq_true,
    decide_eq_true_eq]
  constructor
  · rintro ⟨hxs, hxy, hlt⟩
    have hxn : x < G.num_vertices := by omega
    exact ⟨hlt, ⟨(hsym y hyn x hxn).mp hxy, (hsym s hs y hyn).mp hmem⟩,
      (hsym s hs x hxn).mp hxs⟩
  · rintro ⟨hlt, ⟨hyx, _⟩, hsx⟩
    have hxn : x < G.num_vertices := by omega
    exact ⟨(hsym s hs x hxn).mpr hsx, (hsym y hyn x hxn).mpr hyx, hlt⟩

theorem edges_weight_sum (G : Graph) (mp : List (List Nat)) (hmp : IsNeighborCache G mp) :
    (G.edges.map (edgeWeight mp)).sum
      = ((List.range G.num_vertices).map fun s =>
          ((G.neighbors s).map fun d =>
            if s > d then commonBelow (G.neighbors s) (G.neighbors d) (min s d) else 0).sum).sum := by
  unfold Graph.edges
  rw [sum_map_flatMap]
  congr 1
  apply List.map_congr_left
  intro s hs
  have hsn : s < G.num_vertices := List.mem_range.mp hs
  rw [List.map_map]
  congr 1
  apply List.map_congr_left
  intro d _
  simp only [Function.comp, edgeWeight]
  by_cases hsd : s > d
  · rw [if_pos hsd, if_pos hsd, hmp.2 s hsn, hmp.2 d (by omega)]
  · rw [if_neg hsd, if_neg hsd]

/-- Summed over all edges, the contributions count every triangle once. -/
theorem edges_weight_eq_numTriangles (G : Graph) (mp : List (List Nat))
    (hmp : IsNeighborCache G mp) (hsym : G.Symmetric)
    (hasc : ∀ v, v < G.num_vertices → StrictAsc (G.neighbors v)) :
    (G.edges.map (edgeWeight mp)).sum = numTriangles G := by
  rw [edges_weight_sum G mp hmp]
  unfold numTriangles triangles
  rw [List.length_flatMap]
  congr 1
  apply List.map_congr_left
  intro s hs
  have hsn : s < G.num_vertices := List.mem_range.mp hs
  rw [vertex_weight_eq G hsym hasc s hsn]
  simp only [Function.comp]
  rw [List.length_flatMap]
  congr 1
  apply List.map_congr_left
  intro y _
  simp only [Function.comp, List.length_map]

theorem sortedCache_of_graph (G : Graph) (mp : List (List Nat)) (hwf : G.WellFormed)
    (hmp : IsNeighborCache G mp)
    (hasc : ∀ v, v < G.num_vertices → StrictAsc (G.neighbors v)) : SortedCache mp := by
  intro v
  by_cases hv : v < G.num_vertices
  · rw [hmp.2 v hv]
    refine ⟨hasc v hv, ?_⟩
    exact Nat.lt_of_le_of_lt (strictAsc_length_le (hasc v hv) (hwf.2 v hv)) hwf.1
  · have : mp.getD v [] = [] := by
      rw [List.getD_eq_getElem?_getD, List.getElem?_eq_none (by rw [hmp.1]; omega)]
      rfl
    rw [this]
    exact ⟨List.Pairwise.nil, by simp [UINT32_SIZE]⟩

theorem schedule_weight_sum (G : Graph) (mp : List (List Nat)) (workers : Nat)
    (sched : List Visit) (hsched : ValidSchedule G workers sched) :
    (sched.map fun v => edgeWeight mp (v.s, v.d)).sum = (G.edges.map (edgeWeight mp)).sum := by
  have h : (sched.map fun v => edgeWeight mp (v.s, v.d))
      = (sched.map fun v => (v.s, v.d)).map (edgeWeight mp) := by
    rw [List.map_map]
    rfl
  rw [h]
  exact (hsched.1.map (edgeWeight mp)).sum_eq

theorem sequentialSchedule_valid (G : Graph) : ValidSchedule G 1 (sequentialSchedule G) := by
  constructor
  · unfold sequentialSchedule
    rw [List.map_map]
    have : ((fun v : Visit => (v.s, v.d)) ∘ fun e : Nat × Nat =>
        ({ worker := 0, s := e.1, d := e.2, atomic := true } : Visit)) = id := by
      funext e
      rfl
    rw [this, List.map_id]
  · intro v hv
    unfold sequentialSchedule at hv
    obtain ⟨e, _, rfl⟩ := List.mem_map.mp hv
    exact Nat.lt_succ_self 0

theorem reverseSchedule_valid (G : Graph) : ValidSchedule G 2 (reverseSchedule G) := by
  constructor
  · unfold reverseSchedule
    rw [List.map_map]
    have : ((fun v : Visit => (v.s, v.d)) ∘ fun e : Nat × Nat =>
        ({ worker := e.1 % 2, s := e.1, d := e.2, atomic := decide (e.1 % 2 = 1) } : Visit))
        = id := by
      funext e
      rfl
    rw [this, List.map_id]
    exact List.reverse_perm _
  · intro v hv
    unfold reverseSchedule at hv
    obtain ⟨e, _, rfl⟩ := List.mem_map.mp hv
    exact Nat.mod_lt _ (by decide)

theorem ofLists_isNeighborCache (adj : List (List Nat)) :
    IsNeighborCache (Graph.ofLists adj) adj :=
  ⟨rfl, fun _ _ => rfl⟩

/-- C1: on a well-formed graph whose adjacency is symmetric and whose neighbour
lists are strictly ascending, with `mp` the neighbour cache of the graph, for every
traversal that applies `update` or `updateAtomic` exactly once to every edge on
some worker of the pool, whatever is read past the end of a list, `TC` returns the
number of triangles of the graph (each unordered triple of pairwise adjacent
vertices counted once), as long as that number fits the 64-bit counter. -/
theorem TC_counts_triangles (oob : Nat → Nat) (G : Graph) (mp : List (List Nat))
    (workers : Nat) (sched : List Visit) (hwf : G.WellFormed) (hmp : IsNeighborCache G mp)
    (hsym : G.Symmetric) (hasc : ∀ v, v < G.num_vertices → StrictAsc (G.neighbors v))
    (hsched : ValidSchedule G workers sched) (hfit : numTriangles G < UINT64_SIZE) :
    TC oob G mp workers sched = some (numTriangles G) := by
  rw [TC_eq_sum oob G mp workers sched (sortedCache_of_graph G mp hwf hmp hasc) hsched.2,
    schedule_weight_sum G mp workers sched hsched,
    edges_weight_eq_numTriangles G mp hmp hsym hasc, Nat.mod_eq_of_lt hfit]

/-- Witness for C1: the symmetrized path `0-1-2-3-4` has no triangle and the
symmetrized 5-cycle with the chord `0-2` has one; `TC` returns these numbers. -/
theorem TC_counts_triangles_witness :
    (Graph.ofLists pathSym5).WellFormed ∧ (Graph.ofLists pathSym5).Symmetric ∧
    (Graph.ofLists cycleChord5).WellFormed ∧ (Graph.ofLists cycleChord5).Symmetric ∧
    numTriangles (Graph.ofLists pathSym5) = 0 ∧
    numTriangles (Graph.ofLists cycleChord5) = 1 ∧
    TC (fun _ => 0) (Graph.ofLists pathSym5) pathSym5 2
      (reverseSchedule (Graph.ofLists pathSym5)) = some 0 ∧
    TC (fun v => v + 7) (Graph.ofLists cycleChord5) cycleChord5 2
      (reverseSchedule (Graph.ofLists cycleChord5)) = some 1 := by
  have w1 : (Graph.ofLists pathSym5).WellFormed := by
    unfold Graph.WellFormed; decide
  have s1 : (Graph.ofLists pathSym5).Symmetric := by
    unfold Graph.Symmetric; decide
  have a1 : ∀ v, v < (Graph.ofLists pathSym5).num_vertices →
      StrictAsc ((Graph.ofLists pathSym5).neighbors v) := by decide
  have w2 : (Graph.ofLists cycleChord5).WellFormed := by
    unfold Graph.WellFormed; decide
  have s2 : (Graph.ofLists cycleChord5).Symmetric := by
    unfold Graph.Symmetric; decide
  have a2 : ∀ v, v < (Graph.ofLists cycleChord5).num_vertices →
      StrictAsc ((Graph.ofLists cycleChord5).neighbors v) := by decide
  have n1 : numTriangles (Graph.ofLists pathSym5) = 0 := by decide
  have n2 : numTriangles (Graph.ofLists cycleChord5) = 1 := by decide
  refine ⟨w1, s1, w2, s2, n1, n2, ?_, ?_⟩
  · have h := TC_counts_triangles (fun _ => 0) (Graph.ofLists pathSym5) pathSym5 2
      (reverseSchedule (Graph.ofLists pathSym5)) w1 (ofLists_isNeighborCache _) s1 a1
      (reverseSchedule_valid _) (by rw [n1]; decide)
    rw [n1] at h
    exact h
  · have h := TC_counts_triangles (fun v => v + 7) (Graph.ofLists cycleChord5) cycleChord5 2
      (reverseSchedule (Graph.ofLists cycleChord5)) w2 (ofLists_isNeighborCache _) s2 a2
      (reverseSchedule_valid _) (by rw [n2]; decide)
    rw [n2] at h
    exact h

/-! ## `TC_gabps` -/

theorem gabps_advance_mem (w : Nat) :
    ∀ it : List Nat, ∀ y, w ≤ y → (y ∈ gabps_advance w it ↔ y ∈ it)
  | [], _, _ => by simp [gabps_advance]
  | x :: it, y, hy => by
    unfold gabps_advance
    by_cases hx : x < w
    · rw [if_pos hx, gabps_advance_mem w it y hy]
      have : y ≠ x := by omega
      simp [this]
    · rw [if_neg hx]

theorem gabps_advance_strictAsc (w : Nat) :
    ∀ it : List Nat, StrictAsc it → StrictAsc (gabps_advance w it)
  | [], h => h
  | x :: it, h => by
    unfold gabps_advance
    by_cases hx : x < w
    · rw [if_pos hx]
      exact gabps_advance_strictAsc w it (strictAsc_tail h)
    · rw [if_neg hx]
      exact h

theorem gabps_advance_head_ge (w : Nat) :
    ∀ it : List Nat, ∀ x rest, gabps_advance w it = x :: rest → w ≤ x
  | [], _, _, h => by simp [gabps_advance] at h
  | y :: it, x, rest, h => by
    unfold gabps_advance at h
    by_cases hy : y < w
    · rw [if_pos hy] at h
      exact gabps_advance_head_ge w it x rest h
    · rw [if_neg hy] at h
      injection h with h1 _
      omega

/-- The inner loop of `TC_gabps` adds to the worker's shard the number of entries
of the rest of `mp[v]` that are below `v` and occur in the rest of `mp[u]`. -/
theorem gabps_inner_spec (v wid W : Nat) (hwid : wid < W) :
    ∀ (ws it counts : List Nat), StrictAsc ws → StrictAsc it → counts.length = W * 8 →
      ∃ counts', gabps_inner v wid ws it counts = some counts' ∧ counts'.length = W * 8 ∧
        shardTotal counts' W % UINT64_SIZE
          = (shardTotal counts W + commonBelow ws it v) % UINT64_SIZE
  | [], it, counts, _, _, hlen => ⟨counts, rfl, hlen, by simp [commonBelow]⟩
  | w :: ws, it, counts, hws, hit, hlen => by
    unfold gabps_inner
    by_cases hwv : w ≥ v
    · rw [if_pos hwv]
      refine ⟨counts, rfl, hlen, ?_⟩
      rw [commonBelow_eq_zero_of_forall]
      · rfl
      · intro x hx _
        rcases List.mem_cons.mp hx with h | h
        · omega
        · have := strictAsc_lt_of_mem hws x h
          omega
    · rw [if_neg hwv]
      have hrest : ∀ it', StrictAsc it' → (∀ y, w ≤ y → (y ∈ it' ↔ y ∈ it)) →
          commonBelow ws it v = commonBelow ws it' v := by
        intro it' _ hmem
        unfold commonBelow
        congr 1
        apply List.filter_congr
        intro y hy
        have hlt := strictAsc_lt_of_mem hws y hy
        have := hmem y (by omega)
        simp [this]
      cases hadv : gabps_advance w it with
      | nil =>
        simp only []
        refine ⟨counts, rfl, hlen, ?_⟩
        rw [commonBelow_eq_zero_of_forall]
        · rfl
        · intro x hx hxit
          exfalso
          have hwx : w ≤ x := by
            rcases List.mem_cons.mp hx with h | h
            · omega
            · exact Nat.le_of_lt (strictAsc_lt_of_mem hws x h)
          have := (gabps_advance_mem w it x hwx).mpr hxit
          rw [hadv] at this
          exact List.not_mem_nil _ this
      | cons x it' =>
        simp only []
        have hsa : StrictAsc (x :: it') := by
          rw [← hadv]; exact gabps_advance_strictAsc w it hit
        have hmem : ∀ y, w ≤ y → (y ∈ x :: it' ↔ y ∈ it) := by
          intro y hy
          rw [← hadv]
          exact gabps_advance_mem w it y hy
        have hge : w ≤ x := gabps_advance_head_ge w it x it' hadv
        have hwlt : w < v := by omega
        by_cases hwx : w = x
        · have hlt : wid * 8 < counts.length := by omega
          rw [if_pos hwx, dif_pos hlt]
          obtain ⟨c2, h2, hl2, ht2⟩ := gabps_inner_spec v wid W hwid ws (x :: it')
            (counts.set (wid * 8) ((counts.get ⟨wid * 8, hlt⟩ + 1) % UINT64_SIZE))
            (strictAsc_tail hws) hsa (by rw [List.length_set, hlen])
          refine ⟨c2, h2, hl2, ?_⟩
          have he : wid * 8 = 8 * wid := by omega
          have hlt' : 8 * wid < counts.length := by omega
          have hadd := shardTotal_add_modEq counts wid 1 W hlt' hwid
          have hcb : commonBelow (w :: ws) it v = commonBelow ws it v + 1 := by
            unfold commonBelow
            have hw' : (decide (w ∈ it) && decide (w < v)) = true := by
              have : w ∈ it := (hmem w (Nat.le_refl w)).mp (by rw [hwx]; exact List.mem_cons_self _ _)
              simp [this, hwlt]
            rw [List.filter_cons, if_pos hw', List.length_cons]
          rw [ht2, hcb, ← hrest (x :: it') hsa hmem, Nat.add_mod]
          simp only [he]
          rw [hadd, ← Nat.add_mod]
          congr 1
          omega
        · rw [if_neg hwx]
          obtain ⟨c2, h2, hl2, ht2⟩ := gabps_inner_spec v wid W hwid ws (x :: it') counts
            (strictAsc_tail hws) hsa hlen
          refine ⟨c2, h2, hl2, ?_⟩
          have hcb : commonBelow (w :: ws) it v = commonBelow ws it v := by
            unfold commonBelow
            have hw' : ¬ ((decide (w ∈ it) && decide (w < v)) = true) := by
              have : w ∉ it := fun h => by
                have h3 := (hmem w (Nat.le_refl w)).mpr h
                rcases List.mem_cons.mp h3 with h4 | h4
                · exact hwx h4
                · have := strictAsc_lt_of_mem hsa w h4
                  omega
              simp [this]
            rw [List.filter_cons, if_neg hw']
          rw [ht2, hcb, ← hrest (x :: it') hsa hmem]

theorem commonBelow_eq_card (la lb : List Nat) (m : Nat) (ha : StrictAsc la) :
    commonBelow la lb m = ((la.toFinset ∩ lb.toFinset).filter fun x => x < m).card := by
  unfold commonBelow
  rw [filter_length_eq_card _ (strictAsc_nodup ha)]
  congr 1
  ext x
  simp only [Finset.mem_filter, List.mem_toFinset, Bool.and_eq_true, decide_eq_true_eq,
    Finset.mem_inter]
  tauto

theorem commonBelow_comm (la lb : List Nat) (m : Nat) (ha : StrictAsc la) (hb : StrictAsc lb) :
    commonBelow la lb m = commonBelow lb la m := by
  rw [commonBelow_eq_card la lb m ha, commonBelow_eq_card lb la m hb, Finset.inter_comm]

/-- The middle loop of `TC_gabps` adds to the worker's shard the contributions of
the edges from `u` to the rest of `mp[u]`. -/
theorem gabps_middle_spec (mp : List (List Nat)) (hs : SortedCache mp) (u wid W : Nat)
    (hwid : wid < W) :
    ∀ (vs counts : List Nat), StrictAsc vs → counts.length = W * 8 →
      ∃ counts', gabps_middle mp u wid vs counts = some counts' ∧ counts'.length = W * 8 ∧
        shardTotal counts' W % UINT64_SIZE
          = (shardTotal counts W + (vs.map fun v => edgeWeight mp (u, v)).sum) % UINT64_SIZE
  | [], counts, _, hlen => ⟨counts, rfl, hlen, by simp⟩
  | v :: vs, counts, hvs, hlen => by
    unfold gabps_middle
    by_cases hvu : v ≥ u
    · rw [if_pos hvu]
      refine ⟨counts, rfl, hlen, ?_⟩
      have : ((v :: vs).map fun v => edgeWeight mp (u, v)).sum = 0 := by
        apply List.sum_eq_zero
        intro x hx
        obtain ⟨y, hy, rfl⟩ := List.mem_map.mp hx
        have hyu : ¬ u > y := by
          rcases List.mem_cons.mp hy with h | h
          · omega
          · have := strictAsc_lt_of_mem hvs y h
            omega
        unfold edgeWeight
        exact if_neg hyu
      rw [this]
      rfl
    · rw [if_neg hvu]
      obtain ⟨c1, h1, hl1, ht1⟩ := gabps_inner_spec v wid W hwid (mp.getD v []) (mp.getD u [])
        counts (hs v).1 (hs u).1 hlen
      obtain ⟨c2, h2, hl2, ht2⟩ := gabps_middle_spec mp hs u wid W hwid vs c1
        (strictAsc_tail hvs) hl1
      rw [h1]
      refine ⟨c2, h2, hl2, ?_⟩
      have hw : edgeWeight mp (u, v) = commonBelow (mp.getD v []) (mp.getD u []) v := by
        unfold edgeWeight
        have hlt : u > v := by omega
        simp only []
        rw [if_pos hlt, min_eq_right (Nat.le_of_lt hlt)]
        exact commonBelow_comm _ _ _ (hs u).1 (hs v).1
      rw [ht2, List.map_cons, List.sum_cons, hw, Nat.add_mod, ht1, ← Nat.add_mod]
      congr 1
      omega

theorem gabps_outer_spec (mp : List (List Nat)) (hs : SortedCache mp) (W : Nat) :
    ∀ (sched : List (Nat × Nat)) (counts : List Nat), (∀ p ∈ sched, p.1 < W) →
      counts.length = W * 8 →
      ∃ counts', gabps_outer mp sched counts = some counts' ∧ counts'.length = W * 8 ∧
        shardTotal counts' W % UINT64_SIZE
          = (shardTotal counts W
              + (sched.map fun p => ((mp.getD p.2 []).map fun v => edgeWeight mp (p.2, v)).sum).sum)
            % UINT64_SIZE
  | [], counts, _, hlen => ⟨counts, rfl, hlen, by simp⟩
  | (wid, u) :: rest, counts, hw, hlen => by
    unfold gabps_outer
    obtain ⟨c1, h1, hl1, ht1⟩ := gabps_middle_spec mp hs u wid W
      (hw (wid, u) (List.mem_cons_self _ _)) (mp.getD u []) counts (hs u).1 hlen
    obtain ⟨c2, h2, hl2, ht2⟩ := gabps_outer_spec mp hs W rest c1
      (fun p hp => hw p (List.mem_cons_of_mem _ hp)) hl1
    rw [h1]
    refine ⟨c2, h2, hl2, ?_⟩
    rw [ht2, List.map_cons, List.sum_cons, Nat.add_mod, ht1, ← Nat.add_mod]
    simp only []
    congr 1
    omega

/-- The value of `TC_gabps` is the sum of the contributions of all edges, reduced
modulo `2^64`. -/
theorem TC_gabps_eq_sum (G : Graph) (mp : List (List Nat)) (W : Nat)
    (sched : List (Nat × Nat)) (hs : SortedCache mp) (hmp : IsNeighborCache G mp)
    (hsched : ValidVertexSchedule G W sched) :
    TC_gabps G mp W sched = some ((G.edges.map (edgeWeight mp)).sum % UINT64_SIZE) := by
  obtain ⟨c, h1, hl, ht⟩ :=
    gabps_outer_spec mp hs W sched (List.replicate (W * 8) 0) hsched.2 (by simp)
  unfold TC_gabps
  rw [h1]
  simp only []
  rw [sumShards_eq c W (by omega), ht, shardTotal_replicate, Nat.zero_add]
  congr 2
  have h : (sched.map fun p => ((mp.getD p.2 []).map fun v => edgeWeight mp (p.2, v)).sum)
      = (sched.map Prod.snd).map
          (fun u => ((mp.getD u []).map fun v => edgeWeight mp (u, v)).sum) := by
    rw [List.map_map]
    rfl
  rw [h, (hsched.1.map _).sum_eq]
  unfold Graph.edges
  rw [sum_map_flatMap]
  congr 1
  apply List.map_congr_left
  intro u hu
  rw [hmp.2 u (List.mem_range.mp hu), List.map_map]
  rfl

/-- C10: on a well-formed graph whose neighbour lists are strictly ascending, with
`mp` the neighbour cache of the graph, `TC_gabps` (for every schedule of its
parallel loop over the vertices) and `TC` (for every traversal that visits every
edge once) both return a count, and the two counts are equal. -/
theorem TC_gabps_eq_TC (oob : Nat → Nat) (G : Graph) (mp : List (List Nat)) (workers : Nat)
    (sched : List Visit) (vsched : List (Nat × Nat)) (hwf : G.WellFormed)
    (hmp : IsNeighborCache G mp)
    (hasc : ∀ v, v < G.num_vertices → StrictAsc (G.neighbors v))
    (hsched : ValidSchedule G workers sched)
    (hvsched : ValidVertexSchedule G workers vsched) :
    ∃ count, TC_gabps G mp workers vsched = some count ∧
      TC oob G mp workers sched = some count := by
  have hs := sortedCache_of_graph G mp hwf hmp hasc
  refine ⟨(G.edges.map (edgeWeight mp)).sum % UINT64_SIZE,
    TC_gabps_eq_sum G mp workers vsched hs hmp hvsched, ?_⟩
  rw [TC_eq_sum oob G mp workers sched hs hsched.2,
    schedule_weight_sum G mp workers sched hsched]

/-- Witness for C10: the symmetrized 5-cycle with the chord `0-2`, two workers. -/
theorem TC_gabps_eq_TC_witness :
    (Graph.ofLists cycleChord5).WellFormed ∧
    ValidVertexSchedule (Graph.ofLists cycleChord5) 2 [(0, 4), (1, 2), (0, 0), (1, 3), (1, 1)] ∧
    ∃ count,
      TC_gabps (Graph.ofLists cycleChord5) cycleChord5 2
        [(0, 4), (1, 2), (0, 0), (1, 3), (1, 1)] = some count ∧
      TC (fun v => 3 * v) (Graph.ofLists cycleChord5) cycleChord5 2
        (reverseSchedule (Graph.ofLists cycleChord5)) = some count := by
  have w2 : (Graph.ofLists cycleChord5).WellFormed := by
    unfold Graph.WellFormed; decide
  have a2 : ∀ v, v < (Graph.ofLists cycleChord5).num_vertices →
      StrictAsc ((Graph.ofLists cycleChord5).neighbors v) := by decide
  have v2 : ValidVertexSchedule (Graph.ofLists cycleChord5) 2
      [(0, 4), (1, 2), (0, 0), (1, 3), (1, 1)] := by
    unfold ValidVertexSchedule; decide
  exact ⟨w2, v2, TC_gabps_eq_TC (fun v => 3 * v) (Graph.ofLists cycleChord5) cycleChord5 2
    (reverseSchedule (Graph.ofLists cycleChord5)) [(0, 4), (1, 2), (0, 0), (1, 3), (1, 1)]
    w2 (ofLists_isNeighborCache _) a2 (reverseSchedule_valid _) v2⟩

/-- C4: for vertices `a`, `b` of a cache over fewer than `2^32` vertices whose
neighbour lists are strictly ascending lists of vertex ids, `countCommon` returns
the number of values that occur in both lists and are below `min a b`; it returns
`0` when either list is empty; and the result is the same whatever values are found
one position past the end of the lists. -/
theorem countCommon_correct (oob oob' : Nat → Nat) (mp : List (List Nat)) (a b : Nat)
    (hn : mp.length < UINT32_SIZE) (_ha : a < mp.length) (_hb : b < mp.length)
    (hida : ∀ x ∈ mp.getD a [], x < mp.length) (hidb : ∀ x ∈ mp.getD b [], x < mp.length)
    (hsa : StrictAsc (mp.getD a [])) (hsb : StrictAsc (mp.getD b [])) :
    countCommon oob mp a b
        = some (((mp.getD a []).toFinset ∩ (mp.getD b []).toFinset).filter
            fun x => x < min a b).card ∧
      (mp.getD a [] = [] ∨ mp.getD b [] = [] → countCommon oob mp a b = some 0) ∧
      countCommon oob mp a b = countCommon oob' mp a b := by
  have hla : (mp.getD a []).length < UINT32_SIZE :=
    Nat.lt_of_le_of_lt (strictAsc_length_le hsa hida) hn
  have hlb : (mp.getD b []).length < UINT32_SIZE :=
    Nat.lt_of_le_of_lt (strictAsc_length_le hsb hidb) hn
  have h1 := countCommon_eq oob mp a b hsa hsb hla hlb
  have h2 := countCommon_eq oob' mp a b hsa hsb hla hlb
  refine ⟨?_, ?_, ?_⟩
  · rw [h1, commonBelow_eq_card _ _ _ hsa]
  · intro h
    rw [h1]
    rcases h with h | h
    · rw [h, commonBelow_nil_left]
    · rw [h, commonBelow_nil_right]
  · rw [h1, h2]

/-- Witness for C4: vertices `2` and `1` of the 5-cycle with the chord `0-2`; their
lists `[0, 1, 3]` and `[0, 2]` share one value below `1`. -/
theorem countCommon_correct_witness :
    countCommon (fun _ => 0) cycleChord5 2 1 = some 1 ∧
    countCommon (fun _ => 0) cycleChord5 2 1 = countCommon (fun v => v + 1) cycleChord5 2 1 := by
  have h := countCommon_correct (fun _ => 0) (fun v => v + 1) cycleChord5 2 1 (by decide)
    (by decide) (by decide) (by decide) (by decide) (by decide) (by decide)
  refine ⟨?_, h.2.2⟩
  rw [h.1]
  decide


/-! ## Machine integers and slots -/

theorem toInt32_ne_neg_one {s : Nat} (h : s + 1 < UINT32_SIZE) : toInt32 s ≠ -1 := by
  unfold toInt32
  unfold UINT32_SIZE at *
  rw [Nat.mod_eq_of_lt (by omega)]
  split <;> omega

theorem toUInt32_toInt32 {s : Nat} (h : s < UINT32_SIZE) : toUInt32 (toInt32 s) = s := by
  unfold toUInt32 toInt32
  unfold UINT32_SIZE at *
  rw [Nat.mod_eq_of_lt h]
  split <;> omega

theorem slot_eq_get {P : List Int} {x : Nat} (h : x < P.length) : P.get ⟨x, h⟩ = slot P x := by
  unfold slot
  rw [List.getD_eq_getElem P (-1) h]
  rfl

theorem slot_of_ge {P : List Int} {x : Nat} (h : P.length ≤ x) : slot P x = -1 := by
  unfold slot
  rw [List.getD_eq_getElem?_getD, List.getElem?_eq_none h]
  rfl

theorem slot_set_self {P : List Int} {x : Nat} (h : x < P.length) (val : Int) :
    slot (P.set x val) x = val := by
  unfold slot
  rw [List.getD_eq_getElem _ _ (by rw [List.length_set]; exact h), List.getElem_set_self]

theorem slot_set_ne {P : List Int} {x y : Nat} (h : x ≠ y) (val : Int) :
    slot (P.set x val) y = slot P y := by
  unfold slot
  rw [List.getD_eq_getElem?_getD, List.getElem?_set_ne h, ← List.getD_eq_getElem?_getD]

theorem visitedCount_le (P : List Int) : visitedCount P ≤ P.length := List.countP_le_length _

theorem visitedCount_set : ∀ (P : List Int) (x : Nat) (val : Int), x < P.length →
    slot P x = -1 → val ≠ -1 → visitedCount (P.set x val) = visitedCount P + 1
  | [], _, _, h, _, _ => by simp at h
  | a :: P, 0, val, _, hs, hv => by
    have ha : a = -1 := hs
    subst ha
    unfold visitedCount
    rw [List.set_cons_zero, List.countP_cons, List.countP_cons]
    simp [hv]
  | a :: P, x + 1, val, h, hs, hv => by
    have hs' : slot P x = -1 := hs
    have ih := visitedCount_set P x val (by simpa using h) hs' hv
    unfold visitedCount at ih ⊢
    rw [List.set_cons_succ, List.countP_cons, List.countP_cons, ih]
    omega

theorem slot_replicate (n x : Nat) : slot (List.replicate n (-1 : Int)) x = -1 := by
  unfold slot
  rw [List.getD_eq_getElem?_getD, List.getElem?_replicate]
  split <;> rfl

theorem visitedCount_replicate (n : Nat) : visitedCount (List.replicate n (-1 : Int)) = 0 := by
  unfold visitedCount
  rw [List.countP_eq_zero]
  intro x hx
  rw [List.eq_of_mem_replicate hx]
  decide

/-! ## The functor `BFS_F` -/

theorem BFS_F_cond_eq {P : List Int} {d : Nat} (h : d < P.length) :
    BFS_F_cond P d = some (decide (slot P d = -1)) := by
  unfold BFS_F_cond
  rw [dif_pos h, slot_eq_get h]

theorem BFS_F_updateAtomic_eq {P : List Int} {d : Nat} (s : Nat) (h : d < P.length) :
    BFS_F_updateAtomic P s d
      = if slot P d = -1 then some (P.set d (toInt32 s), true) else some (P, false) := by
  unfold BFS_F_updateAtomic
  rw [dif_pos h, slot_eq_get h]

theorem BFS_F_update_eq {P : List Int} {d : Nat} (s : Nat) (h : d < P.length) :
    BFS_F_update P s d
      = if slot P d = -1 then some (P.set d (toInt32 s), true) else some (P, false) := by
  unfold BFS_F_update
  rw [dif_pos h, slot_eq_get h]

/-! ## One sparse round -/

theorem roundResult_nil (P : List Int) : RoundResult [] P P [] where
  len := rfl
  keep := fun _ _ => rfl
  stay := fun _ h _ => h
  assigned := fun _ h => absurd h (List.not_mem_nil _)
  mem_new := fun x => by simp
  nodup := List.nodup_nil
  count := rfl

theorem roundResult_skip {s d : Nat} {es : List (Nat × Nat)} {P P' : List Int}
    {new : List Nat} (hd : slot P d ≠ -1) (h : RoundResult es P P' new) :
    RoundResult ((s, d) :: es) P P' new where
  len := h.len
  keep := h.keep
  stay := h.stay
  assigned := fun x hx => by
    obtain ⟨s', hs', hv⟩ := h.assigned x hx
    exact ⟨s', List.mem_cons_of_mem _ hs', hv⟩
  mem_new := fun x => by
    rw [h.mem_new x]
    constructor
    · rintro ⟨h1, s', hs'⟩
      exact ⟨h1, s', List.mem_cons_of_mem _ hs'⟩
    · rintro ⟨h1, s', hs'⟩
      refine ⟨h1, s', ?_⟩
      rcases List.mem_cons.mp hs' with heq | hmem
      · injection heq with _ h3
        rw [h3] at h1
        exact absurd h1 hd
      · exact hmem
  nodup := h.nodup
  count := h.count

theorem roundResult_claim {s d : Nat} {es : List (Nat × Nat)} {P P' : List Int}
    {new : List Nat} (hlt : d < P.length) (hd : slot P d = -1) (hs : toInt32 s ≠ -1)
    (h : RoundResult es (P.set d (toInt32 s)) P' new) :
    RoundResult ((s, d) :: es) P P' (d :: new) := by
  have hset : slot (P.set d (toInt32 s)) d = toInt32 s := slot_set_self hlt _
  have hdnew : d ∉ new := fun hmem => by
    have := ((h.mem_new d).mp hmem).1
    rw [hset] at this
    exact hs this
  have hkeep : slot P' d = toInt32 s := by
    rw [h.keep d (by rw [hset]; exact hs), hset]
  refine ⟨?_, ?_, ?_, ?_, ?_, ?_, ?_⟩
  · rw [h.len, List.length_set]
  · intro x hx
    have hne : d ≠ x := fun heq => hx (heq ▸ hd)
    rw [h.keep x (by rw [slot_set_ne hne]; exact hx), slot_set_ne hne]
  · intro x hx hnot
    have hne : d ≠ x := fun heq => hnot (heq ▸ List.mem_cons_self _ _)
    exact h.stay x (by rw [slot_set_ne hne]; exact hx)
      (fun hmem => hnot (List.mem_cons_of_mem _ hmem))
  · intro x hx
    rcases List.mem_cons.mp hx with heq | hmem
    · subst heq
      exact ⟨s, List.mem_cons_self _ _, hkeep⟩
    · obtain ⟨s', hs', hv⟩ := h.assigned x hmem
      exact ⟨s', List.mem_cons_of_mem _ hs', hv⟩
  · intro x
    constructor
    · intro hx
      rcases List.mem_cons.mp hx with heq | hmem
      · subst heq
        exact ⟨hd, s, List.mem_cons_self _ _⟩
      · obtain ⟨h1, s', hs'⟩ := (h.mem_new x).mp hmem
        have hne : d ≠ x := fun heq => hdnew (heq ▸ hmem)
        rw [slot_set_ne hne] at h1
        exact ⟨h1, s', List.mem_cons_of_mem _ hs'⟩
    · rintro ⟨h1, s', hs'⟩
      by_cases hxd : x = d
      · rw [hxd]
        exact List.mem_cons_self _ _
      · apply List.mem_cons_of_mem
        rw [h.mem_new x]
        refine ⟨by rw [slot_set_ne (Ne.symm hxd)]; exact h1, s', ?_⟩
        rcases List.mem_cons.mp hs' with heq | hmem
        · injection heq with _ h3
          exact absurd h3 hxd
        · exact hmem
  · exact List.nodup_cons.mpr ⟨hdnew, h.nodup⟩
  · rw [h.count, visitedCount_set P d _ hlt hd hs, List.length_cons]
    omega

/-- The sparse round over the edges `es` returns, and its result is described by
`RoundResult`. -/
theorem edgeMapSparse_BFS_spec :
    ∀ (es : List (Nat × Nat)) (P : List Int) (next : List Nat),
      (∀ e ∈ es, e.2 < P.length ∧ e.1 + 1 < UINT32_SIZE) →
      ∃ P' new, edgeMapSparse_BFS es P next = some (P', next ++ new) ∧
        RoundResult es P P' new
  | [], P, next, _ => ⟨P, [], by simp [edgeMapSparse_BFS], roundResult_nil P⟩
  | (s, d) :: es, P, next, hes => by
    obtain ⟨hlt, hs⟩ := hes (s, d) (List.mem_cons_self _ _)
    have hs : s + 1 < UINT32_SIZE := hs
    have hlt : d < P.length := hlt
    unfold edgeMapSparse_BFS
    rw [BFS_F_cond_eq hlt]
    by_cases hd : slot P d = -1
    · rw [decide_eq_true hd]
      simp only []
      rw [BFS_F_updateAtomic_eq s hlt, if_pos hd]
      simp only []
      obtain ⟨P', new, h1, h2⟩ := edgeMapSparse_BFS_spec es (P.set d (toInt32 s)) (next ++ [d])
        (fun e he => by
          rw [List.length_set]
          exact hes e (List.mem_cons_of_mem _ he))
      refine ⟨P', d :: new, ?_, roundResult_claim hlt hd (toInt32_ne_neg_one hs) h2⟩
      rw [h1, List.append_assoc]
      rfl
    · rw [decide_eq_false hd]
      simp only []
      obtain ⟨P', new, h1, h2⟩ := edgeMapSparse_BFS_spec es P next
        (fun e he => hes e (List.mem_cons_of_mem _ he))
      exact ⟨P', new, h1, roundResult_skip hd h2⟩

/-! ## Walks and distances -/

theorem walk_zero {G : Graph} {u v : Nat} (h : Walk G u v 0) : v = u := by
  cases h
  rfl

theorem walk_prev {G : Graph} {u w k : Nat} (h : Walk G u w (k + 1)) :
    ∃ v, Walk G u v k ∧ w ∈ G.neighbors v := by
  cases h with
  | step hw he => exact ⟨_, hw, he⟩

theorem walk_lt {G : Graph} (hwf : G.WellFormed) {u : Nat} (hu : u < G.num_vertices) :
    ∀ {v k : Nat}, Walk G u v k → v < G.num_vertices := by
  intro v k h
  induction h with
  | refl => exact hu
  | step _ he ih => exact hwf.2 _ ih _ he

theorem isDist_zero (G : Graph) (u : Nat) : IsDist G u u 0 :=
  ⟨Walk.refl, fun _ _ => Nat.zero_le _⟩

theorem isDist_unique {G : Graph} {u v j k : Nat} (h1 : IsDist G u v j) (h2 : IsDist G u v k) :
    j = k :=
  Nat.le_antisymm (h1.2 k h2.1) (h2.2 j h1.1)

theorem exists_isDist {G : Graph} {u v : Nat} :
    ∀ k, Walk G u v k → ∃ j, j ≤ k ∧ IsDist G u v j := by
  intro k
  induction k using Nat.strong_induction_on with
  | _ k ih =>
    intro hw
    by_cases hex : ∃ j, j < k ∧ Walk G u v j
    · obtain ⟨j, hj, hwj⟩ := hex
      obtain ⟨i, hi, hd⟩ := ih j hj hwj
      exact ⟨i, by omega, hd⟩
    · refine ⟨k, Nat.le_refl k, hw, fun j hwj => ?_⟩
      by_contra hlt
      exact hex ⟨j, by omega, hwj⟩

theorem isDist_prev {G : Graph} {u w k : Nat} (h : IsDist G u w (k + 1)) :
    ∃ v, IsDist G u v k ∧ w ∈ G.neighbors v := by
  obtain ⟨v, hw, he⟩ := walk_prev h.1
  refine ⟨v, ⟨hw, fun j hj => ?_⟩, he⟩
  have := h.2 (j + 1) (Walk.step hj he)
  omega

theorem isDist_step {G : Graph} {u v w k : Nat} (hv : IsDist G u v k)
    (he : w ∈ G.neighbors v) (hnot : ∀ j, j ≤ k → ¬ IsDist G u w j) :
    IsDist G u w (k + 1) := by
  refine ⟨Walk.step hv.1 he, fun j hj => ?_⟩
  obtain ⟨i, hi, hd⟩ := exists_isDist j hj
  by_contra hlt
  exact hnot i (by omega) hd

/-- On a shortest walk there is a vertex at every smaller distance. -/
theorem isDist_prefix {G : Graph} {u : Nat} :
    ∀ (j : Nat) {v : Nat}, IsDist G u v j → ∀ i, i ≤ j → ∃ x, IsDist G u x i
  | 0, v, h, i, hi => by
    have : i = 0 := by omega
    subst this
    exact ⟨v, h⟩
  | j + 1, v, h, i, hi => by
    by_cases hij : i = j + 1
    · subst hij
      exact ⟨v, h⟩
    · obtain ⟨x, hx, _⟩ := isDist_prev h
      exact isDist_prefix j hx i (by omega)

theorem isDist_zero_iff {G : Graph} {u v : Nat} : IsDist G u v 0 ↔ v = u := by
  constructor
  · intro h
    exact walk_zero h.1
  · intro h
    rw [h]
    exact isDist_zero G u

theorem mem_frontierEdges {G : Graph} {F : List Nat} {s d : Nat} :
    (s, d) ∈ frontierEdges G F ↔ s ∈ F ∧ d ∈ G.neighbors s := by
  unfold frontierEdges
  rw [List.mem_flatMap]
  constructor
  · rintro ⟨a, ha, hmem⟩
    obtain ⟨b, hb, heq⟩ := List.mem_map.mp hmem
    injection heq with h1 h2
    subst h1
    subst h2
    exact ⟨ha, hb⟩
  · rintro ⟨hs, hd⟩
    exact ⟨s, hs, List.mem_map.mpr ⟨d, hd, rfl⟩⟩

/-! ## The loop invariant -/

theorem bfsInv_init (G : Graph) (hwf : G.WellFormed) (src : Nat) (hsrc : src < G.num_vertices) :
    BFSInv G src ((List.replicate G.num_vertices (-1 : Int)).set src (toInt32 src)) [src] 0 := by
  have hlen : src < (List.replicate G.num_vertices (-1 : Int)).length := by
    rw [List.length_replicate]; exact hsrc
  have hne : toInt32 src ≠ -1 := toInt32_ne_neg_one (by have := hwf.1; omega)
  have hslot : ∀ v, slot ((List.replicate G.num_vertices (-1 : Int)).set src (toInt32 src)) v ≠ -1
      ↔ v = src := by
    intro v
    by_cases hv : v = src
    · subst hv
      rw [slot_set_self hlen]
      exact ⟨fun _ => rfl, fun _ => hne⟩
    · rw [slot_set_ne (Ne.symm hv), slot_replicate]
      exact ⟨fun h => absurd rfl h, fun h => absurd h hv⟩
  refine ⟨?_, ?_, ?_, ?_, ?_, ?_, ?_⟩
  · rw [List.length_set, List.length_replicate]
  · intro v
    rw [hslot v]
    constructor
    · intro h
      exact ⟨0, Nat.le_refl 0, isDist_zero_iff.mpr h⟩
    · rintro ⟨j, hj, hd⟩
      have : j = 0 := by omega
      subst this
      exact isDist_zero_iff.mp hd
  · intro v
    rw [List.mem_singleton, isDist_zero_iff]
  · exact List.nodup_singleton src
  · exact slot_set_self hlen _
  · intro v hv hs
    exact absurd ((hslot v).mp hs) hv
  · rw [visitedCount_set _ src _ hlen (slot_replicate _ _) hne, visitedCount_replicate]
    simp

theorem bfsInv_step {G : Graph} (hwf : G.WellFormed) {src : Nat} (hsrc : src < G.num_vertices)
    {P P' : List Int} {F new : List Nat} {k : Nat} {es : List (Nat × Nat)}
    (hes : es.Perm (frontierEdges G F)) (hF : F.length ≠ 0) (inv : BFSInv G src P F k)
    (hr : RoundResult es P P' new) : BFSInv G src P' new (k + 1) := by
  have hmem : ∀ s d, (s, d) ∈ es ↔ s ∈ F ∧ d ∈ G.neighbors s := by
    intro s d
    rw [hes.mem_iff, mem_frontierEdges]
  have hunv : ∀ v, slot P v = -1 → ∀ j, j ≤ k → ¬ IsDist G src v j := by
    intro v hv j hj hd
    exact (inv.visited_iff v).mpr ⟨j, hj, hd⟩ hv
  have hnew : ∀ v, v ∈ new ↔ IsDist G src v (k + 1) := by
    intro v
    rw [hr.mem_new v]
    constructor
    · rintro ⟨hv, s, hsv⟩
      obtain ⟨hsF, hnb⟩ := (hmem s v).mp hsv
      exact isDist_step ((inv.frontier_iff s).mp hsF) hnb (hunv v hv)
    · intro hd
      obtain ⟨s, hs, hnb⟩ := isDist_prev hd
      refine ⟨?_, s, (hmem s v).mpr ⟨(inv.frontier_iff s).mpr hs, hnb⟩⟩
      by_contra hv
      obtain ⟨j, hj, hd'⟩ := (inv.visited_iff v).mp hv
      have := isDist_unique hd hd'
      omega
  have hnewslot : ∀ v, v ∈ new → slot P' v ≠ -1 := by
    intro v hv
    obtain ⟨s, hsv, hval⟩ := hr.assigned v hv
    obtain ⟨hsF, _⟩ := (hmem s v).mp hsv
    have hsn : s < G.num_vertices := walk_lt hwf hsrc ((inv.frontier_iff s).mp hsF).1
    rw [hval]
    exact toInt32_ne_neg_one (by have := hwf.1; omega)
  refine ⟨?_, ?_, hnew, hr.nodup, ?_, ?_, ?_⟩
  · rw [hr.len, inv.len]
  · intro v
    constructor
    · intro hv
      by_cases hold : slot P v = -1
      · have hvn : v ∈ new := by
          by_contra hnot
          exact hv (hr.stay v hold hnot)
        exact ⟨k + 1, Nat.le_refl _, (hnew v).mp hvn⟩
      · obtain ⟨j, hj, hd⟩ := (inv.visited_iff v).mp hold
        exact ⟨j, by omega, hd⟩
    · rintro ⟨j, hj, hd⟩
      by_cases hjk : j ≤ k
      · have hold := (inv.visited_iff v).mpr ⟨j, hjk, hd⟩
        rw [hr.keep v hold]
        exact hold
      · have : j = k + 1 := by omega
        subst this
        exact hnewslot v ((hnew v).mpr hd)
  · have hroot : slot P src ≠ -1 := by
      rw [inv.root]
      exact toInt32_ne_neg_one (by have := hwf.1; omega)
    rw [hr.keep src hroot, inv.root]
  · intro v hvs hv
    by_cases hold : slot P v = -1
    · have hvn : v ∈ new := by
        by_contra hnot
        exact hv (hr.stay v hold hnot)
      obtain ⟨s, hsv, hval⟩ := hr.assigned v hvn
      obtain ⟨hsF, hnb⟩ := (hmem s v).mp hsv
      have hds := (inv.frontier_iff s).mp hsF
      have hsn : s < G.num_vertices := walk_lt hwf hsrc hds.1
      have hback : toUInt32 (slot P' v) = s := by
        rw [hval]
        exact toUInt32_toInt32 (by have := hwf.1; omega)
      rw [hback]
      exact ⟨k, hds, (hnew v).mp hvn, hnb⟩
    · rw [hr.keep v hold]
      exact inv.parent v hvs hold
  · have h1 := inv.count
    rw [if_neg hF] at h1
    rw [hr.count]
    split <;> omega

/-- The round loop returns as soon as its fuel covers the rounds that remain, and
the invariant holds of what it returns, with an empty frontier. -/
theorem BFS_loop_spec {G : Graph} (hwf : G.WellFormed) {src : Nat} (hsrc : src < G.num_vertices)
    {order : EdgeOrder} (hord : ValidOrder order) :
    ∀ (fuel : Nat) (P : List Int) (F : List Nat) (k : Nat), BFSInv G src P F k →
      G.num_vertices ≤ fuel + k →
      ∃ P' L, BFS_loop G order fuel P F k = some (P', L) ∧ BFSInv G src P' [] L := by
  intro fuel
  induction fuel with
  | zero =>
    intro P F k inv hfuel
    unfold BFS_loop
    by_cases hF : F.length = 0
    · rw [if_pos hF]
      have : F = [] := List.length_eq_zero.mp hF
      subst this
      exact ⟨P, k, rfl, inv⟩
    · exfalso
      have h1 := inv.count
      rw [if_neg hF] at h1
      have h2 := visitedCount_le P
      rw [inv.len] at h2
      omega
  | succ fuel ih =>
    intro P F k inv hfuel
    unfold BFS_loop
    by_cases hF : F.length = 0
    · rw [if_pos hF]
      have : F = [] := List.length_eq_zero.mp hF
      subst this
      exact ⟨P, k, rfl, inv⟩
    · rw [if_neg hF]
      have hperm := hord k (frontierEdges G F)
      have hpre : ∀ e ∈ order k (frontierEdges G F), e.2 < P.length ∧ e.1 + 1 < UINT32_SIZE := by
        intro e he
        have he' : (e.1, e.2) ∈ frontierEdges G F := hperm.mem_iff.mp he
        obtain ⟨hsF, hnb⟩ := mem_frontierEdges.mp he'
        have hsn : e.1 < G.num_vertices := walk_lt hwf hsrc ((inv.frontier_iff e.1).mp hsF).1
        refine ⟨?_, by have := hwf.1; omega⟩
        rw [inv.len]
        exact hwf.2 e.1 hsn e.2 hnb
      obtain ⟨P', new, h1, h2⟩ := edgeMapSparse_BFS_spec _ P [] hpre
      rw [h1]
      simp only [List.nil_append]
      exact ih P' new (k + 1) (bfsInv_step hwf hsrc hperm hF inv h2) (by omega)

/-- The search returns within `n` rounds, and the invariant holds of the array it
returns, with an empty frontier. -/
theorem BFS_run_spec {G : Graph} (hwf : G.WellFormed) {src : Nat} (hsrc : src < G.num_vertices)
    {order : EdgeOrder} (hord : ValidOrder order) {fuel : Nat} (hfuel : G.num_vertices ≤ fuel) :
    ∃ P L, BFS_run G src order fuel = some (P, L) ∧ BFSInv G src P [] L ∧
      L ≤ G.num_vertices := by
  have hmod : src % UINT32_SIZE = src := Nat.mod_eq_of_lt (by have := hwf.1; omega)
  obtain ⟨P, L, h1, h2⟩ := BFS_loop_spec hwf hsrc hord fuel _ [src] 0
    (bfsInv_init G hwf src hsrc) (by omega)
  refine ⟨P, L, ?_, h2, ?_⟩
  · unfold BFS_run Graph.get_num_vertices
    simp only [hmod, List.length_replicate]
    rw [if_pos hsrc]
    exact h1
  · have h3 := h2.count
    have h4 := visitedCount_le P
    rw [h2.len] at h4
    simp only [List.length_nil, if_true] at h3
    omega

/-! ## What the returned array says -/

theorem final_visited_iff {G : Graph} {src : Nat} {P : List Int} {L : Nat}
    (inv : BFSInv G src P [] L) (v : Nat) : slot P v ≠ -1 ↔ Reachable G src v := by
  rw [inv.visited_iff v]
  constructor
  · rintro ⟨j, _, hd⟩
    exact ⟨j, hd.1⟩
  · rintro ⟨k, hw⟩
    obtain ⟨j, _, hd⟩ := exists_isDist k hw
    refine ⟨j, ?_, hd⟩
    by_contra hlt
    obtain ⟨x, hx⟩ := isDist_prefix j hd L (by omega)
    exact List.not_mem_nil x ((inv.frontier_iff x).mpr hx)

theorem final_parentWalk {G : Graph} {src : Nat} {P : List Int} {L : Nat}
    (inv : BFSInv G src P [] L) :
    ∀ (j v : Nat), IsDist G src v j → ParentWalk G P src v j
  | 0, v, hd => by
    rw [isDist_zero_iff.mp hd]
    exact ParentWalk.root
  | j + 1, v, hd => by
    have hvs : v ≠ src := fun h => by
      have := isDist_unique hd (isDist_zero_iff.mpr h)
      omega
    have hv : slot P v ≠ -1 := (final_visited_iff inv v).mpr ⟨j + 1, hd.1⟩
    obtain ⟨i, hp, hv', hnb⟩ := inv.parent v hvs hv
    have : i = j := by
      have := isDist_unique hd hv'
      omega
    subst this
    exact ParentWalk.hop hvs hv hnb (final_parentWalk inv i _ hp)

theorem parentWalk_unique {G : Graph} {P : List Int} {src : Nat} :
    ∀ {v j k : Nat}, ParentWalk G P src v j → ParentWalk G P src v k → j = k := by
  intro v j k h1
  induction h1 generalizing k with
  | root =>
    intro h2
    cases h2 with
    | root => rfl
    | hop hne _ _ _ => exact absurd rfl hne
  | hop hne _ _ _ ih =>
    intro h2
    cases h2 with
    | root => exact absurd rfl hne
    | hop _ _ _ h3 => rw [ih h3]

theorem BFS_directed_with_edge_map_eq {G : Graph} {src : Nat} {order : EdgeOrder} {fuel : Nat}
    {P : List Int} {L : Nat} (h : BFS_run G src order fuel = some (P, L)) :
    BFS_directed_with_edge_map G src order fuel = some P := by
  unfold BFS_directed_with_edge_map
  rw [h]
  rfl

theorem pathGraph_wellFormed (n : Nat) (hn : n < UINT32_SIZE) : (pathGraph n).WellFormed := by
  refine ⟨hn, ?_⟩
  intro s _ d hd
  unfold pathGraph at hd ⊢
  simp only [] at hd ⊢
  split at hd
  · rw [List.mem_singleton.mp hd]
    assumption
  · exact absurd hd (List.not_mem_nil _)

theorem reverseOrder_valid : ValidOrder reverseOrder :=
  fun _ es => List.reverse_perm es

theorem listedOrder_valid : ValidOrder listedOrder :=
  fun _ es => List.Perm.refl es

theorem alternatingOrder_valid : ValidOrder alternatingOrder := by
  intro level es
  unfold alternatingOrder
  split
  · exact List.reverse_perm es
  · exact List.Perm.refl es

/-- C2: on a well-formed directed graph and for a source in `[0, n)`, whatever the
order in which the edges of each round are handled, `BFS_directed_with_edge_map`
returns an array in which, for every vertex reachable from the source, following
the parent pointers reaches the source after a number of hops equal to the
shortest-path distance, every hop `(Parents[x], x)` being an edge of the graph. -/
theorem BFS_parent_chain_shortest (G : Graph) (src : Nat) (order : EdgeOrder) (fuel : Nat)
    (hwf : G.WellFormed) (hsrc : src < G.num_vertices) (hord : ValidOrder order)
    (hfuel : G.num_vertices ≤ fuel) :
    ∃ Parents, BFS_directed_with_edge_map G src order fuel = some Parents ∧
      ∀ v, Reachable G src v →
        ∃ k, ParentWalk G Parents src v k ∧ IsDist G src v k := by
  obtain ⟨P, L, h1, inv, _⟩ := BFS_run_spec hwf hsrc hord hfuel
  refine ⟨P, BFS_directed_with_edge_map_eq h1, ?_⟩
  rintro v ⟨k, hw⟩
  obtain ⟨j, _, hd⟩ := exists_isDist k hw
  exact ⟨j, final_parentWalk inv j v hd, hd⟩

/-- Witness for C2: the path `0 → 1 → 2 → 3 → 4` searched from `0` gives the array
`[0, 0, 1, 2, 3]`. -/
theorem BFS_parent_chain_shortest_witness :
    BFS_directed_with_edge_map (pathGraph 5) 0 reverseOrder 5 = some [0, 0, 1, 2, 3] ∧
      ∀ v, Reachable (pathGraph 5) 0 v →
        ∃ k, ParentWalk (pathGraph 5) [0, 0, 1, 2, 3] 0 v k ∧ IsDist (pathGraph 5) 0 v k := by
  have hrun : BFS_directed_with_edge_map (pathGraph 5) 0 reverseOrder 5
      = some [0, 0, 1, 2, 3] := by decide
  obtain ⟨P, h1, h2⟩ := BFS_parent_chain_shortest (pathGraph 5) 0 reverseOrder 5
    (pathGraph_wellFormed 5 (by decide)) (by decide) reverseOrder_valid (Nat.le_refl 5)
  rw [hrun] at h1
  injection h1 with h1
  rw [← h1] at h2
  exact ⟨hrun, h2⟩

/-- C3: on a well-formed directed graph and for a source in `[0, n)`, in the array
returned by `BFS_directed_with_edge_map` the slot of the source holds the source,
and the slot of every other vertex is `-1` exactly when the vertex is not reachable
from the source. -/
theorem BFS_slots (G : Graph) (src : Nat) (order : EdgeOrder) (fuel : Nat)
    (hwf : G.WellFormed) (hsrc : src < G.num_vertices) (hord : ValidOrder order)
    (hfuel : G.num_vertices ≤ fuel) :
    ∃ Parents, BFS_directed_with_edge_map G src order fuel = some Parents ∧
      Parents.length = G.num_vertices ∧
      slot Parents src = toInt32 src ∧ toUInt32 (slot Parents src) = src ∧
      ∀ v, v < G.num_vertices → v ≠ src → (slot Parents v = -1 ↔ ¬ Reachable G src v) := by
  obtain ⟨P, L, h1, inv, _⟩ := BFS_run_spec hwf hsrc hord hfuel
  refine ⟨P, BFS_directed_with_edge_map_eq h1, inv.len, inv.root, ?_, ?_⟩
  · rw [inv.root]
    exact toUInt32_toInt32 (by have := hwf.1; omega)
  · intro v _ _
    rw [← final_visited_iff inv v]
    exact ⟨fun h => not_not.mpr h, fun h => not_not.mp h⟩

/-- Witness for C3: in the diamond searched from vertex `1` only `1` and `3` are
reached. -/
theorem BFS_slots_witness :
    BFS_directed_with_edge_map diamond 1 listedOrder 4 = some [-1, 1, -1, 1] ∧
      ∃ Parents, BFS_directed_with_edge_map diamond 1 listedOrder 4 = some Parents ∧
        Parents.length = diamond.num_vertices ∧
        slot Parents 1 = toInt32 1 ∧ toUInt32 (slot Parents 1) = 1 ∧
        ∀ v, v < diamond.num_vertices → v ≠ 1 →
          (slot Parents v = -1 ↔ ¬ Reachable diamond 1 v) :=
  ⟨by decide, BFS_slots diamond 1 listedOrder 4 (by unfold Graph.WellFormed; decide)
    (by decide) listedOrder_valid (by decide)⟩

/-! ## Number of rounds -/

theorem pathGraph_walk_eq (n : Nat) : ∀ {v k : Nat}, Walk (pathGraph n) 0 v k → v = k := by
  intro v k h
  induction h with
  | refl => rfl
  | step _ he ih =>
    unfold pathGraph at he
    simp only [] at he
    split at he
    · rw [List.mem_singleton.mp he, ih]
    · exact absurd he (List.not_mem_nil _)

theorem pathGraph_walk (n : Nat) : ∀ k, k < n → Walk (pathGraph n) 0 k k
  | 0, _ => Walk.refl
  | k + 1, h => by
    refine Walk.step (pathGraph_walk n k (by omega)) ?_
    unfold pathGraph
    simp only []
    rw [if_pos h]
    exact List.mem_singleton.mpr rfl

theorem pathGraph_isDist (n k : Nat) (h : k < n) : IsDist (pathGraph n) 0 k k := by
  refine ⟨pathGraph_walk n k h, fun j hj => ?_⟩
  rw [pathGraph_walk_eq n hj]

/-- C5: on a well-formed graph and for a source in `[0, n)`, whatever the order in
which the edges of each round are handled, the round loop of
`BFS_directed_with_edge_map` terminates: with fuel for `n` rounds it returns, after
at most `n` rounds.  The bound is attained: on the directed path with `n ≥ 1`
vertices searched from its first vertex the loop performs exactly `n` rounds. -/
theorem BFS_rounds_le (G : Graph) (src : Nat) (order : EdgeOrder) (fuel : Nat)
    (hwf : G.WellFormed) (hsrc : src < G.num_vertices) (hord : ValidOrder order)
    (hfuel : G.num_vertices ≤ fuel) :
    (∃ Parents rounds, BFS_run G src order fuel = some (Parents, rounds) ∧
        rounds ≤ G.num_vertices) ∧
      ∀ n, 0 < n → n < UINT32_SIZE → n ≤ fuel →
        ∃ Parents, BFS_run (pathGraph n) 0 order fuel = some (Parents, n) := by
  constructor
  · obtain ⟨P, L, h1, _, h3⟩ := BFS_run_spec hwf hsrc hord hfuel
    exact ⟨P, L, h1, h3⟩
  · intro n hn hn32 hfuel'
    have hsrc' : 0 < (pathGraph n).num_vertices := hn
    obtain ⟨P, L, h1, inv, h3⟩ := BFS_run_spec (pathGraph_wellFormed n hn32) hsrc' hord hfuel'
    have h3 : L ≤ n := h3
    have hL : n ≤ L := by
      by_contra hlt
      obtain ⟨x, hx⟩ := isDist_prefix (n - 1) (pathGraph_isDist n (n - 1) (by omega)) L (by omega)
      exact List.not_mem_nil x ((inv.frontier_iff x).mpr hx)
    have : L = n := by omega
    subst this
    exact ⟨P, h1⟩

/-- Witness for C5: the diamond searched from `0` takes 3 rounds for its 4
vertices, and the path on 4 vertices takes 4 rounds. -/
theorem BFS_rounds_le_witness :
    BFS_run diamond 0 alternatingOrder 4 = some ([0, 0, 0, 2], 3) ∧
      (∃ Parents rounds, BFS_run diamond 0 alternatingOrder 4 = some (Parents, rounds) ∧
        rounds ≤ diamond.num_vertices) ∧
      ∃ Parents, BFS_run (pathGraph 4) 0 alternatingOrder 4 = some (Parents, 4) := by
  have h := BFS_rounds_le diamond 0 alternatingOrder 4 (by unfold Graph.WellFormed; decide)
    (by decide) alternatingOrder_valid (by decide)
  exact ⟨by decide, h.1, h.2 4 (by decide) (by decide) (by decide)⟩

/-- C9: on a well-formed graph and for a source in `[0, n)`, two runs of
`BFS_directed_with_edge_map` under any two orders of handling the edges of each
round return arrays with the same assigned slots, and in both arrays the parent
chain of every visited vertex has the same length. -/
theorem BFS_order_independent (G : Graph) (src : Nat) (order₁ order₂ : EdgeOrder)
    (fuel₁ fuel₂ : Nat) (hwf : G.WellFormed) (hsrc : src < G.num_vertices)
    (hord₁ : ValidOrder order₁) (hord₂ : ValidOrder order₂)
    (hfuel₁ : G.num_vertices ≤ fuel₁) (hfuel₂ : G.num_vertices ≤ fuel₂) :
    ∃ P₁ P₂, BFS_directed_with_edge_map G src order₁ fuel₁ = some P₁ ∧
      BFS_directed_with_edge_map G src order₂ fuel₂ = some P₂ ∧
      (∀ v, slot P₁ v ≠ -1 ↔ slot P₂ v ≠ -1) ∧
      ∀ v, slot P₁ v ≠ -1 →
        ∃ k, ParentWalk G P₁ src v k ∧ ParentWalk G P₂ src v k ∧
          (∀ j, ParentWalk G P₁ src v j → j = k) ∧
          (∀ j, ParentWalk G P₂ src v j → j = k) := by
  obtain ⟨P₁, L₁, h1, inv₁, _⟩ := BFS_run_spec hwf hsrc hord₁ hfuel₁
  obtain ⟨P₂, L₂, h2, inv₂, _⟩ := BFS_run_spec hwf hsrc hord₂ hfuel₂
  refine ⟨P₁, P₂, BFS_directed_with_edge_map_eq h1, BFS_directed_with_edge_map_eq h2, ?_, ?_⟩
  · intro v
    rw [final_visited_iff inv₁ v, final_visited_iff inv₂ v]
  · intro v hv
    obtain ⟨k, hw⟩ := (final_visited_iff inv₁ v).mp hv
    obtain ⟨j, _, hd⟩ := exists_isDist k hw
    have w₁ := final_parentWalk inv₁ j v hd
    have w₂ := final_parentWalk inv₂ j v hd
    exact ⟨j, w₁, w₂, fun i hi => parentWalk_unique hi w₁, fun i hi => parentWalk_unique hi w₂⟩

/-- Witness for C9: in the diamond the two orders record different parents for
vertex `3`, with the same visited set and the same chain lengths. -/
theorem BFS_order_independent_witness :
    BFS_directed_with_edge_map diamond 0 listedOrder 4 = some [0, 0, 0, 1] ∧
    BFS_directed_with_edge_map diamond 0 alternatingOrder 5 = some [0, 0, 0, 2] ∧
    ∃ P₁ P₂, BFS_directed_with_edge_map diamond 0 listedOrder 4 = some P₁ ∧
      BFS_directed_with_edge_map diamond 0 alternatingOrder 5 = some P₂ ∧
      (∀ v, slot P₁ v ≠ -1 ↔ slot P₂ v ≠ -1) ∧
      ∀ v, slot P₁ v ≠ -1 →
        ∃ k, ParentWalk diamond P₁ 0 v k ∧ ParentWalk diamond P₂ 0 v k ∧
          (∀ j, ParentWalk diamond P₁ 0 v j → j = k) ∧
          (∀ j, ParentWalk diamond P₂ 0 v j → j = k) :=
  ⟨by decide, by decide,
    BFS_order_independent diamond 0 listedOrder alternatingOrder 4 5
      (by unfold Graph.WellFormed; decide) (by decide) listedOrder_valid alternatingOrder_valid
      (by decide) (by decide)⟩

/-! ## Sparse and dense rounds -/

/-- The dense round over the vertices `ds` returns; the vertices that join the next
frontier are the unassigned ones among `ds` with an active in-neighbour, and they
are the slots that become assigned. -/
theorem edgeMapDense_BFS_spec (inN : Nat → List Nat) (F : List Nat)
    (hin : ∀ d s, s ∈ inN d → s + 1 < UINT32_SIZE) :
    ∀ (ds : List Nat) (P : List Int) (next : List Nat), (∀ d ∈ ds, d < P.length) →
      ∃ P' new, edgeMapDense_BFS inN F ds P next = some (P', next ++ new) ∧
        P'.length = P.length ∧
        (∀ x, x ∈ new ↔ x ∈ ds ∧ slot P x = -1 ∧ ∃ s, s ∈ inN x ∧ s ∈ F) ∧
        (∀ x, slot P' x ≠ -1 ↔ slot P x ≠ -1 ∨ x ∈ new)
  | [], P, next, _ => ⟨P, [], by simp [edgeMapDense_BFS], rfl, by simp, by simp⟩
  | d :: ds, P, next, hds => by
    have hlt : d < P.length := hds d (List.mem_cons_self _ _)
    have hrest : ∀ x ∈ ds, x < P.length := fun x hx => hds x (List.mem_cons_of_mem _ hx)
    have skip : (slot P d ≠ -1 ∨ ¬ ∃ s, s ∈ inN d ∧ s ∈ F) →
        ∃ P' new, edgeMapDense_BFS inN F ds P next = some (P', next ++ new) ∧
          P'.length = P.length ∧
          (∀ x, x ∈ new ↔ x ∈ d :: ds ∧ slot P x = -1 ∧ ∃ s, s ∈ inN x ∧ s ∈ F) ∧
          (∀ x, slot P' x ≠ -1 ↔ slot P x ≠ -1 ∨ x ∈ new) := by
      intro hskip
      obtain ⟨P', new, h1, h2, h3, h4⟩ := edgeMapDense_BFS_spec inN F hin ds P next hrest
      refine ⟨P', new, h1, h2, ?_, h4⟩
      intro x
      rw [h3 x]
      constructor
      · rintro ⟨hx, hs, hex⟩
        exact ⟨List.mem_cons_of_mem _ hx, hs, hex⟩
      · rintro ⟨hx, hs, hex⟩
        refine ⟨?_, hs, hex⟩
        rcases List.mem_cons.mp hx with heq | hmem
        · subst heq
          rcases hskip with h | h
          · exact absurd hs h
          · exact absurd hex h
        · exact hmem
    unfold edgeMapDense_BFS
    rw [BFS_F_cond_eq hlt]
    by_cases hd : slot P d = -1
    · rw [decide_eq_true hd]
      simp only []
      cases hfind : (inN d).find? fun s => decide (s ∈ F) with
      | none =>
        simp only []
        apply skip
        right
        rintro ⟨s, hs, hsF⟩
        have := List.find?_eq_none.mp hfind s hs
        simp [hsF] at this
      | some s =>
        simp only []
        have hsin : s ∈ inN d := List.mem_of_find?_eq_some hfind
        have hsF : s ∈ F := by
          have := List.find?_some hfind
          simpa using this
        have hne : toInt32 s ≠ -1 := toInt32_ne_neg_one (hin d s hsin)
        rw [BFS_F_update_eq s hlt, if_pos hd]
        simp only []
        obtain ⟨P', new, h1, h2, h3, h4⟩ := edgeMapDense_BFS_spec inN F hin ds
          (P.set d (toInt32 s)) (next ++ [d])
          (fun x hx => by rw [List.length_set]; exact hrest x hx)
        have hset : slot (P.set d (toInt32 s)) d = toInt32 s := slot_set_self hlt _
        have hdnew : d ∉ new := fun hmem => by
          have := ((h3 d).mp hmem).2.1
          rw [hset] at this
          exact hne this
        refine ⟨P', d :: new, ?_, ?_, ?_, ?_⟩
        · rw [h1, List.append_assoc]
          rfl
        · rw [h2, List.length_set]
        · intro x
          constructor
          · intro hx
            rcases List.mem_cons.mp hx with heq | hmem
            · subst heq
              exact ⟨List.mem_cons_self _ _, hd, s, hsin, hsF⟩
            · obtain ⟨hxds, hxs, hex⟩ := (h3 x).mp hmem
              have hxd : d ≠ x := fun heq => hdnew (heq ▸ hmem)
              rw [slot_set_ne hxd] at hxs
              exact ⟨List.mem_cons_of_mem _ hxds, hxs, hex⟩
          · rintro ⟨hx, hxs, hex⟩
            rcases List.mem_cons.mp hx with heq | hmem
            · rw [heq]
              exact List.mem_cons_self _ _
            · by_cases hxd : x = d
              · rw [hxd]
                exact List.mem_cons_self _ _
              · apply List.mem_cons_of_mem
                rw [h3 x]
                exact ⟨hmem, by rw [slot_set_ne (Ne.symm hxd)]; exact hxs, hex⟩
        · intro x
          rw [h4 x]
          by_cases hxd : x = d
          · subst hxd
            rw [hset]
            constructor
            · intro _
              exact Or.inr (List.mem_cons_self _ _)
            · intro _
              exact Or.inl hne
          · rw [slot_set_ne (Ne.symm hxd)]
            constructor
            · rintro (h | h)
              · exact Or.inl h
              · exact Or.inr (List.mem_cons_of_mem _ h)
            · rintro (h | h)
              · exact Or.inl h
              · rcases List.mem_cons.mp h with heq | hmem
                · exact absurd heq hxd
                · exact Or.inr hmem
    · rw [decide_eq_false hd]
      simp only []
      exact skip (Or.inl hd)

theorem roundResult_slot_iff {es : List (Nat × Nat)} {P P' : List Int} {new : List Nat}
    (hr : RoundResult es P P' new) (hes : ∀ e ∈ es, e.1 + 1 < UINT32_SIZE) (x : Nat) :
    slot P' x ≠ -1 ↔ slot P x ≠ -1 ∨ x ∈ new := by
  constructor
  · intro h
    by_cases hold : slot P x = -1
    · right
      by_contra hnot
      exact h (hr.stay x hold hnot)
    · exact Or.inl hold
  · rintro (h | h)
    · rw [hr.keep x h]
      exact h
    · obtain ⟨s, hs, hv⟩ := hr.assigned x h
      rw [hv]
      exact toInt32_ne_neg_one (hes (s, x) hs)

/-- C8: for the functor `BFS_F`, a well-formed graph, a parent array with one slot
per vertex and a frontier of vertices, one sparse round (in any order of the edges
leaving the frontier) and one dense round (in any order of the vertices, for any
enumeration of the in-neighbours) started from the same array both return, with
next frontiers of identical membership and the same set of assigned slots. -/
theorem sparse_dense_round_equiv (G : Graph) (Parents : List Int) (frontier : List Nat)
    (es : List (Nat × Nat)) (ds : List Nat) (in_neighbors : Nat → List Nat)
    (hwf : G.WellFormed) (hlen : Parents.length = G.num_vertices)
    (hfr : ∀ s ∈ frontier, s < G.num_vertices)
    (hes : es.Perm (frontierEdges G frontier)) (hds : ds.Perm (List.range G.num_vertices))
    (hin : ∀ d s, s ∈ in_neighbors d ↔ s < G.num_vertices ∧ d ∈ G.neighbors s) :
    ∃ Ps Fs Pd Fd, edgeMapSparse_BFS es Parents [] = some (Ps, Fs) ∧
      edgeMapDense_BFS in_neighbors frontier ds Parents [] = some (Pd, Fd) ∧
      (∀ x, x ∈ Fs ↔ x ∈ Fd) ∧ (∀ x, slot Ps x ≠ -1 ↔ slot Pd x ≠ -1) := by
  have hn := hwf.1
  have hmem : ∀ s d, (s, d) ∈ es ↔ s ∈ frontier ∧ d ∈ G.neighbors s := by
    intro s d
    rw [hes.mem_iff, mem_frontierEdges]
  have hpre : ∀ e ∈ es, e.2 < Parents.length ∧ e.1 + 1 < UINT32_SIZE := by
    intro e he
    obtain ⟨hsF, hnb⟩ := (hmem e.1 e.2).mp he
    have hs := hfr e.1 hsF
    exact ⟨by rw [hlen]; exact hwf.2 e.1 hs e.2 hnb, by omega⟩
  obtain ⟨Ps, Fs, h1, hr⟩ := edgeMapSparse_BFS_spec es Parents [] hpre
  obtain ⟨Pd, Fd, h2, _, h4, h5⟩ := edgeMapDense_BFS_spec in_neighbors frontier
    (fun d s hs => by have := ((hin d s).mp hs).1; omega) ds Parents []
    (fun d hd => by rw [hlen]; exact List.mem_range.mp (hds.mem_iff.mp hd))
  have hsame : ∀ x, x ∈ Fs ↔ x ∈ Fd := by
    intro x
    rw [hr.mem_new x, h4 x]
    constructor
    · rintro ⟨hx, s, hs⟩
      obtain ⟨hsF, hnb⟩ := (hmem s x).mp hs
      have hsn := hfr s hsF
      exact ⟨hds.mem_iff.mpr (List.mem_range.mpr (hwf.2 s hsn x hnb)), hx, s,
        (hin x s).mpr ⟨hsn, hnb⟩, hsF⟩
    · rintro ⟨_, hx, s, hs, hsF⟩
      exact ⟨hx, s, (hmem s x).mpr ⟨hsF, ((hin x s).mp hs).2⟩⟩
  refine ⟨Ps, Fs, Pd, Fd, ?_, ?_, hsame, ?_⟩
  · rw [h1, List.nil_append]
  · rw [h2, List.nil_append]
  · intro x
    rw [roundResult_slot_iff hr (fun e he => (hpre e he).2) x, h5 x, hsame x]

theorem in_neighbors_iff (G : Graph) (d s : Nat) :
    s ∈ G.in_neighbors d ↔ s < G.num_vertices ∧ d ∈ G.neighbors s := by
  unfold Graph.in_neighbors
  rw [List.mem_filter, List.mem_range, decide_eq_true_eq]

/-- Witness for C8: the second round of the search of the diamond, where both
frontier vertices have an edge to the unvisited vertex `3`. -/
theorem sparse_dense_round_equiv_witness :
    edgeMapSparse_BFS [(2, 3), (1, 3)] [0, 0, 0, -1] [] = some ([0, 0, 0, 2], [3]) ∧
    edgeMapDense_BFS diamond.in_neighbors [1, 2] [3, 1, 0, 2] [0, 0, 0, -1] []
      = some ([0, 0, 0, 1], [3]) ∧
    ∃ Ps Fs Pd Fd, edgeMapSparse_BFS [(2, 3), (1, 3)] [0, 0, 0, -1] [] = some (Ps, Fs) ∧
      edgeMapDense_BFS diamond.in_neighbors [1, 2] [3, 1, 0, 2] [0, 0, 0, -1] []
        = some (Pd, Fd) ∧
      (∀ x, x ∈ Fs ↔ x ∈ Fd) ∧ (∀ x, slot Ps x ≠ -1 ↔ slot Pd x ≠ -1) :=
  ⟨by decide, by decide,
    sparse_dense_round_equiv diamond [0, 0, 0, -1] [1, 2] [(2, 3), (1, 3)] [3, 1, 0, 2]
      diamond.in_neighbors (by unfold Graph.WellFormed; decide) (by decide) (by decide)
      (by decide) (by decide) (in_neighbors_iff diamond)⟩


/-! ## Batching -/

theorem fill_batch_eq (edges : List (Nat × Nat)) (B i : Nat)
    (hlen : edges.length < UINT64_SIZE) :
    ∀ j, i * B + j ≤ edges.length → fill_batch edges B i j = some ((edges.drop (i * B)).take j)
  | 0, _ => by simp [fill_batch]
  | j + 1, h => by
    have hlt : i * B + j < edges.length := by omega
    unfold fill_batch
    rw [fill_batch_eq edges B i hlen j (by omega), Nat.mod_eq_of_lt (by omega),
      List.getElem?_eq_getElem hlt]
    simp only []
    rw [List.take_succ, List.getElem?_drop, List.getElem?_eq_getElem hlt]
    rfl

theorem batch_sz_eq (N B i : Nat) (hN : N < UINT64_SIZE) (hi : i * B ≤ N) :
    batch_sz N B i = min B (N - i * B) := by
  unfold batch_sz
  have h1 : i * B < UINT64_SIZE := by omega
  rw [Nat.mod_eq_of_lt h1]
  have h2 : N + UINT64_SIZE - i * B = (N - i * B) + UINT64_SIZE := by omega
  rw [h2, Nat.add_mod_right, Nat.mod_eq_of_lt (by omega)]

theorem build_batches_spec (edges : List (Nat × Nat)) (B : Nat) (hB : 0 < B)
    (hlen : edges.length < UINT64_SIZE) :
    ∀ k, k * B < edges.length + B →
      ∃ batch_data, build_batches edges edges.length B k = some batch_data ∧
        batch_data.length = k ∧ batch_data.flatten = edges.take (k * B) ∧
        ∀ i (h : i < batch_data.length),
          batch_data.get ⟨i, h⟩ = (edges.drop (i * B)).take (min B (edges.length - i * B))
  | 0, _ => ⟨[], rfl, rfl, by simp, fun i h => absurd h (Nat.not_lt_zero i)⟩
  | k + 1, hk => by
    have hkB : k * B < edges.length := by
      have : (k + 1) * B = k * B + B := Nat.succ_mul k B
      omega
    obtain ⟨data, h1, h2, h3, h4⟩ := build_batches_spec edges B hB hlen k (by omega)
    unfold build_batches
    rw [h1, batch_sz_eq edges.length B k hlen (Nat.le_of_lt hkB),
      fill_batch_eq edges B k hlen _ (by
        have := Nat.min_le_right B (edges.length - k * B)
        omega)]
    refine ⟨_, rfl, ?_, ?_, ?_⟩
    · rw [List.length_append, h2]
      rfl
    · rw [List.flatten_append, h3]
      simp only [List.flatten_cons, List.flatten_nil, List.append_nil]
      have hsplit : (k + 1) * B = k * B + B := Nat.succ_mul k B
      rw [hsplit, List.take_add]
      congr 1
      by_cases hmin : B ≤ edges.length - k * B
      · rw [Nat.min_eq_left hmin]
      · rw [Nat.min_eq_right (by omega)]
        rw [List.take_of_length_le (by rw [List.length_drop]),
          List.take_of_length_le (by rw [List.length_drop]; omega)]
    · intro i hi
      rw [List.length_append, h2] at hi
      simp only [List.length_singleton] at hi
      by_cases hik : i < k
      · have hi' : i < data.length := by omega
        rw [← h4 i hi']
        simp only [List.get_eq_getElem]
        exact List.getElem_append_left hi'
      · have : i = k := by omega
        subst this
        simp only [List.get_eq_getElem]
        rw [List.getElem_append_right (by omega)]
        simp [h2]

theorem ingest_batches_eq {σ : Type} (add : σ → List (Nat × Nat) → Nat → Nat → σ)
    (batch_data : List (List (Nat × Nat))) (num_nodes : Nat) (graph : σ) :
    ∀ k, k ≤ batch_data.length →
      ingest_batches add batch_data num_nodes graph k
        = some ((batch_data.take k).foldl (fun g b => add g b b.length num_nodes) graph)
  | 0, _ => by simp [ingest_batches]
  | k + 1, hk => by
    have hlt : k < batch_data.length := by omega
    unfold ingest_batches
    rw [ingest_batches_eq add batch_data num_nodes graph k (by omega),
      List.getElem?_eq_getElem hlt]
    simp only []
    rw [List.take_succ, List.getElem?_eq_getElem hlt, List.foldl_append]
    rfl

theorem to_size_t_eq {bs : Int} (h1 : 1 ≤ bs) (h2 : bs < 2 ^ 63) :
    to_size_t bs = bs.toNat ∧ 0 < bs.toNat ∧ bs.toNat < 2 ^ 63 := by
  unfold to_size_t UINT64_SIZE
  refine ⟨?_, by omega, by omega⟩
  rw [Int.emod_eq_of_lt (by omega) (by omega)]

theorem batch_count_eq (N B : Nat) (hB : 0 < B) (hsum : N + B ≤ UINT64_SIZE) :
    batch_count N B = (N + B - 1) / B := by
  unfold batch_count
  have h : N + B + (UINT64_SIZE - 1) = (N + B - 1) + UINT64_SIZE := by
    unfold UINT64_SIZE at *
    omega
  rw [h, Nat.add_mod_right, Nat.mod_eq_of_lt (by omega)]

theorem foldl_recordCall (num_nodes : Nat) :
    ∀ (l : List (List (Nat × Nat))) (acc : List (List (Nat × Nat) × Nat × Nat)),
      l.foldl (fun g b => recordCall g b b.length num_nodes) acc
        = acc ++ l.map fun b => (b, b.length, num_nodes)
  | [], acc => by simp
  | b :: l, acc => by
    rw [List.foldl_cons, foldl_recordCall num_nodes l, List.map_cons]
    unfold recordCall
    rw [List.append_assoc]
    rfl

theorem to_size_t_lt (bs : Int) : to_size_t bs < UINT64_SIZE := by
  unfold to_size_t UINT64_SIZE
  have h1 := Int.emod_lt_of_pos bs (show (0 : Int) < ((2 ^ 64 : Nat) : Int) by norm_num)
  have h2 := Int.emod_nonneg bs (show ((2 ^ 64 : Nat) : Int) ≠ 0 by norm_num)
  omega

theorem batch_count_wrap (N B : Nat) (hN : N < UINT64_SIZE) (hB : B < UINT64_SIZE)
    (hsum : UINT64_SIZE < N + B) : batch_count N B = 0 := by
  unfold batch_count
  have h : N + B + (UINT64_SIZE - 1) = (N + B - 1 - UINT64_SIZE) + UINT64_SIZE + UINT64_SIZE := by
    unfold UINT64_SIZE at *
    omega
  rw [h, Nat.add_mod_right, Nat.add_mod_right, Nat.mod_eq_of_lt (by omega)]
  exact Nat.div_eq_of_lt (by omega)

/-- Beyond `num_edges + batch_size = 2^64` the sum `num_edges + batch_size - 1` wraps
around and `run_algorithm` builds no batch at all. -/
theorem run_algorithm_batches_wrap (edges : List (Nat × Nat)) (bs : Int)
    (hN : edges.length < UINT64_SIZE) (hsum : UINT64_SIZE < edges.length + to_size_t bs) :
    run_algorithm_batches edges bs = some [] ∧
      batch_count (edges.length % UINT64_SIZE) (to_size_t bs) = 0 := by
  have hB := to_size_t_lt bs
  have hcount : batch_count (edges.length % UINT64_SIZE) (to_size_t bs) = 0 := by
    rw [Nat.mod_eq_of_lt hN]
    exact batch_count_wrap _ _ hN hB hsum
  refine ⟨?_, hcount⟩
  unfold run_algorithm_batches
  simp only []
  rw [hcount, if_neg (by omega)]
  rfl

theorem run_algorithm_spec (edges : List (Nat × Nat)) (bs : Int) (hB : 1 ≤ to_size_t bs)
    (hsum : edges.length + to_size_t bs ≤ UINT64_SIZE) :
    ∃ batch_data, run_algorithm_batches edges bs = some batch_data ∧
      batch_data.length = (edges.length + to_size_t bs - 1) / to_size_t bs ∧
      batch_count (edges.length % UINT64_SIZE) (to_size_t bs) = batch_data.length ∧
      batch_data.flatten = edges ∧
      ∀ i (h : i < batch_data.length), i * to_size_t bs < edges.length ∧
        batch_data.get ⟨i, h⟩
          = (edges.drop (i * to_size_t bs)).take
              (min (to_size_t bs) (edges.length - i * to_size_t bs)) := by
  have hpos : 0 < to_size_t bs := hB
  have hN : edges.length < UINT64_SIZE := by omega
  have hdm := Nat.div_add_mod (edges.length + to_size_t bs - 1) (to_size_t bs)
  have hml := Nat.mod_lt (edges.length + to_size_t bs - 1) hpos
  have hcomm : to_size_t bs * ((edges.length + to_size_t bs - 1) / to_size_t bs)
      = (edges.length + to_size_t bs - 1) / to_size_t bs * to_size_t bs := Nat.mul_comm _ _
  obtain ⟨data, d1, d2, d3, d4⟩ := build_batches_spec edges (to_size_t bs) hpos hN
    ((edges.length + to_size_t bs - 1) / to_size_t bs) (by omega)
  have hcount : batch_count (edges.length % UINT64_SIZE) (to_size_t bs)
      = (edges.length + to_size_t bs - 1) / to_size_t bs := by
    rw [Nat.mod_eq_of_lt hN, batch_count_eq _ _ hpos hsum]
  refine ⟨data, ?_, d2, by rw [hcount, d2], ?_, ?_⟩
  · unfold run_algorithm_batches
    simp only []
    rw [hcount, if_neg (by omega), Nat.mod_eq_of_lt hN]
    exact d1
  · rw [d3]
    exact List.take_of_length_le (by omega)
  · intro i hi
    refine ⟨?_, d4 i hi⟩
    rw [d2] at hi
    have hle : (i + 1) * to_size_t bs
        ≤ (edges.length + to_size_t bs - 1) / to_size_t bs * to_size_t bs :=
      Nat.mul_le_mul_right _ hi
    have : (i + 1) * to_size_t bs = i * to_size_t bs + to_size_t bs := Nat.succ_mul _ _
    omega

/-- C7 as stated fails: the option `-bs -1` becomes the `size_t` batch size
`2^64 - 1`, which is at least 1; on two edges `num_edges + batch_size - 1` wraps
around to `0`, `run_algorithm` builds no batch and calls `add_edge_batch_sort` not
once, so both edges are dropped. -/
theorem run_algorithm_drops_edges :
    to_size_t (-1) = 18446744073709551615 ∧ 1 ≤ to_size_t (-1) ∧
    run_algorithm_batches [(0, 1), (1, 2)] (-1) = some [] ∧
    run_algorithm recordCall [(0, 1), (1, 2)] (-1) 3 [] = some [] ∧
    ¬ ∀ (edges : List (Nat × Nat)) (bs : Int), 1 ≤ to_size_t bs →
        ∃ batch_data, run_algorithm_batches edges bs = some batch_data ∧
          batch_data.flatten = edges := by
  have h : run_algorithm_batches [(0, 1), (1, 2)] (-1) = some [] := by decide
  refine ⟨by decide, by decide, h, by decide, fun hall => ?_⟩
  obtain ⟨data, h1, h2⟩ := hall [(0, 1), (1, 2)] (-1) (by decide)
  rw [h] at h1
  cases h1
  exact absurd h2 (by decide)

/-- C7, amended: for every edge sequence and every batch size (the `size_t` value
of the option `-bs`) that is at least 1 and for which `num_edges + batch_size` does
not exceed `2^64`, `run_algorithm` builds batches whose concatenation in index
order is the input edge sequence, and it passes the batches to
`add_edge_batch_sort` one at a time in increasing index order, each with its size
and the vertex count. -/
theorem run_algorithm_batches_concat {σ : Type}
    (add_edge_batch_sort : σ → List (Nat × Nat) → Nat → Nat → σ) (graph : σ)
    (edges : List (Nat × Nat)) (bs : Int) (num_nodes : Nat) (hB : 1 ≤ to_size_t bs)
    (hsum : edges.length + to_size_t bs ≤ UINT64_SIZE) :
    ∃ batch_data, run_algorithm_batches edges bs = some batch_data ∧
      batch_data.flatten = edges ∧
      run_algorithm add_edge_batch_sort edges bs num_nodes graph
        = some (batch_data.foldl (fun g b => add_edge_batch_sort g b b.length num_nodes) graph) ∧
      run_algorithm recordCall edges bs num_nodes []
        = some (batch_data.map fun b => (b, b.length, num_nodes)) := by
  obtain ⟨data, d1, _, d3, d4, _⟩ := run_algorithm_spec edges bs hB hsum
  have hing : ∀ {τ : Type} (add : τ → List (Nat × Nat) → Nat → Nat → τ) (g : τ),
      run_algorithm add edges bs num_nodes g
        = some (data.foldl (fun g b => add g b b.length num_nodes) g) := by
    intro τ add g
    unfold run_algorithm
    rw [d1]
    simp only []
    rw [d3, ingest_batches_eq add data num_nodes g data.length (Nat.le_refl _), List.take_length]
  refine ⟨data, d1, d4, hing add_edge_batch_sort graph, ?_⟩
  rw [hing recordCall [], foldl_recordCall, List.nil_append]

/-- Witness for C7, amended: five edges in batches of two. -/
theorem run_algorithm_batches_concat_witness :
    run_algorithm_batches [(0, 1), (1, 2), (2, 3), (3, 4), (4, 0)] 2
      = some [[(0, 1), (1, 2)], [(2, 3), (3, 4)], [(4, 0)]] ∧
    ∃ batch_data, run_algorithm_batches [(0, 1), (1, 2), (2, 3), (3, 4), (4, 0)] 2
        = some batch_data ∧
      batch_data.flatten = [(0, 1), (1, 2), (2, 3), (3, 4), (4, 0)] ∧
      run_algorithm recordCall [(0, 1), (1, 2), (2, 3), (3, 4), (4, 0)] 2 5 []
        = some (batch_data.foldl (fun g b => recordCall g b b.length 5) []) ∧
      run_algorithm recordCall [(0, 1), (1, 2), (2, 3), (3, 4), (4, 0)] 2 5 []
        = some (batch_data.map fun b => (b, b.length, 5)) :=
  ⟨by decide, run_algorithm_batches_concat recordCall []
    [(0, 1), (1, 2), (2, 3), (3, 4), (4, 0)] 2 5 (by decide) (by decide)⟩

/-! ## The source check of `test_bfs` -/

/-- C6 as stated fails: for the source `5` on a graph with 5 vertices `test_bfs`
does not leave before any work; it calls `BFS_directed_with_edge_map`, whose write
of the source slot then falls outside the parent array. -/
theorem test_bfs_out_of_range_not_rejected :
    ¬ (∀ (G : Graph) (src : Int) (order : EdgeOrder) (fuel : Nat),
        (src = -1 ∨ src < 0 ∨ (G.num_vertices : Int) ≤ src) →
        test_bfs G src order fuel = TestOutcome.exited) ∧
      test_bfs (pathGraph 5) 5 listedOrder 5 = TestOutcome.ran none := by
  refine ⟨fun h => ?_, by decide⟩
  have h5 := h (pathGraph 5) 5 listedOrder 5 (Or.inr (Or.inr (by decide)))
  exact absurd h5 (by decide)

/-- C6, amended: `test_bfs` leaves before any work exactly when the requested
source is unspecified (`-1`); for every other value, inside `[0, n)` or not, it
calls `BFS_directed_with_edge_map` with the value narrowed to `uint32_t`. -/
theorem test_bfs_rejects_unspecified (G : Graph) (src : Int) (order : EdgeOrder)
    (fuel : Nat) :
    (test_bfs G src order fuel = TestOutcome.exited ↔ src = -1) ∧
      (src ≠ -1 → test_bfs G src order fuel
        = TestOutcome.ran (BFS_directed_with_edge_map G (toUInt32 src) order fuel)) := by
  unfold test_bfs
  by_cases h : src = -1
  · rw [if_pos h]
    exact ⟨⟨fun _ => h, fun _ => rfl⟩, fun hne => absurd h hne⟩
  · rw [if_neg h]
    exact ⟨⟨fun hc => TestOutcome.noConfusion hc, fun hc => absurd hc h⟩, fun _ => rfl⟩

/-- Witness for C6, amended: a source past the last vertex is passed on. -/
theorem test_bfs_rejects_unspecified_witness :
    (test_bfs (pathGraph 5) 7 listedOrder 5 = TestOutcome.exited ↔ (7 : Int) = -1) ∧
      test_bfs (pathGraph 5) 7 listedOrder 5
        = TestOutcome.ran (BFS_directed_with_edge_map (pathGraph 5) (toUInt32 7) listedOrder 5) :=
  ⟨(test_bfs_rejects_unspecified (pathGraph 5) 7 listedOrder 5).1,
    (test_bfs_rejects_unspecified (pathGraph 5) 7 listedOrder 5).2 (by decide)⟩

/-! ## Hand-built graphs -/

/-- On a well-formed symmetric graph with strictly ascending neighbour lists `TC`
returns the number of triangles modulo `2^64`, for every traversal that visits
every edge once. -/
theorem TC_eq_numTriangles_mod (oob : Nat → Nat) (G : Graph) (mp : List (List Nat))
    (workers : Nat) (sched : List Visit) (hwf : G.WellFormed) (hmp : IsNeighborCache G mp)
    (hsym : G.Symmetric) (hasc : ∀ v, v < G.num_vertices → StrictAsc (G.neighbors v))
    (hsched : ValidSchedule G workers sched) :
    TC oob G mp workers sched = some (numTriangles G % UINT64_SIZE) := by
  rw [TC_eq_sum oob G mp workers sched (sortedCache_of_graph G mp hwf hmp hasc) hsched.2,
    schedule_weight_sum G mp workers sched hsched,
    edges_weight_eq_numTriangles G mp hmp hsym hasc]

theorem neighborCache_isNeighborCache (G : Graph) : IsNeighborCache G (neighborCache G) := by
  unfold neighborCache
  refine ⟨by simp, ?_⟩
  intro v hv
  rw [List.getD_eq_getElem _ _ (by simpa using hv)]
  simp

theorem edgeless_edges (n : Nat) : (edgeless n).edges = [] := by
  unfold Graph.edges edgeless
  simp

theorem TC_edgeless (oob : Nat → Nat) (n workers : Nat) (sched : List Visit)
    (hsched : ValidSchedule (edgeless n) workers sched) :
    TC oob (edgeless n) (neighborCache (edgeless n)) workers sched = some 0 := by
  have hnil : sched = [] := by
    have h := hsched.1
    rw [edgeless_edges] at h
    exact List.map_eq_nil_iff.mp (List.Perm.eq_nil h)
  subst hnil
  unfold TC edgeMap_countF
  simp only []
  rw [sumShards_eq _ workers (by simp), shardTotal_replicate]
  rfl

/-- C12 as stated fails: on the symmetrized 4-cycle with the diagonal `0-2`, which
has the two triangles `0-1-2` and `0-2-3`, `TC` returns 2 and not 1. -/
theorem TC_cycleDiag4_not_one :
    numTriangles (Graph.ofLists cycleDiag4) = 2 ∧
      TC (fun _ => 0) (Graph.ofLists cycleDiag4) cycleDiag4 1
        (sequentialSchedule (Graph.ofLists cycleDiag4)) = some 2 ∧
      TC (fun _ => 0) (Graph.ofLists cycleDiag4) cycleDiag4 1
        (sequentialSchedule (Graph.ofLists cycleDiag4)) ≠ some 1 := by
  refine ⟨by decide, by decide, by decide⟩

/-- C12, amended: for every traversal that visits every edge once, `TC` returns 2
on the symmetrized 4-cycle with the diagonal `0-2`, 4 on the complete graph on 4
vertices and 0 on an edgeless graph. -/
theorem TC_hand_built (oob : Nat → Nat) (workers n : Nat) (sched₁ sched₂ sched₃ : List Visit)
    (h₁ : ValidSchedule (Graph.ofLists cycleDiag4) workers sched₁)
    (h₂ : ValidSchedule (Graph.ofLists complete4) workers sched₂)
    (h₃ : ValidSchedule (edgeless n) workers sched₃) :
    TC oob (Graph.ofLists cycleDiag4) cycleDiag4 workers sched₁ = some 2 ∧
      TC oob (Graph.ofLists complete4) complete4 workers sched₂ = some 4 ∧
      TC oob (edgeless n) (neighborCache (edgeless n)) workers sched₃ = some 0 := by
  refine ⟨?_, ?_, TC_edgeless oob n workers sched₃ h₃⟩
  · rw [TC_eq_numTriangles_mod oob (Graph.ofLists cycleDiag4) cycleDiag4 workers sched₁
      (by unfold Graph.WellFormed; decide) (ofLists_isNeighborCache _)
      (by unfold Graph.Symmetric; decide) (by decide) h₁]
    decide
  · rw [TC_eq_numTriangles_mod oob (Graph.ofLists complete4) complete4 workers sched₂
      (by unfold Graph.WellFormed; decide) (ofLists_isNeighborCache _)
      (by unfold Graph.Symmetric; decide) (by decide) h₂]
    decide

/-- Witness for C12, amended: the three graphs traversed on two workers in reverse
edge order. -/
theorem TC_hand_built_witness :
    TC (fun v => v) (Graph.ofLists cycleDiag4) cycleDiag4 2
        (reverseSchedule (Graph.ofLists cycleDiag4)) = some 2 ∧
      TC (fun v => v) (Graph.ofLists complete4) complete4 2
        (reverseSchedule (Graph.ofLists complete4)) = some 4 ∧
      TC (fun v => v) (edgeless 3) (neighborCache (edgeless 3)) 2
        (reverseSchedule (edgeless 3)) = some 0 :=
  TC_hand_built (fun v => v) 2 3 _ _ _ (reverseSchedule_valid _) (reverseSchedule_valid _)
    (reverseSchedule_valid _)

/-! ## The state machine of a parent slot -/

theorem BFS_F_calls_keep :
    ∀ (calls : List Visit) (P : List Int), (∀ c ∈ calls, c.d < P.length) →
      ∃ P', BFS_F_calls calls P = some P' ∧ P'.length = P.length ∧
        ∀ x, slot P x ≠ -1 → slot P' x = slot P x
  | [], P, _ => ⟨P, rfl, rfl, fun _ _ => rfl⟩
  | c :: cs, P, hd => by
    have hlt : c.d < P.length := hd c (List.mem_cons_self _ _)
    have hstep : (if c.atomic then BFS_F_updateAtomic P c.s c.d else BFS_F_update P c.s c.d)
        = if slot P c.d = -1 then some (P.set c.d (toInt32 c.s), true) else some (P, false) := by
      rw [BFS_F_updateAtomic_eq c.s hlt, BFS_F_update_eq c.s hlt, ite_self]
    unfold BFS_F_calls
    rw [hstep]
    by_cases hs : slot P c.d = -1
    · rw [if_pos hs]
      simp only []
      obtain ⟨P', h1, h2, h3⟩ := BFS_F_calls_keep cs (P.set c.d (toInt32 c.s))
        (fun x hx => by rw [List.length_set]; exact hd x (List.mem_cons_of_mem _ hx))
      refine ⟨P', h1, by rw [h2, List.length_set], ?_⟩
      intro x hx
      have hne : c.d ≠ x := fun heq => hx (heq ▸ hs)
      rw [h3 x (by rw [slot_set_ne hne]; exact hx), slot_set_ne hne]
    · rw [if_neg hs]
      simp only []
      exact BFS_F_calls_keep cs P (fun x hx => hd x (List.mem_cons_of_mem _ hx))

/-- C13: on a parent array with fewer than `2^32` slots and for vertex ids `s`, `d`
of the array, `update(s, d)` and `updateAtomic(s, d)` return the same boolean and
leave the same array; the call returns `true` exactly when slot `d` was `-1`; then
slot `d` holds `s` and `cond(d)` is false afterwards; otherwise the array is
unchanged; no other slot is modified; and a slot that has left `-1` is not changed
by any later sequence of calls. -/
theorem BFS_F_slot_transitions (Parents : List Int) (s d : Nat)
    (hn : Parents.length < UINT32_SIZE) (hs : s < Parents.length) (hd : d < Parents.length) :
    BFS_F_update Parents s d = BFS_F_updateAtomic Parents s d ∧
      (∃ Parents' r, BFS_F_update Parents s d = some (Parents', r) ∧
        (r = true ↔ slot Parents d = -1) ∧
        (slot Parents d = -1 →
          slot Parents' d = toInt32 s ∧ toUInt32 (slot Parents' d) = s ∧
            BFS_F_cond Parents' d = some false) ∧
        (slot Parents d ≠ -1 → Parents' = Parents) ∧
        (∀ x, x ≠ d → slot Parents' x = slot Parents x)) ∧
      ∀ calls : List Visit, (∀ c ∈ calls, c.d < Parents.length) →
        ∃ Parents', BFS_F_calls calls Parents = some Parents' ∧
          ∀ x, slot Parents x ≠ -1 → slot Parents' x = slot Parents x := by
  refine ⟨?_, ?_, ?_⟩
  · rw [BFS_F_update_eq s hd, BFS_F_updateAtomic_eq s hd]
  · rw [BFS_F_update_eq s hd]
    by_cases h : slot Parents d = -1
    · rw [if_pos h]
      have hne : toInt32 s ≠ -1 := toInt32_ne_neg_one (by omega)
      have hset : slot (Parents.set d (toInt32 s)) d = toInt32 s := slot_set_self hd _
      refine ⟨_, true, rfl, ⟨fun _ => h, fun _ => rfl⟩, ?_, fun h' => absurd h h', ?_⟩
      · intro _
        refine ⟨hset, ?_, ?_⟩
        · rw [hset]
          exact toUInt32_toInt32 (by omega)
        · rw [BFS_F_cond_eq (by rw [List.length_set]; exact hd), hset, decide_eq_false hne]
      · intro x hx
        exact slot_set_ne (Ne.symm hx) _
    · rw [if_neg h]
      refine ⟨Parents, false, rfl, ⟨fun hc => Bool.noConfusion hc, fun hc => absurd hc h⟩,
        fun hc => absurd hc h, fun _ => rfl, fun _ _ => rfl⟩
  · intro calls hcalls
    obtain ⟨P', h1, _, h3⟩ := BFS_F_calls_keep calls Parents hcalls
    exact ⟨P', h1, h3⟩

/-- Witness for C13: the array of the diamond after its first round; `3` is claimed
by `2`, and later calls on slot `3` leave it alone. -/
theorem BFS_F_slot_transitions_witness :
    BFS_F_update [0, 0, 0, -1] 2 3 = some ([0, 0, 0, 2], true) ∧
    BFS_F_calls [⟨0, 1, 3, true⟩, ⟨0, 2, 3, false⟩, ⟨1, 0, 3, true⟩] [0, 0, 0, 2]
      = some [0, 0, 0, 2] ∧
    BFS_F_update [0, 0, 0, -1] 2 3 = BFS_F_updateAtomic [0, 0, 0, -1] 2 3 ∧
      (∃ Parents' r, BFS_F_update [0, 0, 0, -1] 2 3 = some (Parents', r) ∧
        (r = true ↔ slot [0, 0, 0, -1] 3 = -1) ∧
        (slot [0, 0, 0, -1] 3 = -1 →
          slot Parents' 3 = toInt32 2 ∧ toUInt32 (slot Parents' 3) = 2 ∧
            BFS_F_cond Parents' 3 = some false) ∧
        (slot [0, 0, 0, -1] 3 ≠ -1 → Parents' = [0, 0, 0, -1]) ∧
        (∀ x, x ≠ 3 → slot Parents' x = slot [0, 0, 0, -1] x)) ∧
      ∀ calls : List Visit, (∀ c ∈ calls, c.d < [(0 : Int), 0, 0, -1].length) →
        ∃ Parents', BFS_F_calls calls [0, 0, 0, -1] = some Parents' ∧
          ∀ x, slot [0, 0, 0, -1] x ≠ -1 → slot Parents' x = slot [0, 0, 0, -1] x :=
  ⟨by decide, by decide,
    BFS_F_slot_transitions [0, 0, 0, -1] 2 3 (by decide) (by decide) (by decide)⟩

/-! ## The sign of a parent slot -/

theorem toInt32_nonneg {s : Nat} (h : s < 2 ^ 31) : 0 ≤ toInt32 s := by
  unfold toInt32 UINT32_SIZE
  rw [Nat.mod_eq_of_lt (by omega), if_pos h]
  omega

theorem toInt32_neg {s : Nat} (h1 : 2 ^ 31 ≤ s) (h2 : s < UINT32_SIZE) : toInt32 s < 0 := by
  unfold toInt32
  unfold UINT32_SIZE at *
  rw [Nat.mod_eq_of_lt h2, if_neg (by omega)]
  omega

theorem depth_pass_skips_eq {P : List Int} {j : Nat} (h : j < P.length) :
    depth_pass_skips P j = some (decide (slot P j < 0)) := by
  unfold depth_pass_skips
  rw [dif_pos h, slot_eq_get h]

theorem slotsNonneg_round {es : List (Nat × Nat)} {P P' : List Int} {new : List Nat}
    (hr : RoundResult es P P' new) (hes : ∀ e ∈ es, e.1 < 2 ^ 31) (hP : SlotsNonneg P) :
    SlotsNonneg P' := by
  intro x
  by_cases hold : slot P x = -1
  · by_cases hx : x ∈ new
    · obtain ⟨s, hs, hv⟩ := hr.assigned x hx
      right
      rw [hv]
      exact toInt32_nonneg (hes (s, x) hs)
    · exact Or.inl (hr.stay x hold hx)
  · rw [hr.keep x hold]
    exact hP x

theorem BFS_loop_slotsNonneg {G : Graph} (hwf : G.WellFormed) (hn : G.num_vertices ≤ 2 ^ 31)
    {src : Nat} (hsrc : src < G.num_vertices) {order : EdgeOrder} (hord : ValidOrder order) :
    ∀ (fuel : Nat) (P : List Int) (F : List Nat) (k : Nat) (P' : List Int) (L : Nat),
      BFSInv G src P F k → SlotsNonneg P → BFS_loop G order fuel P F k = some (P', L) →
      SlotsNonneg P' := by
  intro fuel
  induction fuel with
  | zero =>
    intro P F k P' L _ hP hrun
    unfold BFS_loop at hrun
    by_cases hF : F.length = 0
    · rw [if_pos hF] at hrun
      injection hrun with hrun
      injection hrun with h1 _
      rw [← h1]
      exact hP
    · rw [if_neg hF] at hrun
      exact Option.noConfusion hrun
  | succ fuel ih =>
    intro P F k P' L inv hP hrun
    unfold BFS_loop at hrun
    by_cases hF : F.length = 0
    · rw [if_pos hF] at hrun
      injection hrun with hrun
      injection hrun with h1 _
      rw [← h1]
      exact hP
    · rw [if_neg hF] at hrun
      have hperm := hord k (frontierEdges G F)
      have hsrcs : ∀ e ∈ order k (frontierEdges G F), e.1 < G.num_vertices := by
        intro e he
        have he' : (e.1, e.2) ∈ frontierEdges G F := hperm.mem_iff.mp he
        exact walk_lt hwf hsrc ((inv.frontier_iff e.1).mp (mem_frontierEdges.mp he').1).1
      have hpre : ∀ e ∈ order k (frontierEdges G F), e.2 < P.length ∧ e.1 + 1 < UINT32_SIZE := by
        intro e he
        have he' : (e.1, e.2) ∈ frontierEdges G F := hperm.mem_iff.mp he
        have hsn := hsrcs e he
        refine ⟨?_, by have := hwf.1; omega⟩
        rw [inv.len]
        exact hwf.2 e.1 hsn e.2 (mem_frontierEdges.mp he').2
      obtain ⟨P1, new, h1, h2⟩ := edgeMapSparse_BFS_spec _ P [] hpre
      rw [h1] at hrun
      simp only [List.nil_append] at hrun
      exact ih P1 new (k + 1) P' L (bfsInv_step hwf hsrc hperm hF inv h2)
        (slotsNonneg_round h2 (fun e he => by have := hsrcs e he; omega) hP) hrun

/-- C16 as stated fails: the vertex id `2^31` stored in an unvisited slot makes the
slot negative, so the test of the depth pass skips a vertex that has been visited. -/
theorem BFS_F_update_negative_slot :
    BFS_F_update [-1] 2147483648 0 = some ([-2147483648], true) ∧
      BFS_F_updateAtomic [-1] 2147483648 0 = some ([-2147483648], true) ∧
      slot [-2147483648] 0 < 0 ∧ slot [-2147483648] 0 ≠ -1 ∧
      depth_pass_skips [-2147483648] 0 = some true := by
  refine ⟨by decide, by decide, by decide, by decide, by decide⟩

/-- C16, amended: for every vertex id `s < 2^31` and every `d` whose slot is `-1`,
after `update(s, d)` or `updateAtomic(s, d)` the slot is non-negative and reads
back as `s`; an id in `[2^31, 2^32)` leaves a negative slot that still reads back
as `s`.  So on a well-formed graph with at most `2^31` vertices the test
`Parents[j] < 0` of the depth pass skips exactly the unvisited vertices of the
array the search returns. -/
theorem BFS_F_slot_sign (Parents : List Int) (s d : Nat) (hd : d < Parents.length)
    (hslot : slot Parents d = -1) (hs : s < UINT32_SIZE) :
    (∃ Parents', BFS_F_update Parents s d = some (Parents', true) ∧
        BFS_F_updateAtomic Parents s d = some (Parents', true) ∧
        toUInt32 (slot Parents' d) = s ∧
        (s < 2 ^ 31 → 0 ≤ slot Parents' d) ∧ (2 ^ 31 ≤ s → slot Parents' d < 0)) ∧
      ∀ (G : Graph) (src : Nat) (order : EdgeOrder) (fuel : Nat), G.WellFormed →
        G.num_vertices ≤ 2 ^ 31 → src < G.num_vertices → ValidOrder order →
        G.num_vertices ≤ fuel →
        ∃ P, BFS_directed_with_edge_map G src order fuel = some P ∧
          ∀ j, j < G.num_vertices →
            (depth_pass_skips P j = some true ↔ slot P j = -1) ∧
            (depth_pass_skips P j = some false ↔ Reachable G src j) := by
  constructor
  · have hset : slot (Parents.set d (toInt32 s)) d = toInt32 s := slot_set_self hd _
    refine ⟨Parents.set d (toInt32 s), ?_, ?_, ?_, ?_, ?_⟩
    · rw [BFS_F_update_eq s hd, if_pos hslot]
    · rw [BFS_F_updateAtomic_eq s hd, if_pos hslot]
    · rw [hset]
      exact toUInt32_toInt32 hs
    · intro h
      rw [hset]
      exact toInt32_nonneg h
    · intro h
      rw [hset]
      exact toInt32_neg h hs
  · intro G src order fuel hwf hn hsrc hord hfuel
    obtain ⟨P, L, h1, inv, _⟩ := BFS_run_spec hwf hsrc hord hfuel
    have hmod : src % UINT32_SIZE = src := Nat.mod_eq_of_lt (by have := hwf.1; omega)
    have hrun := h1
    unfold BFS_run Graph.get_num_vertices at hrun
    simp only [hmod, List.length_replicate] at hrun
    rw [if_pos hsrc] at hrun
    have hinit : SlotsNonneg ((List.replicate G.num_vertices (-1 : Int)).set src (toInt32 src)) := by
      intro x
      by_cases hx : x = src
      · right
        rw [hx, slot_set_self (by rw [List.length_replicate]; exact hsrc)]
        exact toInt32_nonneg (by omega)
      · left
        rw [slot_set_ne (Ne.symm hx), slot_replicate]
    have hnn := BFS_loop_slotsNonneg hwf hn hsrc hord fuel _ [src] 0 P L
      (bfsInv_init G hwf src hsrc) hinit hrun
    refine ⟨P, BFS_directed_with_edge_map_eq h1, ?_⟩
    intro j hj
    have hjl : j < P.length := by rw [inv.len]; exact hj
    rw [depth_pass_skips_eq hjl, ← final_visited_iff inv j]
    constructor
    · constructor
      · intro h
        have h' : slot P j < 0 := by simpa using h
        rcases hnn j with h2 | h2
        · exact h2
        · omega
      · intro h
        rw [h]
        rfl
    · constructor
      · intro h
        have h' : ¬ slot P j < 0 := by simpa using h
        intro h2
        rw [h2] at h'
        exact h' (by decide)
      · intro h
        rcases hnn j with h2 | h2
        · exact absurd h2 h
        · have : ¬ slot P j < 0 := by omega
          simp [this]

/-- Witness for C16, amended: slot `3` of the diamond claimed by vertex `2`, and
the depth test on the array returned for the diamond. -/
theorem BFS_F_slot_sign_witness :
    BFS_F_update [0, 0, 0, -1] 2 3 = some ([0, 0, 0, 2], true) ∧
      (∃ P, BFS_directed_with_edge_map diamond 1 listedOrder 4 = some P ∧
        ∀ j, j < diamond.num_vertices →
          (depth_pass_skips P j = some true ↔ slot P j = -1) ∧
          (depth_pass_skips P j = some false ↔ Reachable diamond 1 j)) :=
  ⟨by decide,
    (BFS_F_slot_sign [0, 0, 0, -1] 2 3 (by decide) (by decide) (by decide)).2 diamond 1
      listedOrder 4 (by unfold Graph.WellFormed; decide) (by decide) (by decide)
      listedOrder_valid (by decide)⟩

/-! ## Number and sizes of the batches -/

/-- C17 as stated fails: the option `-bs -2` becomes the `size_t` batch size
`2^64 - 2`, which is at least 1; on three edges `num_edges + batch_size - 1` is
`2^64` and wraps around to `0`, so `run_algorithm` builds `0` batches, not
`⌈3 / (2^64 - 2)⌉ = 1`. -/
theorem run_algorithm_batch_count_wraps :
    to_size_t (-2) = 18446744073709551614 ∧ 1 ≤ to_size_t (-2) ∧
    batch_count (3 % UINT64_SIZE) (to_size_t (-2)) = 0 ∧
    (3 + to_size_t (-2) - 1) / to_size_t (-2) = 1 ∧
    run_algorithm_batches [(0, 1), (1, 2), (2, 0)] (-2) = some [] ∧
    ¬ ∀ (edges : List (Nat × Nat)) (bs : Int), 1 ≤ to_size_t bs →
        ∃ batch_data, run_algorithm_batches edges bs = some batch_data ∧
          batch_data.length = (edges.length + to_size_t bs - 1) / to_size_t bs := by
  have h : run_algorithm_batches [(0, 1), (1, 2), (2, 0)] (-2) = some [] := by decide
  refine ⟨by decide, by decide, by decide, by decide, h, fun hall => ?_⟩
  obtain ⟨data, h1, h2⟩ := hall [(0, 1), (1, 2), (2, 0)] (-2) (by decide)
  rw [h] at h1
  cases h1
  exact absurd h2 (by decide)

/-- C17, amended: for every edge sequence and every batch size (the `size_t` value
of the option `-bs`) that is at least 1 and for which `num_edges + batch_size` does
not exceed `2^64`, `run_algorithm` builds exactly `⌈num_edges / batch_size⌉`
batches; every batch holds at least 1 and at most `batch_size` edges; every batch
but the last holds exactly `batch_size` edges; and at every batch index `i` the
subtraction `num_edges - i*batch_size` is evaluated at, `i*batch_size` does not
exceed `num_edges`. -/
theorem run_algorithm_batch_sizes (edges : List (Nat × Nat)) (bs : Int)
    (hB : 1 ≤ to_size_t bs) (hsum : edges.length + to_size_t bs ≤ UINT64_SIZE) :
    ∃ batch_data, run_algorithm_batches edges bs = some batch_data ∧
      batch_data.length = batch_count (edges.length % UINT64_SIZE) (to_size_t bs) ∧
      batch_data.length = (edges.length + to_size_t bs - 1) / to_size_t bs ∧
      edges.length ≤ batch_data.length * to_size_t bs ∧
      batch_data.length * to_size_t bs < edges.length + to_size_t bs ∧
      (∀ batch ∈ batch_data, 1 ≤ batch.length ∧ batch.length ≤ to_size_t bs) ∧
      (∀ i (h : i + 1 < batch_data.length),
        (batch_data.get ⟨i, Nat.lt_of_succ_lt h⟩).length = to_size_t bs) ∧
      ∀ i, i < batch_count (edges.length % UINT64_SIZE) (to_size_t bs) →
        (i * to_size_t bs) % UINT64_SIZE ≤ edges.length % UINT64_SIZE ∧
          1 ≤ batch_sz (edges.length % UINT64_SIZE) (to_size_t bs) i := by
  have hpos : 0 < to_size_t bs := hB
  obtain ⟨data, d1, d2, d3, _, d5⟩ := run_algorithm_spec edges bs hB hsum
  have hN : edges.length < UINT64_SIZE := by omega
  have hdm := Nat.div_add_mod (edges.length + to_size_t bs - 1) (to_size_t bs)
  have hml := Nat.mod_lt (edges.length + to_size_t bs - 1) hpos
  have hcomm : to_size_t bs * ((edges.length + to_size_t bs - 1) / to_size_t bs)
      = (edges.length + to_size_t bs - 1) / to_size_t bs * to_size_t bs := Nat.mul_comm _ _
  have hlast : ∀ i, i < data.length → i * to_size_t bs < edges.length ∧
      (i + 1 < data.length → i * to_size_t bs + to_size_t bs < edges.length) := by
    intro i hi
    refine ⟨(d5 i hi).1, fun hi' => ?_⟩
    have := (d5 (i + 1) hi').1
    rw [Nat.succ_mul] at this
    exact this
  have hlen : ∀ i (h : i < data.length),
      (data.get ⟨i, h⟩).length = min (to_size_t bs) (edges.length - i * to_size_t bs) := by
    intro i hi
    rw [(d5 i hi).2, List.length_take, List.length_drop]
    have := (hlast i hi).1
    omega
  refine ⟨data, d1, d3.symm, d2, ?_, ?_, ?_, ?_, ?_⟩
  · rw [d2]
    omega
  · rw [d2]
    omega
  · intro batch hb
    obtain ⟨⟨i, hi⟩, rfl⟩ := List.mem_iff_get.mp hb
    rw [hlen i hi]
    have := (hlast i hi).1
    omega
  · intro i hi
    rw [hlen i (Nat.lt_of_succ_lt hi)]
    have := (hlast i (Nat.lt_of_succ_lt hi)).2 hi
    omega
  · intro i hi
    rw [d3] at hi
    have hiN := (hlast i hi).1
    rw [Nat.mod_eq_of_lt hN, Nat.mod_eq_of_lt (by omega),
      batch_sz_eq _ _ _ hN (Nat.le_of_lt hiN)]
    omega

/-- Witness for C17, amended: five edges in batches of two give batches of sizes
2, 2, 1. -/
theorem run_algorithm_batch_sizes_witness :
    run_algorithm_batches [(0, 1), (1, 2), (2, 3), (3, 4), (4, 0)] 2
      = some [[(0, 1), (1, 2)], [(2, 3), (3, 4)], [(4, 0)]] ∧
    ∃ batch_data, run_algorithm_batches [(0, 1), (1, 2), (2, 3), (3, 4), (4, 0)] 2
        = some batch_data ∧
      batch_data.length = batch_count (5 % UINT64_SIZE) (to_size_t 2) ∧
      batch_data.length = (5 + to_size_t 2 - 1) / to_size_t 2 ∧
      5 ≤ batch_data.length * to_size_t 2 ∧
      batch_data.length * to_size_t 2 < 5 + to_size_t 2 ∧
      (∀ batch ∈ batch_data, 1 ≤ batch.length ∧ batch.length ≤ to_size_t 2) ∧
      (∀ i (h : i + 1 < batch_data.length),
        (batch_data.get ⟨i, Nat.lt_of_succ_lt h⟩).length = to_size_t 2) ∧
      ∀ i, i < batch_count (5 % UINT64_SIZE) (to_size_t 2) →
        (i * to_size_t 2) % UINT64_SIZE ≤ 5 % UINT64_SIZE ∧
          1 ≤ batch_sz (5 % UINT64_SIZE) (to_size_t 2) i :=
  ⟨by decide, run_algorithm_batch_sizes [(0, 1), (1, 2), (2, 3), (3, 4), (4, 0)] 2
    (by decide) (by decide)⟩

/-! ## The shards of `TC` under any assignment of workers -/

theorem countCommon_loop_terminates (nei_a nei_b : List Nat)
    (size_a size_b a b oob_a oob_b : Nat) :
    ∀ fuel i j a_v b_v ans, (size_a - i) + (size_b - j) ≤ fuel →
      ∃ c, countCommon_loop nei_a nei_b size_a size_b a b oob_a oob_b fuel i j a_v b_v ans
        = some c := by
  intro fuel
  induction fuel with
  | zero =>
    intro i j a_v b_v ans hf
    unfold countCommon_loop
    have hcond : ¬ (i < size_a ∧ j < size_b ∧ a_v < a ∧ b_v < b) := by omega
    rw [if_neg hcond]
    exact ⟨ans, rfl⟩
  | succ fuel ih =>
    intro i j a_v b_v ans hf
    unfold countCommon_loop
    by_cases hcond : i < size_a ∧ j < size_b ∧ a_v < a ∧ b_v < b
    · rw [if_pos hcond]
      simp only []
      by_cases heq : a_v = b_v
      · rw [if_pos heq]
        exact ih _ _ _ _ _ (by omega)
      · rw [if_neg heq]
        by_cases hlt : a_v < b_v
        · rw [if_pos hlt]
          exact ih _ _ _ _ _ (by omega)
        · rw [if_neg hlt]
          exact ih _ _ _ _ _ (by omega)
    · rw [if_neg hcond]
      exact ⟨ans, rfl⟩

/-- The function `countCommon` returns on every input, sorted or not. -/
theorem countCommon_terminates (oob : Nat → Nat) (mp : List (List Nat)) (a b : Nat) :
    ∃ c, countCommon oob mp a b = some c := by
  unfold countCommon
  simp only []
  split
  · exact ⟨0, rfl⟩
  · exact countCommon_loop_terminates _ _ _ _ a b (oob a) (oob b) _ 0 0 _ _ 0 (by omega)

theorem countF_body_total (oob : Nat → Nat) (mp : List (List Nat)) (W : Nat)
    (cc : Nat → Nat → Nat) (hcc : ∀ s d, countCommon oob mp s d = some (cc s d))
    (counts : List Nat) (w s d : Nat) (hlen : counts.length = W * 8) (hw : w < W) :
    ∃ counts', countF_body oob mp counts w s d = some (counts', true) ∧
      counts'.length = W * 8 ∧
      shardTotal counts' W % UINT64_SIZE
        = (shardTotal counts W + if s > d then cc s d else 0) % UINT64_SIZE := by
  unfold countF_body
  by_cases hsd : s > d
  · have hlt : 8 * w < counts.length := by omega
    rw [if_pos hsd, hcc s d]
    simp only []
    rw [dif_pos hlt, if_pos hsd]
    refine ⟨_, rfl, ?_, shardTotal_add_modEq counts w _ W hlt hw⟩
    rw [List.length_set, hlen]
  · rw [if_neg hsd, if_neg hsd]
    exact ⟨counts, rfl, hlen, rfl⟩

theorem edgeMap_countF_total (oob : Nat → Nat) (mp : List (List Nat)) (W : Nat)
    (cc : Nat → Nat → Nat) (hcc : ∀ s d, countCommon oob mp s d = some (cc s d)) :
    ∀ (sched : List Visit) (counts : List Nat), counts.length = W * 8 →
      (∀ v ∈ sched, v.worker < W) →
      ∃ counts', edgeMap_countF oob mp sched counts = some counts' ∧
        counts'.length = W * 8 ∧
        shardTotal counts' W % UINT64_SIZE
          = (shardTotal counts W
              + (sched.map fun v => if v.s > v.d then cc v.s v.d else 0).sum) % UINT64_SIZE
  | [], counts, hlen, _ => ⟨counts, rfl, hlen, by simp⟩
  | v :: rest, counts, hlen, hw => by
    obtain ⟨c1, h1, hl1, ht1⟩ := countF_body_total oob mp W cc hcc counts v.worker v.s v.d hlen
      (hw v (List.mem_cons_self _ _))
    obtain ⟨c2, h2, hl2, ht2⟩ := edgeMap_countF_total oob mp W cc hcc rest c1 hl1
      (fun x hx => hw x (List.mem_cons_of_mem _ hx))
    refine ⟨c2, ?_, hl2, ?_⟩
    · unfold edgeMap_countF countF_cond countF_update countF_updateAtomic
      simp only [if_true, ite_self, h1]
      exact h2
    · rw [ht2, List.map_cons, List.sum_cons, Nat.add_mod, ht1, ← Nat.add_mod]
      congr 1
      omega

theorem sum_map_ite_eq_filter (f : Nat × Nat → Nat) :
    ∀ l : List (Nat × Nat),
      (l.map fun e => if e.1 > e.2 then f e else 0).sum
        = ((l.filter fun e => decide (e.1 > e.2)).map f).sum
  | [] => rfl
  | e :: l => by
    rw [List.map_cons, List.sum_cons, sum_map_ite_eq_filter f l, List.filter_cons]
    by_cases h : e.1 > e.2
    · rw [if_pos h, if_pos (decide_eq_true h), List.map_cons, List.sum_cons]
    · rw [if_neg h, if_neg (by simpa using h), Nat.zero_add]

/-- The value of `TC`, sorted lists or not: the sum, modulo `2^64`, of what
`countCommon` returns on the edges `(s, d)` with `s > d`. -/
theorem TC_eq_countCommon_sum (oob : Nat → Nat) (G : Graph) (mp : List (List Nat)) (W : Nat)
    (sched : List Visit) (cc : Nat → Nat → Nat)
    (hcc : ∀ s d, countCommon oob mp s d = some (cc s d)) (hsched : ValidSchedule G W sched) :
    TC oob G mp W sched
      = some (((G.edges.filter fun e => decide (e.1 > e.2)).map fun e => cc e.1 e.2).sum
          % UINT64_SIZE) := by
  obtain ⟨c, h1, hl, ht⟩ :=
    edgeMap_countF_total oob mp W cc hcc sched (List.replicate (W * 8) 0) (by simp) hsched.2
  unfold TC
  rw [h1]
  simp only []
  rw [sumShards_eq c W (by omega), ht, shardTotal_replicate, Nat.zero_add]
  congr 2
  have h : (sched.map fun v => if v.s > v.d then cc v.s v.d else 0)
      = (sched.map fun v => (v.s, v.d)).map
          (fun e : Nat × Nat => if e.1 > e.2 then cc e.1 e.2 else 0) := by
    rw [List.map_map]
    rfl
  rw [h, (hsched.1.map _).sum_eq]
  exact sum_map_ite_eq_filter (fun e => cc e.1 e.2) G.edges

/-- C18: for every traversal that visits every edge once, whatever worker of the
pool handles which edge, every shard index `8*worker` written by `countF` lies
inside the vector `counts` of length `8*getWorkers()`, and the total `TC` returns is
the sum of `countCommon(s, d)` over the edges with `s > d` (as a 64-bit value, and
exactly when the sum fits 64 bits); it is the same for any other such traversal. -/
theorem TC_shard_total (oob : Nat → Nat) (G : Graph) (mp : List (List Nat)) (workers : Nat)
    (sched : List Visit) (hsched : ValidSchedule G workers sched) :
    (∀ v ∈ sched, 8 * v.worker < (List.replicate (workers * 8) (0 : Nat)).length) ∧
      ∃ cc : Nat → Nat → Nat, (∀ s d, countCommon oob mp s d = some (cc s d)) ∧
        TC oob G mp workers sched
          = some (((G.edges.filter fun e => decide (e.1 > e.2)).map fun e => cc e.1 e.2).sum
              % UINT64_SIZE) ∧
        (((G.edges.filter fun e => decide (e.1 > e.2)).map fun e => cc e.1 e.2).sum
            < UINT64_SIZE →
          TC oob G mp workers sched
            = some ((G.edges.filter fun e => decide (e.1 > e.2)).map fun e => cc e.1 e.2).sum) ∧
        ∀ (workers' : Nat) (sched' : List Visit), ValidSchedule G workers' sched' →
          TC oob G mp workers' sched' = TC oob G mp workers sched := by
  constructor
  · intro v hv
    have := hsched.2 v hv
    rw [List.length_replicate]
    omega
  · have hcc : ∀ s d, countCommon oob mp s d = some ((countCommon oob mp s d).getD 0) := by
      intro s d
      obtain ⟨c, hc⟩ := countCommon_terminates oob mp s d
      rw [hc]
      rfl
    have hTC := TC_eq_countCommon_sum oob G mp workers sched
      (fun s d => (countCommon oob mp s d).getD 0) hcc hsched
    refine ⟨fun s d => (countCommon oob mp s d).getD 0, hcc, hTC, ?_, ?_⟩
    · intro hfit
      rw [hTC, Nat.mod_eq_of_lt hfit]
    · intro workers' sched' hsched'
      rw [hTC, TC_eq_countCommon_sum oob G mp workers' sched'
        (fun s d => (countCommon oob mp s d).getD 0) hcc hsched']

/-- Witness for C18: the 5-cycle with a chord traversed on two workers in reverse
order and on one worker in listed order. -/
theorem TC_shard_total_witness :
    TC (fun _ => 0) (Graph.ofLists cycleChord5) cycleChord5 2
        (reverseSchedule (Graph.ofLists cycleChord5)) = some 1 ∧
      (∀ v ∈ reverseSchedule (Graph.ofLists cycleChord5),
        8 * v.worker < (List.replicate (2 * 8) (0 : Nat)).length) ∧
      TC (fun _ => 0) (Graph.ofLists cycleChord5) cycleChord5 1
          (sequentialSchedule (Graph.ofLists cycleChord5))
        = TC (fun _ => 0) (Graph.ofLists cycleChord5) cycleChord5 2
          (reverseSchedule (Graph.ofLists cycleChord5)) := by
  have h := TC_shard_total (fun _ => 0) (Graph.ofLists cycleChord5) cycleChord5 2
    (reverseSchedule (Graph.ofLists cycleChord5)) (reverseSchedule_valid _)
  obtain ⟨h1, _, _, _, _, h5⟩ := h
  exact ⟨by decide, h1, h5 1 _ (sequentialSchedule_valid _)⟩

/-! ## Races on a destination within a round -/

/-- The racing round returns; its array and next frontier are those of the round
that evaluates `cond` right before every call; the next frontier lists the
destinations of the calls that returned `true`; and the winner of a slot is what
the slot holds at the end. -/
theorem edgeMapSparse_BFS_race_spec (P₀ : List Int) :
    ∀ (rs : List (Nat × Nat × Bool)) (P : List Int) (next : List Nat)
      (calls : List (Nat × Nat × Bool)), P₀.length = P.length →
      (∀ x, slot P₀ x ≠ -1 → slot P x ≠ -1) →
      (∀ e ∈ rs, e.2.1 < P.length ∧ e.1 + 1 < UINT32_SIZE) →
      ∃ P' new cs, edgeMapSparse_BFS_race P₀ rs P next calls
          = some (P', next ++ new, calls ++ cs) ∧
        edgeMapSparse_BFS (rs.map fun e => (e.1, e.2.1)) P next = some (P', next ++ new) ∧
        new = (cs.filter fun c => c.2.2).map (fun c => c.2.1) ∧
        (∀ c ∈ cs, c.2.2 = true → slot P' c.2.1 = toInt32 c.1) ∧
        (∀ c ∈ cs, ∃ early, (c.1, c.2.1, early) ∈ rs)
  | [], P, next, calls, _, _, _ =>
    ⟨P, [], [], by simp [edgeMapSparse_BFS_race], by simp [edgeMapSparse_BFS], rfl,
      fun _ h => absurd h (List.not_mem_nil _), fun _ h => absurd h (List.not_mem_nil _)⟩
  | (s, d, early) :: rs, P, next, calls, hlen, hext, hpre => by
    obtain ⟨hlt, hs⟩ := hpre (s, d, early) (List.mem_cons_self _ _)
    have hlt : d < P.length := hlt
    have hs : s + 1 < UINT32_SIZE := hs
    have hlt₀ : d < P₀.length := by rw [hlen]; exact hlt
    have hrest : ∀ e ∈ rs, e.2.1 < P.length ∧ e.1 + 1 < UINT32_SIZE :=
      fun e he => hpre e (List.mem_cons_of_mem _ he)
    unfold edgeMapSparse_BFS_race
    rw [List.map_cons]
    unfold edgeMapSparse_BFS
    have hcondP : BFS_F_cond P d = some (decide (slot P d = -1)) := BFS_F_cond_eq hlt
    have hcond : BFS_F_cond (if early then P₀ else P) d
        = some (decide (slot (if early then P₀ else P) d = -1)) := by
      cases early
      · exact BFS_F_cond_eq hlt
      · exact BFS_F_cond_eq hlt₀
    rw [hcond, hcondP]
    by_cases hd : slot P d = -1
    · have hd' : slot (if early then P₀ else P) d = -1 := by
        cases early
        · exact hd
        · by_contra hne
          exact hext d hne hd
      rw [decide_eq_true hd', decide_eq_true hd]
      simp only []
      rw [BFS_F_updateAtomic_eq s hlt, if_pos hd]
      simp only []
      have hne : toInt32 s ≠ -1 := toInt32_ne_neg_one hs
      have hset : slot (P.set d (toInt32 s)) d = toInt32 s := slot_set_self hlt _
      have hrest' : ∀ e ∈ rs, e.2.1 < (P.set d (toInt32 s)).length ∧ e.1 + 1 < UINT32_SIZE := by
        intro e he
        rw [List.length_set]
        exact hrest e he
      obtain ⟨P', new, cs, h1, h2, h3, h4, h5⟩ := edgeMapSparse_BFS_race_spec P₀ rs
        (P.set d (toInt32 s)) (next ++ [d]) (calls ++ [(s, d, true)])
        (by rw [List.length_set]; exact hlen)
        (fun x hx => by
          by_cases hxd : x = d
          · rw [hxd, hset]
            exact hne
          · rw [slot_set_ne (Ne.symm hxd)]
            exact hext x hx)
        hrest'
      obtain ⟨P'', new'', h6, h7⟩ := edgeMapSparse_BFS_spec (rs.map fun e => (e.1, e.2.1))
        (P.set d (toInt32 s)) (next ++ [d]) (fun e he => by
          obtain ⟨e', he', rfl⟩ := List.mem_map.mp he
          exact hrest' e' he')
      have hP : P'' = P' := by
        rw [h2] at h6
        injection h6 with h6
        injection h6 with h6 _
        exact h6.symm
      have hkeep : slot P' d = toInt32 s := by
        rw [← hP, h7.keep d (by rw [hset]; exact hne), hset]
      refine ⟨P', d :: new, (s, d, true) :: cs, ?_, ?_, ?_, ?_, ?_⟩
      · rw [h1]
        simp [List.append_assoc]
      · rw [h2]
        simp [List.append_assoc]
      · rw [h3]
        simp
      · intro c hc hr
        rcases List.mem_cons.mp hc with heq | hmem
        · rw [heq]
          exact hkeep
        · exact h4 c hmem hr
      · intro c hc
        rcases List.mem_cons.mp hc with heq | hmem
        · rw [heq]
          exact ⟨early, List.mem_cons_self _ _⟩
        · obtain ⟨fl, hfl⟩ := h5 c hmem
          exact ⟨fl, List.mem_cons_of_mem _ hfl⟩
    · rw [decide_eq_false hd]
      simp only []
      by_cases hd' : slot (if early then P₀ else P) d = -1
      · rw [decide_eq_true hd']
        simp only []
        rw [BFS_F_updateAtomic_eq s hlt, if_neg hd]
        simp only []
        obtain ⟨P', new, cs, h1, h2, h3, h4, h5⟩ := edgeMapSparse_BFS_race_spec P₀ rs P next
          (calls ++ [(s, d, false)]) hlen hext hrest
        refine ⟨P', new, (s, d, false) :: cs, ?_, h2, ?_, ?_, ?_⟩
        · rw [h1]
          simp [List.append_assoc]
        · rw [h3]
          simp
        · intro c hc hr
          rcases List.mem_cons.mp hc with heq | hmem
          · rw [heq] at hr
            exact Bool.noConfusion hr
          · exact h4 c hmem hr
        · intro c hc
          rcases List.mem_cons.mp hc with heq | hmem
          · rw [heq]
            exact ⟨early, List.mem_cons_self _ _⟩
          · obtain ⟨fl, hfl⟩ := h5 c hmem
            exact ⟨fl, List.mem_cons_of_mem _ hfl⟩
      · rw [decide_eq_false hd']
        simp only []
        obtain ⟨P', new, cs, h1, h2, h3, h4, h5⟩ := edgeMapSparse_BFS_race_spec P₀ rs P next
          calls hlen hext hrest
        refine ⟨P', new, cs, h1, h2, h3, h4, ?_⟩
        intro c hc
        obtain ⟨fl, hfl⟩ := h5 c hc
        exact ⟨fl, List.mem_cons_of_mem _ hfl⟩

theorem filter_length_eq_count (d : Nat) :
    ∀ cs : List (Nat × Nat × Bool),
      (cs.filter fun c => decide (c.2.1 = d) && c.2.2).length
        = ((cs.filter fun c => c.2.2).map fun c => c.2.1).count d
  | [] => rfl
  | c :: cs => by
    have ih := filter_length_eq_count d cs
    rw [List.filter_cons, List.filter_cons]
    cases hr : c.2.2
    · simp only [Bool.and_false, Bool.false_eq_true, if_false]
      exact ih
    · by_cases hcd : c.2.1 = d
      · simp only [hcd, decide_True, Bool.and_true, if_true, List.length_cons, List.map_cons,
          List.count_cons_self, ih]
      · have hcd' : (c.2.1 == d) = false := by simpa using hcd
        simp only [hcd, decide_False, Bool.false_and, Bool.false_eq_true, if_false, if_true,
          List.map_cons, List.count_cons, hcd', ih, Nat.add_zero]

/-- C14: in a round started from an array with one slot per vertex and a frontier
of vertices, for an unvisited vertex `d` with two active in-neighbours `s₁ ≠ s₂`,
in whatever order the edges leaving the frontier are handled and whenever each
`cond` was evaluated, exactly one call `updateAtomic(·, d)` returns `true` (so `s₁`
and `s₂` do not both win), `d` occurs exactly once in the next frontier, the
cardinality of the next frontier is its number of distinct members, and the slot
of `d` holds the winner, an active in-neighbour of `d`. -/
theorem BFS_round_single_winner (G : Graph) (Parents : List Int) (frontier : List Nat)
    (rs : List (Nat × Nat × Bool)) (d s₁ s₂ : Nat) (hwf : G.WellFormed)
    (hlen : Parents.length = G.num_vertices) (hfr : ∀ s ∈ frontier, s < G.num_vertices)
    (hrs : (rs.map fun e => (e.1, e.2.1)).Perm (frontierEdges G frontier))
    (hd : slot Parents d = -1) (h₁ : s₁ ∈ frontier ∧ d ∈ G.neighbors s₁)
    (_h₂ : s₂ ∈ frontier ∧ d ∈ G.neighbors s₂) (hne : s₁ ≠ s₂) :
    ∃ Parents' next calls,
      edgeMapSparse_BFS_race Parents rs Parents [] [] = some (Parents', next, calls) ∧
      edgeMapSparse_BFS (rs.map fun e => (e.1, e.2.1)) Parents [] = some (Parents', next) ∧
      (calls.filter fun c => decide (c.2.1 = d) && c.2.2).length = 1 ∧
      ¬ ((s₁, d, true) ∈ calls ∧ (s₂, d, true) ∈ calls) ∧
      next.count d = 1 ∧ next.length = next.toFinset.card ∧
      ∃ s, (s, d, true) ∈ calls ∧ s ∈ frontier ∧ d ∈ G.neighbors s ∧
        slot Parents' d = toInt32 s ∧ toUInt32 (slot Parents' d) = s := by
  have hn := hwf.1
  have hmem : ∀ s x, (s, x) ∈ (rs.map fun e => (e.1, e.2.1)) ↔
      s ∈ frontier ∧ x ∈ G.neighbors s := by
    intro s x
    rw [hrs.mem_iff, mem_frontierEdges]
  have hedge : ∀ e ∈ rs, e.1 ∈ frontier ∧ e.2.1 ∈ G.neighbors e.1 := by
    intro e he
    exact (hmem e.1 e.2.1).mp (List.mem_map.mpr ⟨e, he, rfl⟩)
  have hpre : ∀ e ∈ rs, e.2.1 < Parents.length ∧ e.1 + 1 < UINT32_SIZE := by
    intro e he
    obtain ⟨hsF, hnb⟩ := hedge e he
    have hs := hfr e.1 hsF
    exact ⟨by rw [hlen]; exact hwf.2 e.1 hs e.2.1 hnb, by omega⟩
  obtain ⟨P', new, cs, h1, h2, h3, h4, h5⟩ := edgeMapSparse_BFS_race_spec Parents rs Parents
    [] [] rfl (fun _ h => h) hpre
  obtain ⟨P'', new'', h6, hr⟩ := edgeMapSparse_BFS_spec (rs.map fun e => (e.1, e.2.1))
    Parents [] (fun e he => by
      obtain ⟨e', he', rfl⟩ := List.mem_map.mp he
      exact hpre e' he')
  rw [h2] at h6
  injection h6 with h6
  injection h6 with hP hnew
  rw [List.nil_append, List.nil_append] at hnew
  subst hP
  subst hnew
  rw [List.nil_append] at h1 h2
  have hdnew : d ∈ new := (hr.mem_new d).mpr ⟨hd, s₁, (hmem s₁ d).mpr h₁⟩
  have hcount : new.count d = 1 := List.count_eq_one_of_mem hr.nodup hdnew
  have hone : (cs.filter fun c => decide (c.2.1 = d) && c.2.2).length = 1 := by
    rw [filter_length_eq_count d cs, ← h3]
    exact hcount
  refine ⟨P', new, cs, h1, h2, hone, ?_, hcount,
    (List.toFinset_card_of_nodup hr.nodup).symm, ?_⟩
  · rintro ⟨hw₁, hw₂⟩
    obtain ⟨c, hc⟩ := List.length_eq_one.mp hone
    have m₁ : (s₁, d, true) ∈ cs.filter fun c => decide (c.2.1 = d) && c.2.2 :=
      List.mem_filter.mpr ⟨hw₁, by simp⟩
    have m₂ : (s₂, d, true) ∈ cs.filter fun c => decide (c.2.1 = d) && c.2.2 :=
      List.mem_filter.mpr ⟨hw₂, by simp⟩
    rw [hc] at m₁ m₂
    have e₁ := List.mem_singleton.mp m₁
    have e₂ := List.mem_singleton.mp m₂
    have : (s₁, d, true) = (s₂, d, true) := e₁.trans e₂.symm
    injection this with h _
    exact hne h
  · rw [h3] at hdnew
    obtain ⟨c, hc, hcd⟩ := List.mem_map.mp hdnew
    obtain ⟨hcs, hct⟩ := List.mem_filter.mp hc
    obtain ⟨s, d', r⟩ := c
    simp only [] at hcd hct
    subst hcd
    subst hct
    obtain ⟨early, he⟩ := h5 _ hcs
    obtain ⟨hsF, hnb⟩ := hedge _ he
    have hval := h4 _ hcs rfl
    refine ⟨s, hcs, hsF, hnb, hval, ?_⟩
    simp only [] at hval ⊢
    rw [hval]
    exact toUInt32_toInt32 (by have := hfr s hsF; omega)

/-- Witness for C14: the second round of the search of the diamond; both frontier
vertices pass `cond(3)` before any update and race for vertex `3`. -/
theorem BFS_round_single_winner_witness :
    edgeMapSparse_BFS_race [0, 0, 0, -1] [(2, 3, true), (1, 3, true)] [0, 0, 0, -1] [] []
      = some ([0, 0, 0, 2], [3], [(2, 3, true), (1, 3, false)]) ∧
    ∃ Parents' next calls,
      edgeMapSparse_BFS_race [0, 0, 0, -1] [(2, 3, true), (1, 3, true)] [0, 0, 0, -1] [] []
        = some (Parents', next, calls) ∧
      edgeMapSparse_BFS ([(2, 3, true), (1, 3, true)].map fun e => (e.1, e.2.1)) [0, 0, 0, -1] []
        = some (Parents', next) ∧
      (calls.filter fun c => decide (c.2.1 = 3) && c.2.2).length = 1 ∧
      ¬ ((1, 3, true) ∈ calls ∧ (2, 3, true) ∈ calls) ∧
      next.count 3 = 1 ∧ next.length = next.toFinset.card ∧
      ∃ s, (s, 3, true) ∈ calls ∧ s ∈ [1, 2] ∧ 3 ∈ diamond.neighbors s ∧
        slot Parents' 3 = toInt32 s ∧ toUInt32 (slot Parents' 3) = s :=
  ⟨by decide,
    BFS_round_single_winner diamond [0, 0, 0, -1] [1, 2] [(2, 3, true), (1, 3, true)] 3 1 2
      (by unfold Graph.WellFormed; decide) (by decide) (by decide) (by decide) (by decide)
      (by decide) (by decide) (by decide)⟩

/-! ## The element reads of `countCommon` -/

theorem countCommon_loop_traced_fst (nei_a nei_b : List Nat)
    (size_a size_b a b oob_a oob_b : Nat) :
    ∀ fuel i j a_v b_v ans reads,
      (countCommon_loop_traced nei_a nei_b size_a size_b a b oob_a oob_b fuel i j a_v b_v ans
        reads).map Prod.fst
      = countCommon_loop nei_a nei_b size_a size_b a b oob_a oob_b fuel i j a_v b_v ans := by
  intro fuel
  induction fuel with
  | zero =>
    intro i j a_v b_v ans reads
    unfold countCommon_loop_traced countCommon_loop
    split <;> rfl
  | succ fuel ih =>
    intro i j a_v b_v ans reads
    unfold countCommon_loop_traced countCommon_loop
    split
    · simp only []
      split
      · exact ih _ _ _ _ _ _
      · split
        · exact ih _ _ _ _ _ _
        · exact ih _ _ _ _ _ _
    · rfl

/-- The traced function returns what `countCommon` returns. -/
theorem countCommon_traced_fst (oob : Nat → Nat) (mp : List (List Nat)) (a b : Nat) :
    (countCommon_traced oob mp a b).map Prod.fst = countCommon oob mp a b := by
  unfold countCommon_traced countCommon
  simp only []
  split
  · rfl
  · exact countCommon_loop_traced_fst _ _ _ _ _ _ _ _ _ _ _ _ _ _ _

theorem strictAsc_index_lt {l : List Nat} (h : StrictAsc l) {i : Nat} (hi : i < l.length)
    {x : Nat} (hx : x ∈ l) (hlt : l.getD i 0 < x) : i + 1 < l.length := by
  obtain ⟨k, hk, hkx⟩ := List.getElem_of_mem hx
  rw [List.getD_eq_getElem l 0 hi] at hlt
  have hik : i < k := by
    by_contra hnot
    rcases Nat.lt_or_eq_of_le (Nat.le_of_not_lt hnot) with hki | hki
    · have := (List.pairwise_iff_getElem.mp h) k i hk hi hki
      omega
    · subst hki
      omega
  omega

/-- With the two sentinels `b ∈ nei_a` and `a ∈ nei_b`, `b < a`, every read of the
loop of `countCommon` addresses an element of its vector. -/
theorem countCommon_loop_traced_inBounds (nei_a nei_b : List Nat) (a b oob_a oob_b : Nat)
    (ha : StrictAsc nei_a) (hb : StrictAsc nei_b) (hba : b < a) (hsa : b ∈ nei_a)
    (hsb : a ∈ nei_b) (good : Bool × Nat → Prop)
    (hga : ∀ i, i < nei_a.length → good (false, i))
    (hgb : ∀ j, j < nei_b.length → good (true, j)) :
    ∀ fuel i j ans reads, i < nei_a.length → j < nei_b.length →
      (nei_a.length - i) + (nei_b.length - j) ≤ fuel → (∀ r ∈ reads, good r) →
      ∃ c reads', countCommon_loop_traced nei_a nei_b nei_a.length nei_b.length a b oob_a oob_b
          fuel i j (nei_a.getD i oob_a) (nei_b.getD j oob_b) ans reads = some (c, reads') ∧
        ∀ r ∈ reads', good r := by
  intro fuel
  induction fuel with
  | zero =>
    intro i j ans reads hi hj hf _
    omega
  | succ fuel ih =>
    intro i j ans reads hi hj hf hreads
    have hav : nei_a.getD i oob_a = nei_a.getD i 0 := by
      rw [List.getD_eq_getElem _ _ hi, List.getD_eq_getElem _ _ hi]
    have hbv : nei_b.getD j oob_b = nei_b.getD j 0 := by
      rw [List.getD_eq_getElem _ _ hj, List.getD_eq_getElem _ _ hj]
    unfold countCommon_loop_traced
    by_cases hcond : i < nei_a.length ∧ j < nei_b.length ∧
        nei_a.getD i oob_a < a ∧ nei_b.getD j oob_b < b
    · rw [if_pos hcond]
      obtain ⟨_, _, hva, hvb⟩ := hcond
      simp only []
      by_cases heq : nei_a.getD i oob_a = nei_b.getD j oob_b
      · rw [if_pos heq]
        have hi' : i + 1 < nei_a.length :=
          strictAsc_index_lt ha hi hsa (by rw [← hav, heq]; exact hvb)
        have hj' : j + 1 < nei_b.length :=
          strictAsc_index_lt hb hj hsb (by rw [← hbv]; omega)
        exact ih (i + 1) (j + 1) (ans + 1) _ hi' hj' (by omega) (by
          intro r hr
          rcases List.mem_append.mp hr with h | h
          · exact hreads r h
          · rcases List.mem_cons.mp h with h | h
            · rw [h]; exact hga _ hi'
            · rw [List.mem_singleton.mp h]; exact hgb _ hj')
      · rw [if_neg heq]
        by_cases hlt : nei_a.getD i oob_a < nei_b.getD j oob_b
        · rw [if_pos hlt]
          have hi' : i + 1 < nei_a.length :=
            strictAsc_index_lt ha hi hsa (by rw [← hav]; omega)
          exact ih (i + 1) j ans _ hi' hj (by omega) (by
            intro r hr
            rcases List.mem_append.mp hr with h | h
            · exact hreads r h
            · rw [List.mem_singleton.mp h]; exact hga _ hi')
        · rw [if_neg hlt]
          have hj' : j + 1 < nei_b.length :=
            strictAsc_index_lt hb hj hsb (by rw [← hbv]; omega)
          exact ih i (j + 1) ans _ hi hj' (by omega) (by
            intro r hr
            rcases List.mem_append.mp hr with h | h
            · exact hreads r h
            · rw [List.mem_singleton.mp h]; exact hgb _ hj')
    · rw [if_neg hcond]
      exact ⟨ans, reads, rfl, hreads⟩

/-- On every input the loop of `countCommon` returns, and every read it performs
satisfies `good` as soon as the reads at the indices up to the sizes do. -/
theorem countCommon_loop_traced_bound (nei_a nei_b : List Nat)
    (size_a size_b a b oob_a oob_b : Nat) (good : Bool × Nat → Prop)
    (hga : ∀ i, i ≤ size_a → good (false, i)) (hgb : ∀ j, j ≤ size_b → good (true, j)) :
    ∀ fuel i j a_v b_v ans reads, (size_a - i) + (size_b - j) ≤ fuel →
      (∀ r ∈ reads, good r) →
      ∃ c reads', countCommon_loop_traced nei_a nei_b size_a size_b a b oob_a oob_b
          fuel i j a_v b_v ans reads = some (c, reads') ∧
        ∀ r ∈ reads', good r := by
  intro fuel
  induction fuel with
  | zero =>
    intro i j a_v b_v ans reads hf hreads
    unfold countCommon_loop_traced
    have hcond : ¬ (i < size_a ∧ j < size_b ∧ a_v < a ∧ b_v < b) := by omega
    rw [if_neg hcond]
    exact ⟨ans, reads, rfl, hreads⟩
  | succ fuel ih =>
    intro i j a_v b_v ans reads hf hreads
    unfold countCommon_loop_traced
    by_cases hcond : i < size_a ∧ j < size_b ∧ a_v < a ∧ b_v < b
    · rw [if_pos hcond]
      obtain ⟨hi, hj, _, _⟩ := hcond
      simp only []
      by_cases heq : a_v = b_v
      · rw [if_pos heq]
        exact ih _ _ _ _ _ _ (by omega) (by
          intro r hr
          rcases List.mem_append.mp hr with h | h
          · exact hreads r h
          · rcases List.mem_cons.mp h with h | h
            · rw [h]; exact hga _ hi
            · rw [List.mem_singleton.mp h]; exact hgb _ hj)
      · rw [if_neg heq]
        by_cases hlt : a_v < b_v
        · rw [if_pos hlt]
          exact ih _ _ _ _ _ _ (by omega) (by
            intro r hr
            rcases List.mem_append.mp hr with h | h
            · exact hreads r h
            · rw [List.mem_singleton.mp h]; exact hga _ hi)
        · rw [if_neg hlt]
          exact ih _ _ _ _ _ _ (by omega) (by
            intro r hr
            rcases List.mem_append.mp hr with h | h
            · exact hreads r h
            · rw [List.mem_singleton.mp h]; exact hgb _ hj)
    · rw [if_neg hcond]
      exact ⟨ans, reads, rfl, hreads⟩

/-- C15, at the failing input: on the strictly ascending lists `mp[2] = [0, 1]` and
`mp[1] = [0]` (the directed edges `1 → 0`, `2 → 0`, `2 → 1`), `countCommon(2, 1)`
re-reads `nei_b[1]` right after `++j`, one position past the end of `nei_b`; so
it is not the case that every element read of `countCommon` is in bounds. -/
theorem countCommon_reads_past_end :
    StrictAsc ([[], [0], [0, 1]].getD 2 []) ∧ StrictAsc ([[], [0], [0, 1]].getD 1 []) ∧
      countCommon_traced (fun _ => 0) [[], [0], [0, 1]] 2 1
        = some (1, [(false, 0), (true, 0), (false, 1), (true, 1)]) ∧
      ¬ ReadInBounds [[], [0], [0, 1]] 2 1 (true, 1) ∧
      ¬ (∀ (oob : Nat → Nat) (mp : List (List Nat)) (a b : Nat),
          StrictAsc (mp.getD a []) → StrictAsc (mp.getD b []) →
          ∀ c reads, countCommon_traced oob mp a b = some (c, reads) →
            ∀ r ∈ reads, ReadInBounds mp a b r) := by
  have h1 : StrictAsc ([[], [0], [0, 1]].getD 2 []) := by decide
  have h2 : StrictAsc ([[], [0], [0, 1]].getD 1 []) := by decide
  have h3 : countCommon_traced (fun _ => 0) [[], [0], [0, 1]] 2 1
      = some (1, [(false, 0), (true, 0), (false, 1), (true, 1)]) := by decide
  have h4 : ¬ ReadInBounds [[], [0], [0, 1]] 2 1 (true, 1) := by decide
  refine ⟨h1, h2, h3, h4, fun h => ?_⟩
  exact h4 (h (fun _ => 0) [[], [0], [0, 1]] 2 1 h1 h2 1 _ h3 (true, 1) (by decide))

/-- Where the reads of `countCommon` stay in bounds: for vertices `a > b` of a cache
over fewer than `2^32` vertices whose strictly ascending neighbour lists contain
each other (`b` in `mp[a]` and `a` in `mp[b]`: the two directions of an edge of a
symmetric graph), every element read, the re-reads after an increment included,
addresses an element of its list.  On every input whatsoever `countCommon` returns
and no read goes further than one position past the end of its list. -/
theorem countCommon_reads_in_bounds (oob : Nat → Nat) (mp : List (List Nat)) (a b : Nat)
    (hn : mp.length < UINT32_SIZE)
    (hida : ∀ x ∈ mp.getD a [], x < mp.length) (hidb : ∀ x ∈ mp.getD b [], x < mp.length)
    (hsa : StrictAsc (mp.getD a [])) (hsb : StrictAsc (mp.getD b []))
    (hba : b < a) (hab : b ∈ mp.getD a []) (hbb : a ∈ mp.getD b []) :
    (∃ c reads, countCommon_traced oob mp a b = some (c, reads) ∧
        countCommon oob mp a b = some c ∧ ∀ r ∈ reads, ReadInBounds mp a b r) ∧
      ∀ (oob' : Nat → Nat) (mp' : List (List Nat)) (a' b' : Nat),
        ∃ c reads, countCommon_traced oob' mp' a' b' = some (c, reads) ∧
          countCommon oob' mp' a' b' = some c ∧
          ∀ r ∈ reads, if r.1 then r.2 ≤ (mp'.getD b' []).length
            else r.2 ≤ (mp'.getD a' []).length := by
  constructor
  · have hla : (mp.getD a []).length < UINT32_SIZE :=
      Nat.lt_of_le_of_lt (strictAsc_length_le hsa hida) hn
    have hlb : (mp.getD b []).length < UINT32_SIZE :=
      Nat.lt_of_le_of_lt (strictAsc_length_le hsb hidb) hn
    have hpa : 0 < (mp.getD a []).length := List.length_pos_of_mem hab
    have hpb : 0 < (mp.getD b []).length := List.length_pos_of_mem hbb
    have hga : ∀ i, i < (mp.getD a []).length → ReadInBounds mp a b (false, i) := by
      intro i hi
      unfold ReadInBounds
      exact hi
    have hgb : ∀ j, j < (mp.getD b []).length → ReadInBounds mp a b (true, j) := by
      intro j hj
      unfold ReadInBounds
      exact hj
    obtain ⟨c, reads, h1, h2⟩ := countCommon_loop_traced_inBounds (mp.getD a []) (mp.getD b [])
      a b (oob a) (oob b) hsa hsb hba hab hbb (ReadInBounds mp a b) hga hgb
      ((mp.getD a []).length + (mp.getD b []).length) 0 0 0 [(false, 0), (true, 0)] hpa hpb
      (by omega) (by
        intro r hr
        rcases List.mem_cons.mp hr with h | h
        · rw [h]; exact hga 0 hpa
        · rw [List.mem_singleton.mp h]; exact hgb 0 hpb)
    have htr : countCommon_traced oob mp a b = some (c, reads) := by
      unfold countCommon_traced
      simp only []
      rw [Nat.mod_eq_of_lt hla, Nat.mod_eq_of_lt hlb, if_neg (by omega)]
      exact h1
    refine ⟨c, reads, htr, ?_, h2⟩
    rw [← countCommon_traced_fst, htr]
    rfl
  · intro oob' mp' a' b'
    have hmod : ∀ l : List Nat, l.length % UINT32_SIZE ≤ l.length := fun l => Nat.mod_le _ _
    obtain ⟨c, reads, h1, h2⟩ : ∃ c reads, countCommon_traced oob' mp' a' b' = some (c, reads) ∧
        ∀ r ∈ reads, if r.1 then r.2 ≤ (mp'.getD b' []).length
          else r.2 ≤ (mp'.getD a' []).length := by
      unfold countCommon_traced
      simp only []
      split
      · exact ⟨0, [], rfl, fun r hr => absurd hr (List.not_mem_nil _)⟩
      · have hga : ∀ i, i ≤ (mp'.getD a' []).length % UINT32_SIZE →
            (fun r : Bool × Nat => if r.1 then r.2 ≤ (mp'.getD b' []).length
              else r.2 ≤ (mp'.getD a' []).length) (false, i) := by
          intro i hi
          have := hmod (mp'.getD a' [])
          simp only [Bool.false_eq_true, if_false]
          omega
        have hgb : ∀ j, j ≤ (mp'.getD b' []).length % UINT32_SIZE →
            (fun r : Bool × Nat => if r.1 then r.2 ≤ (mp'.getD b' []).length
              else r.2 ≤ (mp'.getD a' []).length) (true, j) := by
          intro j hj
          have := hmod (mp'.getD b' [])
          simp only [if_true]
          omega
        exact countCommon_loop_traced_bound _ _ _ _ a' b' (oob' a') (oob' b') _ hga hgb _ 0 0
          _ _ 0 _ (by omega) (by
            intro r hr
            rcases List.mem_cons.mp hr with h | h
            · rw [h]; exact hga 0 (Nat.zero_le _)
            · rw [List.mem_singleton.mp h]; exact hgb 0 (Nat.zero_le _))
    refine ⟨c, reads, h1, ?_, h2⟩
    rw [← countCommon_traced_fst, h1]
    rfl

/-- The reads of the call `countCommon(3, 2)` on the complete graph on 4 vertices
are in bounds. -/
theorem countCommon_reads_in_bounds_complete4 :
    countCommon_traced (fun _ => 0) complete4 3 2
      = some (2, [(false, 0), (true, 0), (false, 1), (true, 1), (false, 2), (true, 2)]) ∧
    ∃ c reads, countCommon_traced (fun _ => 0) complete4 3 2 = some (c, reads) ∧
      countCommon (fun _ => 0) complete4 3 2 = some c ∧
      ∀ r ∈ reads, ReadInBounds complete4 3 2 r :=
  ⟨by decide, (countCommon_reads_in_bounds (fun _ => 0) complete4 3 2 (by decide) (by decide)
    (by decide) (by decide) (by decide) (by decide) (by decide) (by decide)).1⟩

/-! ## Relabelling the vertices -/

theorem isPermutation_lt {n : Nat} {p : Nat → Nat} (hp : IsPermutation n p) {a : Nat}
    (ha : a < n) : p a < n :=
  List.mem_range.mp (hp.mem_iff.mp (List.mem_map.mpr ⟨a, List.mem_range.mpr ha, rfl⟩))

theorem isPermutation_inj {n : Nat} {p : Nat → Nat} (hp : IsPermutation n p) {a b : Nat}
    (ha : a < n) (hb : b < n) (h : p a = p b) : a = b :=
  List.inj_on_of_nodup_map (hp.nodup_iff.mpr (List.nodup_range n)) (List.mem_range.mpr ha)
    (List.mem_range.mpr hb) h

theorem isPermutation_surj {n : Nat} {p : Nat → Nat} (hp : IsPermutation n p) {v : Nat}
    (hv : v < n) : ∃ a, a < n ∧ p a = v := by
  obtain ⟨a, ha, hav⟩ := List.mem_map.mp (hp.mem_iff.mpr (List.mem_range.mpr hv))
  exact ⟨a, List.mem_range.mp ha, hav⟩

theorem relabel_neighbors (G : Graph) {p : Nat → Nat} (hp : IsPermutation G.num_vertices p)
    {a : Nat} (ha : a < G.num_vertices) :
    (G.relabel p).neighbors (p a) = ((G.neighbors a).map p).insertionSort (· ≤ ·) := by
  unfold Graph.relabel
  simp only []
  cases hfind : (List.range G.num_vertices).find? fun x => p x == p a with
  | none =>
    have := List.find?_eq_none.mp hfind a (List.mem_range.mpr ha)
    simp at this
  | some a' =>
    have h1 : p a' = p a := by simpa using List.find?_some hfind
    have h2 : a' < G.num_vertices := List.mem_range.mp (List.mem_of_find?_eq_some hfind)
    rw [isPermutation_inj hp h2 ha h1]

theorem relabel_mem (G : Graph) {p : Nat → Nat} (hp : IsPermutation G.num_vertices p)
    {a : Nat} (ha : a < G.num_vertices) (y : Nat) :
    y ∈ (G.relabel p).neighbors (p a) ↔ ∃ d, d ∈ G.neighbors a ∧ p d = y := by
  rw [relabel_neighbors G hp ha, List.mem_insertionSort, List.mem_map]

theorem relabel_adj (G : Graph) (hwf : G.WellFormed) {p : Nat → Nat}
    (hp : IsPermutation G.num_vertices p) {a b : Nat} (ha : a < G.num_vertices)
    (hb : b < G.num_vertices) :
    p b ∈ (G.relabel p).neighbors (p a) ↔ b ∈ G.neighbors a := by
  rw [relabel_mem G hp ha]
  constructor
  · rintro ⟨d, hd, hpd⟩
    rw [← isPermutation_inj hp (hwf.2 a ha d hd) hb hpd]
    exact hd
  · intro h
    exact ⟨b, h, rfl⟩

theorem relabel_wellFormed (G : Graph) (hwf : G.WellFormed) {p : Nat → Nat}
    (hp : IsPermutation G.num_vertices p) : (G.relabel p).WellFormed := by
  refine ⟨hwf.1, ?_⟩
  intro s hs d hd
  obtain ⟨a, ha, rfl⟩ := isPermutation_surj hp hs
  obtain ⟨x, hx, rfl⟩ := (relabel_mem G hp ha d).mp hd
  exact isPermutation_lt hp (hwf.2 a ha x hx)

theorem relabel_symmetric (G : Graph) (hwf : G.WellFormed) (hsym : G.Symmetric)
    {p : Nat → Nat} (hp : IsPermutation G.num_vertices p) : (G.relabel p).Symmetric := by
  intro u hu v hv
  obtain ⟨a, ha, rfl⟩ := isPermutation_surj hp hu
  obtain ⟨b, hb, rfl⟩ := isPermutation_surj hp hv
  rw [relabel_adj G hwf hp ha hb, relabel_adj G hwf hp hb ha]
  exact hsym a ha b hb

theorem relabel_strictAsc (G : Graph) (hwf : G.WellFormed)
    (hasc : ∀ v, v < G.num_vertices → StrictAsc (G.neighbors v)) {p : Nat → Nat}
    (hp : IsPermutation G.num_vertices p) :
    ∀ v, v < (G.relabel p).num_vertices → StrictAsc ((G.relabel p).neighbors v) := by
  intro v hv
  obtain ⟨a, ha, rfl⟩ := isPermutation_surj hp hv
  rw [relabel_neighbors G hp ha]
  have hnd : ((G.neighbors a).map p).Nodup :=
    List.Nodup.map_on (fun x hx y hy hxy =>
      isPermutation_inj hp (hwf.2 a ha x hx) (hwf.2 a ha y hy) hxy)
      (strictAsc_nodup (hasc a ha))
  exact (List.sorted_insertionSort (· ≤ ·) _).lt_of_le
    ((List.perm_insertionSort (· ≤ ·) _).nodup_iff.mpr hnd)

theorem mem_triangles (G : Graph) (x y z : Nat) :
    (x, y, z) ∈ triangles G ↔
      z < G.num_vertices ∧ y < z ∧ x < y ∧
        y ∈ G.neighbors x ∧ z ∈ G.neighbors y ∧ z ∈ G.neighbors x := by
  unfold triangles
  simp only [List.mem_flatMap, List.mem_map, List.mem_filter, List.mem_range, Prod.mk.injEq,
    Bool.and_eq_true, decide_eq_true_eq]
  constructor
  · rintro ⟨z', hz', y', hy', x', ⟨hx', ⟨h1, h2⟩, h3⟩, rfl, rfl, rfl⟩
    exact ⟨hz', hy', hx', h1, h2, h3⟩
  · rintro ⟨hz, hy, hx, h1, h2, h3⟩
    exact ⟨z, hz, y, hy, x, ⟨hx, ⟨h1, h2⟩, h3⟩, rfl, rfl, rfl⟩

theorem triangles_nodup (G : Graph) : (triangles G).Nodup := by
  unfold triangles
  rw [List.nodup_flatMap]
  constructor
  · intro z _
    rw [List.nodup_flatMap]
    constructor
    · intro y _
      exact ((List.nodup_range y).filter _).map (fun a b h => by injection h)
    · refine List.Pairwise.imp ?_ (List.nodup_range z)
      intro y y' hne
      simp only [Function.onFun]
      intro t ht ht'
      obtain ⟨x, _, rfl⟩ := List.mem_map.mp ht
      obtain ⟨x', _, heq⟩ := List.mem_map.mp ht'
      injection heq with _ h2
      injection h2 with h3 _
      exact hne h3.symm
  · refine List.Pairwise.imp ?_ (List.nodup_range G.num_vertices)
    intro z z' hne
    simp only [Function.onFun]
    intro t ht ht'
    obtain ⟨y, _, hy⟩ := List.mem_flatMap.mp ht
    obtain ⟨x, _, rfl⟩ := List.mem_map.mp hy
    obtain ⟨y', _, hy'⟩ := List.mem_flatMap.mp ht'
    obtain ⟨x', _, heq⟩ := List.mem_map.mp hy'
    injection heq with _ h2
    injection h2 with _ h3
    exact hne h3.symm

theorem mem_triangleSets (G : Graph) (t : Finset Nat) :
    t ∈ triangleSets G ↔
      (t ⊆ Finset.range G.num_vertices ∧ t.card = 3) ∧
        ∀ a ∈ t, ∀ b ∈ t, a < b → b ∈ G.neighbors a := by
  unfold triangleSets
  rw [Finset.mem_filter, Finset.mem_powersetCard]

/-- The list of triangles and the set of triangle sets have the same size. -/
theorem numTriangles_eq_card (G : Graph) : numTriangles G = (triangleSets G).card := by
  unfold numTriangles
  rw [← List.toFinset_card_of_nodup (triangles_nodup G)]
  refine Finset.card_bij (fun t _ => {t.1, t.2.1, t.2.2}) ?_ ?_ ?_
  · rintro ⟨x, y, z⟩ ht
    obtain ⟨hz, hy, hx, h1, h2, h3⟩ := (mem_triangles G x y z).mp (List.mem_toFinset.mp ht)
    rw [mem_triangleSets]
    refine ⟨⟨?_, ?_⟩, ?_⟩
    · intro a ha
      simp only [Finset.mem_insert, Finset.mem_singleton] at ha
      rw [Finset.mem_range]
      omega
    · exact Finset.card_eq_three.mpr ⟨x, y, z, by omega, by omega, by omega, rfl⟩
    · intro a ha b hb hab
      simp only [Finset.mem_insert, Finset.mem_singleton] at ha hb
      rcases ha with rfl | rfl | rfl <;> rcases hb with rfl | rfl | rfl <;>
        first
          | assumption
          | (exfalso; omega)
  · rintro ⟨x, y, z⟩ ht ⟨x', y', z'⟩ ht' heq
    obtain ⟨_, hy, hx, _⟩ := (mem_triangles G x y z).mp (List.mem_toFinset.mp ht)
    obtain ⟨_, hy', hx', _⟩ := (mem_triangles G x' y' z').mp (List.mem_toFinset.mp ht')
    simp only [] at heq
    have m1 : x ∈ ({x', y', z'} : Finset Nat) := by rw [← heq]; simp
    have m2 : y ∈ ({x', y', z'} : Finset Nat) := by rw [← heq]; simp
    have m3 : z ∈ ({x', y', z'} : Finset Nat) := by rw [← heq]; simp
    have m4 : x' ∈ ({x, y, z} : Finset Nat) := by rw [heq]; simp
    have m5 : y' ∈ ({x, y, z} : Finset Nat) := by rw [heq]; simp
    have m6 : z' ∈ ({x, y, z} : Finset Nat) := by rw [heq]; simp
    simp only [Finset.mem_insert, Finset.mem_singleton] at m1 m2 m3 m4 m5 m6
    have e1 : x = x' := by omega
    have e2 : y = y' := by omega
    have e3 : z = z' := by omega
    rw [e1, e2, e3]
  · intro t ht
    obtain ⟨⟨hsub, hcard⟩, hadj⟩ := (mem_triangleSets G t).mp ht
    have hl : (t.sort (· ≤ ·)).length = 3 := by rw [Finset.length_sort]; exact hcard
    obtain ⟨x, y, z, hxyz⟩ := List.length_eq_three.mp hl
    have hsorted := Finset.sort_sorted (· ≤ ·) t
    have hnodup := Finset.sort_nodup (· ≤ ·) t
    rw [hxyz] at hsorted hnodup
    have hmem : ∀ a, a ∈ t ↔ a = x ∨ a = y ∨ a = z := by
      intro a
      rw [← Finset.mem_sort (· ≤ ·), hxyz]
      simp
    simp only [List.sorted_cons, List.mem_cons, List.mem_singleton, forall_eq_or_imp, forall_eq,
      List.not_mem_nil, IsEmpty.forall_iff, implies_true, List.sorted_nil, and_true] at hsorted
    simp only [List.nodup_cons, List.mem_cons, List.mem_singleton, not_or, List.not_mem_nil,
      not_false_eq_true, List.nodup_nil, and_true] at hnodup
    have hx : x ∈ t := (hmem x).mpr (Or.inl rfl)
    have hy : y ∈ t := (hmem y).mpr (Or.inr (Or.inl rfl))
    have hz : z ∈ t := (hmem z).mpr (Or.inr (Or.inr rfl))
    have hxy : x < y := by omega
    have hyz : y < z := by omega
    refine ⟨(x, y, z), ?_, ?_⟩
    · rw [List.mem_toFinset, mem_triangles]
      exact ⟨Finset.mem_range.mp (hsub hz), hyz, hxy, hadj x hx y hy hxy, hadj y hy z hz hyz,
        hadj x hx z hz (by omega)⟩
    · ext a
      rw [hmem a]
      simp

/-- Relabelling the vertices of a symmetric graph maps its triangle sets one to one
onto those of the relabelled graph. -/
theorem triangleSets_relabel_card (G : Graph) (hwf : G.WellFormed) (hsym : G.Symmetric)
    {p : Nat → Nat} (hp : IsPermutation G.num_vertices p) :
    (triangleSets G).card = (triangleSets (G.relabel p)).card := by
  have hinj : ∀ t : Finset Nat, t ⊆ Finset.range G.num_vertices → Set.InjOn p ↑t := by
    intro t ht a ha b hb hab
    exact isPermutation_inj hp (Finset.mem_range.mp (ht ha)) (Finset.mem_range.mp (ht hb)) hab
  have hadj : ∀ a b, a < G.num_vertices → b < G.num_vertices → a ≠ b →
      ((a < b → b ∈ G.neighbors a) ∧ (b < a → a ∈ G.neighbors b)) → b ∈ G.neighbors a := by
    intro a b ha hb hne h
    rcases Nat.lt_or_gt_of_ne hne with hlt | hgt
    · exact h.1 hlt
    · exact (hsym a ha b hb).mpr (h.2 hgt)
  refine Finset.card_bij (fun t _ => t.image p) ?_ ?_ ?_
  · intro t ht
    obtain ⟨⟨hsub, hcard⟩, hcond⟩ := (mem_triangleSets G t).mp ht
    rw [mem_triangleSets]
    refine ⟨⟨?_, ?_⟩, ?_⟩
    · intro v hv
      obtain ⟨a, ha, rfl⟩ := Finset.mem_image.mp hv
      exact Finset.mem_range.mpr (isPermutation_lt hp (Finset.mem_range.mp (hsub ha)))
    · rw [Finset.card_image_of_injOn (hinj t hsub), hcard]
    · intro u hu v hv huv
      obtain ⟨a, ha, rfl⟩ := Finset.mem_image.mp hu
      obtain ⟨b, hb, rfl⟩ := Finset.mem_image.mp hv
      have han := Finset.mem_range.mp (hsub ha)
      have hbn := Finset.mem_range.mp (hsub hb)
      have hne : a ≠ b := fun h => by rw [h] at huv; exact Nat.lt_irrefl _ huv
      rw [relabel_adj G hwf hp han hbn]
      exact hadj a b han hbn hne ⟨hcond a ha b hb, hcond b hb a ha⟩
  · intro t ht t' ht' heq
    obtain ⟨⟨hsub, _⟩, _⟩ := (mem_triangleSets G t).mp ht
    obtain ⟨⟨hsub', _⟩, _⟩ := (mem_triangleSets G t').mp ht'
    simp only [] at heq
    ext a
    constructor
    · intro ha
      have : p a ∈ t'.image p := by rw [← heq]; exact Finset.mem_image_of_mem p ha
      obtain ⟨b, hb, hab⟩ := Finset.mem_image.mp this
      rw [← isPermutation_inj hp (Finset.mem_range.mp (hsub' hb))
        (Finset.mem_range.mp (hsub ha)) hab]
      exact hb
    · intro ha
      have : p a ∈ t.image p := by rw [heq]; exact Finset.mem_image_of_mem p ha
      obtain ⟨b, hb, hab⟩ := Finset.mem_image.mp this
      rw [← isPermutation_inj hp (Finset.mem_range.mp (hsub hb))
        (Finset.mem_range.mp (hsub' ha)) hab]
      exact hb
  · intro t' ht'
    obtain ⟨⟨hsub', hcard'⟩, hcond'⟩ := (mem_triangleSets (G.relabel p) t').mp ht'
    have hsubn : ∀ v ∈ t', v < G.num_vertices := fun v hv => Finset.mem_range.mp (hsub' hv)
    have hsubt : (Finset.range G.num_vertices).filter (fun a => p a ∈ t')
        ⊆ Finset.range G.num_vertices := Finset.filter_subset _ _
    have himg : ((Finset.range G.num_vertices).filter fun a => p a ∈ t').image p = t' := by
      ext v
      rw [Finset.mem_image]
      constructor
      · rintro ⟨a, ha, rfl⟩
        exact (Finset.mem_filter.mp ha).2
      · intro hv
        obtain ⟨a, ha, hav⟩ := isPermutation_surj hp (hsubn v hv)
        exact ⟨a, Finset.mem_filter.mpr ⟨Finset.mem_range.mpr ha, by rw [hav]; exact hv⟩, hav⟩
    refine ⟨(Finset.range G.num_vertices).filter fun a => p a ∈ t', ?_, himg⟩
    rw [mem_triangleSets]
    refine ⟨⟨hsubt, ?_⟩, ?_⟩
    · rw [← Finset.card_image_of_injOn (hinj _ hsubt), himg, hcard']
    · intro a ha b hb hab
      obtain ⟨han, hat⟩ := Finset.mem_filter.mp ha
      obtain ⟨hbn, hbt⟩ := Finset.mem_filter.mp hb
      have han := Finset.mem_range.mp han
      have hbn := Finset.mem_range.mp hbn
      have hne : p a ≠ p b := fun h => by
        have := isPermutation_inj hp han hbn h
        omega
      rcases Nat.lt_or_gt_of_ne hne with hlt | hgt
      · exact (relabel_adj G hwf hp han hbn).mp (hcond' (p a) hat (p b) hbt hlt)
      · exact (hsym a han b hbn).mpr
          ((relabel_adj G hwf hp hbn han).mp (hcond' (p b) hbt (p a) hat hgt))

/-- The number of triangles of a symmetric graph does not change when its vertices
are relabelled. -/
theorem numTriangles_relabel (G : Graph) (hwf : G.WellFormed) (hsym : G.Symmetric)
    {p : Nat → Nat} (hp : IsPermutation G.num_vertices p) :
    numTriangles (G.relabel p) = numTriangles G := by
  rw [numTriangles_eq_card, numTriangles_eq_card, triangleSets_relabel_card G hwf hsym hp]

/-- C11: for a well-formed symmetric graph on `n` vertices with strictly ascending
neighbour lists and every permutation `p` of `[0, n)`, `TC` returns the same count
on the graph relabelled by `p` (every edge `(s, d)` replaced by `(p s, p d)`, the
neighbour lists sorted ascending again) as on the original graph, whatever the
traversals of the two runs. -/
theorem TC_relabel_invariant (oob oob' : Nat → Nat) (G : Graph) (p : Nat → Nat)
    (workers workers' : Nat) (sched sched' : List Visit) (hwf : G.WellFormed)
    (hsym : G.Symmetric) (hasc : ∀ v, v < G.num_vertices → StrictAsc (G.neighbors v))
    (hp : IsPermutation G.num_vertices p) (hsched : ValidSchedule G workers sched)
    (hsched' : ValidSchedule (G.relabel p) workers' sched') :
    ∃ count, TC oob G (neighborCache G) workers sched = some count ∧
      TC oob' (G.relabel p) (neighborCache (G.relabel p)) workers' sched' = some count ∧
      count = numTriangles G % UINT64_SIZE := by
  refine ⟨numTriangles G % UINT64_SIZE,
    TC_eq_numTriangles_mod oob G _ workers sched hwf (neighborCache_isNeighborCache G) hsym hasc
      hsched, ?_, rfl⟩
  rw [TC_eq_numTriangles_mod oob' (G.relabel p) _ workers' sched' (relabel_wellFormed G hwf hp)
    (neighborCache_isNeighborCache _) (relabel_symmetric G hwf hsym hp)
    (relabel_strictAsc G hwf hasc hp) hsched', numTriangles_relabel G hwf hsym hp]

/-- Witness for C11: the 5-cycle with the chord `0-2`, rotated by two vertices. -/
theorem TC_relabel_invariant_witness :
    IsPermutation 5 rotate5 ∧
    neighborCache ((Graph.ofLists cycleChord5).relabel rotate5)
      = [[1, 4], [0, 2], [1, 3, 4], [2, 4], [0, 2, 3]] ∧
    ∃ count, TC (fun _ => 0) (Graph.ofLists cycleChord5)
        (neighborCache (Graph.ofLists cycleChord5)) 1
        (sequentialSchedule (Graph.ofLists cycleChord5)) = some count ∧
      TC (fun v => v) ((Graph.ofLists cycleChord5).relabel rotate5)
        (neighborCache ((Graph.ofLists cycleChord5).relabel rotate5)) 2
        (reverseSchedule ((Graph.ofLists cycleChord5).relabel rotate5)) = some count ∧
      count = numTriangles (Graph.ofLists cycleChord5) % UINT64_SIZE := by
  have hp : IsPermutation 5 rotate5 := by unfold IsPermutation; decide
  exact ⟨hp, by decide,
    TC_relabel_invariant (fun _ => 0) (fun v => v) (Graph.ofLists cycleChord5) rotate5 1 2
      (sequentialSchedule _) (reverseSchedule _) (by unfold Graph.WellFormed; decide)
      (by unfold Graph.Symmetric; decide) (by decide) hp (sequentialSchedule_valid _)
      (reverseSchedule_valid _)⟩

end LSGraph
